import Mathlib

/-!
Verification development for the `stoplight-migrator` repository.

The development shallowly embeds three components of the source:

* `simple_yaml.py` — the restricted structured-text engine (`load`, `dump`,
  `_parse_scalar`, `_format_scalar`, the recursive-descent block parser);
* `toc.py` — the tree normalizer (`TocParser._parse_item`, `slugify`);
* `migrator.py` — the navigation synthesizer (`StoplightMigrator`), with
  filesystem effects modelled as an explicit event trace.

Python strings are modelled as Lean `String`s and the handful of Python
string primitives the source uses (`strip`, `lstrip`, `rstrip`, `lower`,
`splitlines`, decimal formatting of integers, `int(...)` / `float(...)`
literal recognition) are embedded explicitly below.  Modelling notes:

* `str.lower` is modelled character-wise on ASCII (`Char.toLower`); Python
  lowercases the full Unicode range and can map non-ASCII code points into
  ASCII (U+212A KELVIN SIGN lowers to `k`).  Every statement whose fidelity
  depends on agreement with the full lowering carries an explicit ASCII side
  condition: the round-trip safe class (`safeStrB`) admits only ASCII
  plain-emitted scalars, and the dropped-node law (`claim_C7`) requires an
  ASCII discriminator string.  `slugify` idempotence needs no such condition:
  the inner application acts on `slugify` output, which consists of
  `[a-z0-9-]` characters, on which the two lowerings agree.
* `int(...)` and `float(...)` recognize ASCII digit literals (with PEP 515
  underscores); Python additionally accepts non-ASCII decimal digits
  (`int("５") = 5`).  The round-trip safe class therefore requires
  plain-emitted scalars to be ASCII, on which the recognizers agree with
  Python; force-quoted scalars are unaffected (no string starting with a
  double quote is `int()`- or `float()`-parseable in either semantics).
-/

namespace StoplightVerify

/-- Code points Python `str.strip()` / `str.isspace()` treat as whitespace:
space, tab, LF, CR, VT, FF, the file/group/record/unit separators 28-31,
NEL 133, NBSP 160, Ogham space 5760, the U+2000-U+200A spaces, line/paragraph
separators 8232/8233, narrow NBSP 8239, medium mathematical space 8287, and
the ideographic space 12288. -/
def pySpaceCodes : List Nat :=
  [32, 9, 10, 13, 11, 12, 28, 29, 30, 31, 133, 160, 5760, 8232, 8233, 8239, 8287, 12288]

/-- Python whitespace test on a character. -/
def pyIsSpace (c : Char) : Bool :=
  pySpaceCodes.contains c.toNat || (8192 <= c.toNat && c.toNat <= 8202)

/-- Code points at which Python `str.splitlines()` breaks a line: LF, CR, VT,
FF, the separators 28-30, NEL 133, and the line/paragraph separators
8232/8233 (`\r\n` is treated as a single break by `pySplitlines` below). -/
def pyLineBreakCodes : List Nat := [10, 13, 11, 12, 28, 29, 30, 133, 8232, 8233]

def pyIsLineBreak (c : Char) : Bool := pyLineBreakCodes.contains c.toNat

/-- Python `str.lstrip()` (no argument: strips whitespace). -/
def pyLstrip (s : String) : String := ⟨s.data.dropWhile pyIsSpace⟩

/-- Python `str.rstrip()` (no argument: strips whitespace). -/
def pyRstrip (s : String) : String := ⟨(s.data.reverse.dropWhile pyIsSpace).reverse⟩

/-- Python `str.strip()` (no argument: strips whitespace on both sides). -/
def pyStrip (s : String) : String := pyRstrip (pyLstrip s)

/-- Python `str.strip(chars)` restricted to a single character `c`
(used by the source as `.strip("-")`). -/
def pyStripChar (s : String) (c : Char) : String :=
  ⟨((s.data.dropWhile (· = c)).reverse.dropWhile (· = c)).reverse⟩

/-- Python `str.rstrip("\n")`: strips trailing newline characters only. -/
def pyRstripNewline (s : String) : String :=
  ⟨(s.data.reverse.dropWhile (· = '\n')).reverse⟩

/-- Python `len(line) - len(line.lstrip(" "))`: the number of leading space
characters (spaces only, not tabs) — the indent measure of `simple_yaml._Line`. -/
def leadingSpaces (s : String) : Nat := (s.data.takeWhile (· = ' ')).length

/-- Python `str.lower()`, character-wise ASCII (see the module note). -/
def pyLower (s : String) : String := ⟨s.data.map Char.toLower⟩

/-- Python `str.startswith` (string needle), via the character lists (the
`String` primitives do not reduce in the kernel). -/
def strStartsWith (s pre : String) : Bool := pre.data.isPrefixOf s.data

/-- Python `str.endswith` (string needle). -/
def strEndsWith (s suf : String) : Bool := suf.data.isSuffixOf s.data

/-- `c in s` for a single character (Python substring membership of a
one-character needle). -/
def strContains (s : String) (c : Char) : Bool := s.data.contains c

/-- `any(ch in text for ch in chars)`: does `text` contain any character of
`chars`? -/
def containsAnyOf (text : String) (chars : List Char) : Bool :=
  text.data.any (fun c => chars.contains c)

mutual
/-- Python `str.splitlines()` worker over the character list (`\r\n` is a
single break; any other break character splits by itself). -/
def pySplitlinesGo (cur : List Char) : List Char → List (List Char)
  | [] => [cur]
  | c :: rest =>
    if c = '\x0d' then cur :: pySplitlinesAfterCR rest
    else if pyIsLineBreak c then cur :: pySplitlinesGo [] rest
    else pySplitlinesGo (cur ++ [c]) rest

/-- Continuation after a carriage return: a following line feed belongs to
the same break. -/
def pySplitlinesAfterCR : List Char → List (List Char)
  | [] => [[]]
  | c :: rest =>
    if c = '\n' then pySplitlinesGo [] rest
    else if pyIsLineBreak c then [] :: pySplitlinesGo [] rest
    else pySplitlinesGo [c] rest
end

/-- Python `str.splitlines()`.  Splits at every line-break character, with
`\r\n` counting as a single break; a trailing break produces no empty final
line; the empty string yields no lines. -/
def pySplitlines (s : String) : List String :=
  match s.data with
  | [] => []
  | cs =>
    let parts := pySplitlinesGo [] cs
    let parts := if pyIsLineBreak (cs.getLast!) then parts.dropLast else parts
    parts.map String.mk

/-- Decimal digits of a natural number, most significant first, as Python
`str` renders them (`f"{n}"` and `str(n)`): fuelled worker (structural on the
fuel so it reduces in the kernel; `natDecimal` supplies fuel `n + 1`, which
exceeds the digit count, and `natDecimalGo_spec` shows the fuel is
irrelevant from there on). -/
def natDecimalGo : Nat → Nat → List Char → List Char
  | 0, _, acc => acc
  | fuel + 1, n, acc =>
    let d := Char.ofNat (48 + n % 10)
    if n < 10 then d :: acc else natDecimalGo fuel (n / 10) (d :: acc)

/-- The same digit list, by well-founded recursion on `n` (proof-side
specification for `natDecimalGo`). -/
def natDigitsGo (n : Nat) (acc : List Char) : List Char :=
  let d := Char.ofNat (48 + n % 10)
  if h : n < 10 then d :: acc
  else natDigitsGo (n / 10) (d :: acc)
termination_by n
decreasing_by
  exact Nat.div_lt_self (by omega) (by omega)

def natDecimal (n : Nat) : String := ⟨natDecimalGo (n + 1) n []⟩

/-- Python `str(i)` for an `int`. -/
def intDecimal (i : Int) : String :=
  if i < 0 then "-" ++ natDecimal i.natAbs else natDecimal i.toNat

def isAsciiDigit (c : Char) : Bool := '0' ≤ c && c ≤ '9'

def digitVal (c : Char) : Nat := c.toNat - 48

/-- Parse a nonempty run of ASCII digits possibly containing PEP 515
underscores (single underscores strictly between digits), returning its value.
`prevDigit` records whether the previous character was a digit. -/
def parseDigitsU (prevDigit : Bool) (acc : Nat) : List Char → Option Nat
  | [] => if prevDigit then some acc else none
  | c :: rest =>
    if isAsciiDigit c then parseDigitsU true (acc * 10 + digitVal c) rest
    else if c = '_' && prevDigit then
      match rest with
      | d :: _ => if isAsciiDigit d then parseDigitsU false acc rest else none
      | [] => none
    else none

/-- Python `int(value)`: optional sign followed by an underscore-grouped digit
run; `none` models `ValueError`.  (Surrounding whitespace is stripped first,
as `int` does.) -/
def pyIntParse (s : String) : Option Int :=
  match (pyStrip s).data with
  | '+' :: rest => (parseDigitsU false 0 rest).map Int.ofNat
  | '-' :: rest => (parseDigitsU false 0 rest).map (fun n => -(Int.ofNat n))
  | t => (parseDigitsU false 0 t).map Int.ofNat

/-- Split a character list at every occurrence of `sep` (the list of parts;
always nonempty). -/
def splitOnChar (sep : Char) : List Char → List (List Char)
  | [] => [[]]
  | c :: rest =>
    if c = sep then [] :: splitOnChar sep rest
    else
      match splitOnChar sep rest with
      | t :: ts => (c :: t) :: ts
      | [] => [[c]]

/-- A digit run with PEP 515 underscores, recognizer only. -/
def digitsURec (prevDigit : Bool) : List Char → Bool
  | [] => prevDigit
  | c :: rest =>
    if isAsciiDigit c then digitsURec true rest
    else if c = '_' && prevDigit then
      match rest with
      | d :: _ => isAsciiDigit d && digitsURec false rest
      | [] => false
    else false

/-- Does `cs` form a Python float mantissa (`digits`, `digits.`,
`digits.digits`, or `.digits`)? -/
def floatMantissaOk (cs : List Char) : Bool :=
  match splitOnChar '.' cs with
  | [intPart, fracPart] =>
    (decide (intPart = []) || digitsURec false intPart) &&
    (decide (fracPart = []) || digitsURec false fracPart) &&
    (decide (intPart ≠ []) || decide (fracPart ≠ []))
  | [onlyPart] => digitsURec false onlyPart
  | _ => false

/-- Drop one optional leading sign character. -/
def stripSign : List Char → List Char
  | c :: rest => if c = '+' || c = '-' then rest else c :: rest
  | [] => []

/-- Python `float(value)` success, recognizer only (the numeric value is never
needed by the verified properties; `inf` and `nan` forms contain no `.` and
are unreachable at the single call site, which is guarded by `"." in value`). -/
def pyFloatOk (s : String) : Bool :=
  let t := stripSign (pyStrip s).data
  let parts := splitOnChar 'e' t
  let parts := if parts.length = 1 then splitOnChar 'E' t else parts
  match parts with
  | [mant] => floatMantissaOk mant
  | [mant, expPart] => floatMantissaOk mant && digitsURec false (stripSign expPart)
  | _ => false

/-! ## The structured-document value type (`simple_yaml`'s in-memory values) -/

/-- The single-quote character (written via its code point to keep the
source file free of quote-character literals). -/
def sqChar : Char := Char.ofNat 39

/-- The double-quote character. -/
def dqChar : Char := Char.ofNat 34

/-- The backtick character. -/
def btChar : Char := Char.ofNat 96

/-- A Python value handled by `simple_yaml`: ordered mapping, list, or scalar
(string, int, float, bool, None).  A float is represented by the literal text
`_parse_scalar` accepted for it; its numeric value and Python `str()`
rendering lie outside the model (no verified property constructs a float). -/
inductive Value where
  | str (s : String)
  | int (n : Int)
  | pyFloat (lit : String)
  | bool (b : Bool)
  | null
  | list (xs : List Value)
  | map (kvs : List (String × Value))

mutual
def Value.beq : Value → Value → Bool
  | .str a, .str b => a == b
  | .int a, .int b => a == b
  | .pyFloat a, .pyFloat b => a == b
  | .bool a, .bool b => a == b
  | .null, .null => true
  | .list xs, .list ys => Value.beqList xs ys
  | .map xs, .map ys => Value.beqKvs xs ys
  | _, _ => false
def Value.beqList : List Value → List Value → Bool
  | [], [] => true
  | a :: as2, b :: bs2 => Value.beq a b && Value.beqList as2 bs2
  | _, _ => false
def Value.beqKvs : List (String × Value) → List (String × Value) → Bool
  | [], [] => true
  | (k1, a) :: as2, (k2, b) :: bs2 => k1 == k2 && Value.beq a b && Value.beqKvs as2 bs2
  | _, _ => false
end

mutual
theorem Value.beq_iff : ∀ a b : Value, Value.beq a b = true ↔ a = b
  | .str _, .str _ => by simp [Value.beq]
  | .str _, .int _ => by simp [Value.beq]
  | .str _, .pyFloat _ => by simp [Value.beq]
  | .str _, .bool _ => by simp [Value.beq]
  | .str _, .null => by simp [Value.beq]
  | .str _, .list _ => by simp [Value.beq]
  | .str _, .map _ => by simp [Value.beq]
  | .int _, .str _ => by simp [Value.beq]
  | .int _, .int _ => by simp [Value.beq]
  | .int _, .pyFloat _ => by simp [Value.beq]
  | .int _, .bool _ => by simp [Value.beq]
  | .int _, .null => by simp [Value.beq]
  | .int _, .list _ => by simp [Value.beq]
  | .int _, .map _ => by simp [Value.beq]
  | .pyFloat _, .str _ => by simp [Value.beq]
  | .pyFloat _, .int _ => by simp [Value.beq]
  | .pyFloat _, .pyFloat _ => by simp [Value.beq]
  | .pyFloat _, .bool _ => by simp [Value.beq]
  | .pyFloat _, .null => by simp [Value.beq]
  | .pyFloat _, .list _ => by simp [Value.beq]
  | .pyFloat _, .map _ => by simp [Value.beq]
  | .bool _, .str _ => by simp [Value.beq]
  | .bool _, .int _ => by simp [Value.beq]
  | .bool _, .pyFloat _ => by simp [Value.beq]
  | .bool _, .bool _ => by simp [Value.beq]
  | .bool _, .null => by simp [Value.beq]
  | .bool _, .list _ => by simp [Value.beq]
  | .bool _, .map _ => by simp [Value.beq]
  | .null, .str _ => by simp [Value.beq]
  | .null, .int _ => by simp [Value.beq]
  | .null, .pyFloat _ => by simp [Value.beq]
  | .null, .bool _ => by simp [Value.beq]
  | .null, .null => by simp [Value.beq]
  | .null, .list _ => by simp [Value.beq]
  | .null, .map _ => by simp [Value.beq]
  | .list _, .str _ => by simp [Value.beq]
  | .list _, .int _ => by simp [Value.beq]
  | .list _, .pyFloat _ => by simp [Value.beq]
  | .list _, .bool _ => by simp [Value.beq]
  | .list _, .null => by simp [Value.beq]
  | .list xs, .list ys => by simp [Value.beq, Value.beqList_iff xs ys]
  | .list _, .map _ => by simp [Value.beq]
  | .map _, .str _ => by simp [Value.beq]
  | .map _, .int _ => by simp [Value.beq]
  | .map _, .pyFloat _ => by simp [Value.beq]
  | .map _, .bool _ => by simp [Value.beq]
  | .map _, .null => by simp [Value.beq]
  | .map _, .list _ => by simp [Value.beq]
  | .map xs, .map ys => by simp [Value.beq, Value.beqKvs_iff xs ys]
theorem Value.beqList_iff : ∀ a b : List Value, Value.beqList a b = true ↔ a = b
  | [], [] => by simp [Value.beqList]
  | a :: as2, b :: bs2 => by
      simp [Value.beqList, Value.beq_iff a b, Value.beqList_iff as2 bs2]
  | [], _ :: _ => by simp [Value.beqList]
  | _ :: _, [] => by simp [Value.beqList]
theorem Value.beqKvs_iff : ∀ a b : List (String × Value), Value.beqKvs a b = true ↔ a = b
  | [], [] => by simp [Value.beqKvs]
  | (k1, a) :: as2, (k2, b) :: bs2 => by
      simp [Value.beqKvs, Value.beq_iff a b, Value.beqKvs_iff as2 bs2, Prod.ext_iff]
  | [], _ :: _ => by simp [Value.beqKvs]
  | _ :: _, [] => by simp [Value.beqKvs]
end

instance : DecidableEq Value := fun a b => decidable_of_iff _ (Value.beq_iff a b)

instance {ε α : Type} [DecidableEq ε] [DecidableEq α] : DecidableEq (Except ε α) := fun
  | .error a, .error b => decidable_of_iff (a = b) (by simp)
  | .ok a, .ok b => decidable_of_iff (a = b) (by simp)
  | .error _, .ok _ => .isFalse (by simp)
  | .ok _, .error _ => .isFalse (by simp)

/-! ## Serialization (`simple_yaml.dump`) -/

/-- The character set of the Python literal in `_format_scalar`:
newline, colon, hash, braces, brackets, double quote, single quote,
at-sign, backtick. -/
def specialChars : List Char :=
  ['\n', ':', '#', '{', '}', '[', ']', dqChar, sqChar, '@', btChar]

/-- `"''"`: two single quotes, `_format_scalar`'s encoding of the empty
string. -/
def twoSingleQuotes : String := ⟨[sqChar, sqChar]⟩

def backslashStr : String := ⟨['\\']⟩

def dqStr : String := ⟨[dqChar]⟩

def sqStr : String := ⟨[sqChar]⟩

/-- Replace every occurrence of the single character `target` by the
character list `rep` (Python `str.replace` with a one-character needle). -/
def replaceCharBy (l : List Char) (target : Char) (rep : List Char) : List Char :=
  l.flatMap (fun c => if c = target then rep else [c])

/-- The chained `text.replace` calls of `_format_scalar`: double each
backslash, then escape each double quote. -/
def escapeQuoted (s : String) : String :=
  ⟨replaceCharBy (replaceCharBy s.data '\\' ['\\', '\\']) dqChar ['\\', dqChar]⟩

/-- `simple_yaml._format_scalar`.  The `.list`/`.map` cases are unreachable
from `_dump_value` (which guards on them first); they are given a harmless
value here. -/
def formatScalar : Value → String
  | .bool b => if b then "true" else "false"
  | .null => "null"
  | .int n => intDecimal n
  | .pyFloat lit => lit
  | .str s =>
      if s = "" then twoSingleQuotes
      else if containsAnyOf s specialChars || pyStrip s ≠ s then
        dqStr ++ escapeQuoted s ++ dqStr
      else s
  | .list _ => ""
  | .map _ => ""

/-- `n` space characters (the `" " * indent` prefix of `_dump_value`). -/
def spaces (n : Nat) : String := ⟨List.replicate n ' '⟩

mutual
/-- `simple_yaml._dump_value`. -/
def dumpValue : Value → Nat → List String
  | .list items, indent => dumpListItems items indent
  | .map kvs, indent => dumpMapItems kvs indent
  | sc, indent => [spaces indent ++ formatScalar sc]

def dumpListItems : List Value → Nat → List String
  | [], _ => []
  | item :: rest, indent =>
    (match item with
     | .list xs => (spaces indent ++ "-") :: dumpValue (.list xs) (indent + 2)
     | .map kvs => (spaces indent ++ "-") :: dumpValue (.map kvs) (indent + 2)
     | sc => [spaces indent ++ "- " ++ formatScalar sc]) ++ dumpListItems rest indent

def dumpMapItems : List (String × Value) → Nat → List String
  | [], _ => []
  | (key, item) :: rest, indent =>
    (match item with
     | .list xs => (spaces indent ++ key ++ ":") :: dumpValue (.list xs) (indent + 2)
     | .map kvs => (spaces indent ++ key ++ ":") :: dumpValue (.map kvs) (indent + 2)
     | sc => [spaces indent ++ key ++ ": " ++ formatScalar sc]) ++ dumpMapItems rest indent
end

/-- Python `"\n".join(lines)`. -/
def joinNL : List String → String
  | [] => ""
  | [l] => l
  | l :: rest => l ++ "\n" ++ joinNL rest

/-- `simple_yaml.dump`. -/
def dump (v : Value) : String :=
  pyRstrip (joinNL (dumpValue v 0)) ++ "\n"

/-! ## Scalar decoding (`simple_yaml._parse_scalar`) -/

/-- `simple_yaml._parse_scalar`. -/
def parseScalar (value : String) : Value :=
  if value = "" then .str ""
  else
    let lowered := pyLower value
    if lowered = "null" then .null
    else if lowered = "true" then .bool true
    else if lowered = "false" then .bool false
    else
      let numRes : Option Value :=
        if strContains value '.' then
          if pyFloatOk value then some (.pyFloat value) else none
        else (pyIntParse value).map Value.int
      match numRes with
      | some v => v
      | none =>
        if (strStartsWith value sqStr && strEndsWith value sqStr) ||
           (strStartsWith value dqStr && strEndsWith value dqStr) then
          .str ⟨(value.data.drop 1).dropLast⟩
        else .str value

/-! ## The block parser (`SimpleYaml`) -/

structure Line where
  text : String
  indent : Nat
deriving DecidableEq, Repr

/-- `SimpleYaml.__init__`: each raw line keeps its text (with trailing
newlines stripped) and its count of leading spaces. -/
def lineOf (raw : String) : Line :=
  { text := pyRstripNewline raw, indent := leadingSpaces raw }

/-- A line `_peek` and `_skip_blank_lines` skip: blank, or first
non-whitespace character `#`. -/
def skippable (l : Line) : Bool :=
  pyStrip l.text = "" || strStartsWith (pyLstrip l.text) "#"

inductive YamlError where
  | unexpectedIndent
  | mixedCollection
  | unexpectedIndentInMapping
  | structureAfterScalarItem
  | multilineScalar
  | invalidMappingEntry (text : String)
  | trailingContent
  | outOfFuel
deriving DecidableEq, Repr

/-- The `collection` marker of `_parse_block`: `None`, `"list"`, `"dict"`. -/
inductive Coll where
  | cnone
  | clist
  | cdict
deriving DecidableEq, Repr

/-- End of `_parse_block`: which collection to return. -/
def finishColl (coll : Coll) (items : List Value) (mp : List (String × Value)) : Value :=
  match coll with
  | .clist => .list items
  | .cdict => .map mp
  | .cnone => .map []

/-- `OrderedDict` assignment `d[key] = value`: replace in place if the key
exists, else append. -/
def odSet : List (String × Value) → String → Value → List (String × Value)
  | [], k, v => [(k, v)]
  | (k0, v0) :: rest, k, v =>
    if k0 = k then (k, v) :: rest else (k0, v0) :: odSet rest k v

/-- Python `text.split(sep, 1)`: split at the first occurrence, `none` when
the separator does not occur. -/
def splitFirst : List Char → Char → Option (List Char × List Char)
  | [], _ => none
  | c :: rest, sep =>
    if c = sep then some ([], rest)
    else (splitFirst rest sep).map (fun p => (c :: p.1, p.2))

/-- `SimpleYaml._parse_key_value`.  The third component models
`value_or_marker`; when `has_value` is false the source returns `None` there
and never reads it. -/
def parseKeyValue (text : String) : Except YamlError (String × Bool × Value) :=
  match splitFirst text.data ':' with
  | none => .error (.invalidMappingEntry text)
  | some (k, r) =>
    let key := pyStrip ⟨k⟩
    let remainder := pyStrip ⟨r⟩
    if remainder = "" then .ok (key, false, .null)
    else if remainder = "|" || remainder = ">" then .error .multilineScalar
    else .ok (key, true, parseScalar remainder)

abbrev Lines := List Line

/-- A parse result: the value plus the remaining lines (the functional image
of the source's mutable `self.index`; rewinds to `saved_index` are modelled
by returning the corresponding earlier suffix). -/
abbrev PR (α : Type) := Except YamlError (α × Lines)

/-! The parser functions, mutually recursive exactly as in the source, made
structurally recursive on an explicit fuel parameter (the source recurses on
the strictly decreasing remaining-input measure; fuel exhaustion, modelled as
an error, is unreachable at the fuel `load` supplies — see `parseFuel`). -/
mutual
/-- `SimpleYaml._parse_block` (entry: the loop below does the work). -/
def parseBlockF : Nat → Nat → Lines → PR Value
  | 0, _, _ => .error .outOfFuel
  | fuel + 1, expected, ls => blockLoopF fuel expected ls .cnone [] []
termination_by structural fuel => fuel

/-- The `while` loop of `_parse_block`, carrying `collection`, `items_list`
and `mapping`. -/
def blockLoopF : Nat → Nat → Lines → Coll → List Value → List (String × Value) → PR Value
  | 0, _, _, _, _, _ => .error .outOfFuel
  | fuel + 1, expected, ls, coll, items, mp =>
    match ls.dropWhile skippable with
    | [] => .ok (finishColl coll items mp, [])
    | line :: tl =>
      if line.indent < expected then .ok (finishColl coll items mp, ls)
      else if line.indent > expected then .error .unexpectedIndent
      else
        let text := pyStrip line.text
        if text = "-" || strStartsWith text "- " then
          if coll = .cdict then .error .mixedCollection
          else
            match parseListItemF fuel (pyLstrip ⟨text.data.drop 1⟩) expected tl with
            | .error e => .error e
            | .ok (value, rest) => blockLoopF fuel expected rest .clist (items ++ [value]) mp
        else
          if coll = .clist then .error .mixedCollection
          else
            match parseKeyValue text with
            | .error e => .error e
            | .ok (key, hasValue, vm) =>
              if hasValue = false || vm = .str "__BLOCK__" then
                match parseBlockF fuel (expected + 2) tl with
                | .error e => .error e
                | .ok (value, rest) =>
                    blockLoopF fuel expected rest .cdict items (odSet mp key value)
              else blockLoopF fuel expected tl .cdict items (odSet mp key vm)
termination_by structural fuel => fuel

/-- `SimpleYaml._parse_list_item`. -/
def parseListItemF : Nat → String → Nat → Lines → PR Value
  | 0, _, _, _ => .error .outOfFuel
  | fuel + 1, text, parentIndent, ls =>
    if text = "" then parseBlockF fuel (parentIndent + 2) ls
    else if strEndsWith text ":" then
      let key := pyStrip ⟨text.data.dropLast⟩
      match parseBlockF fuel (parentIndent + 2) ls with
      | .error e => .error e
      | .ok (value, rest) => .ok (.map [(key, value)], rest)
    else
      match splitFirst text.data ':' with
      | some (k, r) =>
        let key := pyStrip ⟨k⟩
        let remainder := pyStrip ⟨r⟩
        match (if remainder ≠ "" then .ok (parseScalar remainder, ls)
               else parseBlockF fuel (parentIndent + 2) ls : PR Value) with
        | .error e => .error e
        | .ok (value, rest) => collectF fuel (.map [(key, value)]) (parentIndent + 2) rest
      | none =>
        collectF fuel (parseScalar (pyStrip text)) (parentIndent + 2) ls
termination_by structural fuel => fuel

/-- `SimpleYaml._collect_additional_mapping_entries`. -/
def collectF : Nat → Value → Nat → Lines → PR Value
  | 0, _, _, _ => .error .outOfFuel
  | fuel + 1, current, indent, ls =>
    match current with
    | .map mp0 =>
      match ls.dropWhile skippable with
      | [] => .ok (.map mp0, [])
      | line :: tl =>
        if line.indent < indent then .ok (.map mp0, line :: tl)
        else if line.indent > indent then .error .unexpectedIndentInMapping
        else
          let text := pyStrip line.text
          if strStartsWith text "- " then .ok (.map mp0, line :: tl)
          else
            match parseKeyValue text with
            | .error e => .error e
            | .ok (key, hasValue, vm) =>
              if hasValue = false || vm = .str "__BLOCK__" then
                match parseBlockF fuel (indent + 2) tl with
                | .error e => .error e
                | .ok (value, rest) => collectF fuel (.map (odSet mp0 key value)) indent rest
              else collectF fuel (.map (odSet mp0 key vm)) indent tl
    | other =>
      match ls.dropWhile skippable with
      | [] => .ok (other, ls)
      | line :: _ =>
        if line.indent ≥ indent && !strStartsWith (pyStrip line.text) "- " then
          .error .structureAfterScalarItem
        else .ok (other, ls)
termination_by structural fuel => fuel
end

/-- `SimpleYaml.parse`. -/
def parseLinesF (fuel : Nat) (ls : Lines) : Except YamlError Value :=
  match parseBlockF fuel 0 ls with
  | .error e => .error e
  | .ok (value, rest) =>
    if rest.dropWhile skippable = [] then .ok value else .error .trailingContent

/-- Fuel sufficient for `parseLinesF` on `n` input lines: each consumed line
triggers at most four nested calls before the next line is consumed, plus a
constant epilogue; exhaustion is unreachable at this bound. -/
def parseFuel (n : Nat) : Nat := 4 * n + 8

/-- `simple_yaml.load`. -/
def load (text : String) : Except YamlError Value :=
  parseLinesF (parseFuel (pySplitlines text).length) ((pySplitlines text).map lineOf)

/-! ## `toc.py`: slugify and the tree normalizer -/

/-- Is `c` in `[a-z0-9]` (the complement of `toc._slug_pattern`)? -/
def isSlugChar (c : Char) : Bool := ('a' ≤ c && c ≤ 'z') || isAsciiDigit c

/-- `_slug_pattern.sub("-", s)`: replace every maximal run of
non-`[a-z0-9]` characters by a single hyphen.  `prevHyphen` records whether
the previous character belonged to a run already replaced. -/
def slugReplaceGo (prevHyphen : Bool) : List Char → List Char
  | [] => []
  | c :: rest =>
    if isSlugChar c then c :: slugReplaceGo false rest
    else if prevHyphen then slugReplaceGo true rest
    else '-' :: slugReplaceGo true rest

/-- `toc.slugify`. -/
def slugify (value : String) : String :=
  let lowered := pyLower (pyStrip value)
  let replaced : String := ⟨slugReplaceGo false lowered.data⟩
  let slug := pyStripChar replaced '-'
  if slug = "" then "page" else slug

/-- A JSON value: the shape of the raw table-of-contents records `toc.py`
receives (the output of `json.load`).  JSON numbers are modelled as
integers; no claim involves fractional raw data. -/
inductive Json where
  | null
  | bool (b : Bool)
  | num (n : Int)
  | str (s : String)
  | arr (xs : List Json)
  | obj (kvs : List (String × Json))

/-- Python truthiness of a JSON value. -/
def jTruthy : Json → Bool
  | .null => false
  | .bool b => b
  | .num n => n != 0
  | .str s => s != ""
  | .arr xs => !xs.isEmpty
  | .obj kvs => !kvs.isEmpty

/-- `item.get(key)`: `none` when the key is absent. -/
def jGet (kvs : List (String × Json)) (k : String) : Option Json :=
  (kvs.find? (fun kv => kv.1 == k)).map (fun kv => kv.2)

/-- Python `a or b`, where a missing key (`None` from `.get`) is falsy. -/
def jOr (a : Option Json) (b : Json) : Json :=
  match a with
  | some v => if jTruthy v then v else b
  | none => b

/-- `item.get(k1) or item.get(k2) or ...`: the last falsy value collapses to
`None` (the chain's overall value is only ever tested for truthiness or used
when truthy). -/
def chainGet (kvs : List (String × Json)) : List String → Json
  | [] => .null
  | [k] => (jGet kvs k).getD .null
  | k :: rest => jOr (jGet kvs k) (chainGet kvs rest)

/-- Fallback rendering of a JSON value stored into a `str`-annotated field (a
modelling device for raw records that put non-string data in title/slug/id
fields — the Python code stores the value unchanged and would crash on later
string operations; no verified property inspects such renderings). -/
def jRender : Json → String
  | .null => "None"
  | .bool b => if b then "True" else "False"
  | .num n => intDecimal n
  | .str s => s
  | .arr _ => "[]"
  | .obj _ => "\x7b\x7d"

/-- A truthy chain result stored into an `Optional[str]` field: falsy values
are never read back (each use site re-tests truthiness), so they collapse to
`none`. -/
def jToOptStr (j : Json) : Option String :=
  if jTruthy j then some (jRender j) else none

/-- `toc.StoplightNode`, with the dataclass's annotated field types
(`type: str`, `title: str`, `slug: Optional[str]`, `id: Optional[str]`,
`raw: dict`, `children: List[StoplightNode]`). -/
structure StoplightNode where
  type : String
  title : String
  slug : Option String
  id : Option String
  raw : Json
  children : List StoplightNode

/-- `StoplightNode.is_markdown`. -/
def StoplightNode.isMarkdown (n : StoplightNode) : Bool :=
  ["article", "markdown", "page", "md"].contains n.type

/-- `StoplightNode.isSection` (`is_section` in the source). -/
def StoplightNode.isSection (n : StoplightNode) : Bool :=
  ["group", "section", "chapter", "node", "http_service"].contains n.type

/-- Group-like discriminator tags of `TocParser._parse_item`. -/
def groupTags : List String := ["group", "section", "chapter", "http_service", "http-service"]

/-- Leaf-like discriminator tags of `TocParser._parse_item`. -/
def articleTags : List String := ["markdown", "page", "article", "md", "http_service.operation"]

/-- Accepted child-list field names, in probe order. -/
def childKeys : List String := ["items", "children", "contents", "nodes"]

/-- `children_data`: the first probed key that is present with a list value
(a present non-list value does not stop the probe). -/
def findListUnder : List String → List (String × Json) → Option (List Json)
  | [], _ => none
  | k :: rest, kvs =>
    match jGet kvs k with
    | some (.arr xs) => some xs
    | _ => findListUnder rest kvs

/-- A Python exception escaping `_parse_item` (`.lower()` on a truthy
non-string discriminator), plus the fuel sentinel. -/
inductive PyErr where
  | attributeError
  | outOfFuel
deriving DecidableEq, Repr

mutual
/-- `TocParser._parse_item`, structurally recursive on fuel (the source
recurses into strictly smaller subrecords; exhaustion is unreachable at the
fuel `tocParse` supplies, namely the record's size). -/
def parseItemF : Nat → Json → Except PyErr (Option StoplightNode)
  | 0, _ => .error .outOfFuel
  | fuel + 1, item =>
    match item with
    | .obj kvs =>
      match jOr (jGet kvs "type") (jOr (jGet kvs "kind") (.str "")) with
      | .str ds =>
        let nodeType := pyLower ds
        let titleJ := chainGet kvs ["title", "name", "label"]
        let titleJ := if jTruthy titleJ then titleJ
          else jOr (jGet kvs "slug") (jOr (jGet kvs "id") (.str "Untitled"))
        let title := jRender titleJ
        let slug := jToOptStr (chainGet kvs ["slug", "uriSlug", "permalink"])
        let nodeId := jToOptStr (chainGet kvs ["id", "targetId"])
        let childrenData := findListUnder childKeys kvs
        if groupTags.contains nodeType then
          match parseItemsF fuel (childrenData.getD []) with
          | .error e => .error e
          | .ok children =>
              .ok (some ⟨"group", title, slug, nodeId, item, children⟩)
        else if articleTags.contains nodeType then
          .ok (some ⟨"article", title, slug, nodeId, item, []⟩)
        else
          match childrenData with
          | some (x :: xs) =>
            match parseItemsF fuel (x :: xs) with
            | .error e => .error e
            | .ok children =>
                .ok (some ⟨"group", title, slug, nodeId, item, children⟩)
          | _ =>
            if jTruthy ((jGet kvs "markdown").getD .null) then
              .ok (some ⟨"article", title, slug, nodeId, item, []⟩)
            else .ok none
      | _ => .error .attributeError
    | _ => .ok none
termination_by structural fuel => fuel

/-- The recursive child conversions inside `_parse_item` (list comprehensions
filtering `None`). -/
def parseItemsF : Nat → List Json → Except PyErr (List StoplightNode)
  | 0, _ => .error .outOfFuel
  | fuel + 1, items =>
    match items with
    | [] => .ok []
    | x :: rest =>
      match parseItemF fuel x with
      | .error e => .error e
      | .ok r =>
        match parseItemsF fuel rest with
        | .error e => .error e
        | .ok rs => .ok (match r with | some n => n :: rs | none => rs)
termination_by structural fuel => fuel
end

mutual
/-- Structural size of a JSON value (fuel bound for `parseItemF`). -/
def jSize : Json → Nat
  | .arr xs => 1 + jSizeList xs
  | .obj kvs => 1 + jSizeKvs kvs
  | _ => 1
def jSizeList : List Json → Nat
  | [] => 0
  | x :: rest => 1 + jSize x + jSizeList rest
def jSizeKvs : List (String × Json) → Nat
  | [] => 0
  | (_, x) :: rest => 1 + jSize x + jSizeKvs rest
end

/-- `TocParser.parse`: parse each raw record in order, keep the non-`None`
results (the list comprehension filtering the generator).  Each record
receives fuel equal to its own size, which bounds the recursion depth of
`_parse_item` on it. -/
def tocParseGo : List Json → Except PyErr (List StoplightNode)
  | [] => .ok []
  | it :: rest =>
    match parseItemF (jSize it + 1) it with
    | .error e => .error e
    | .ok r =>
      match tocParseGo rest with
      | .error e => .error e
      | .ok rs => .ok (match r with | some n => n :: rs | none => rs)

def tocParse (items : List Json) : Except PyErr (List StoplightNode) := tocParseGo items

/-! ## `migrator.py`: the navigation synthesizer -/

/-- `migrator.MigrationConfig`. -/
structure MigrationConfig where
  docsYmlPath : String
  pagesDir : String
  overwriteNavigation : Bool := true
  dryRun : Bool := false

/-- A filesystem effect issued by a migration run: `Path.mkdir(parents=True,
exist_ok=True)` or `Path.write_text(...)`. -/
inductive FsEvent where
  | mkdirParents (path : String)
  | writeText (path : String) (content : String)
deriving DecidableEq, Repr

/-- The slug registry (`Dict[str, int]`, insertion-ordered): base slug to the
counter recorded for it. -/
abbrev SlugReg := List (String × Nat)

def regMem (reg : SlugReg) (k : String) : Bool := reg.any (fun kv => kv.1 == k)

def regGet (reg : SlugReg) (k : String) : Option Nat :=
  (reg.find? (fun kv => kv.1 == k)).map (fun kv => kv.2)

/-- Python dict assignment `d[k] = v`: replace in place or append. -/
def regSet : SlugReg → String → Nat → SlugReg
  | [], k, v => [(k, v)]
  | (k0, v0) :: rest, k, v =>
    if k0 = k then (k, v) :: rest else (k0, v0) :: regSet rest k v

/-- The `while f"{base}-{counter}" in self.slug_registry: counter += 1` probe
of `_ensure_unique_slug`.  The fuel `reg.length + 1` always suffices to find
a free counter (pigeonhole over the registry's keys — `probeCounterF_free`
below), so the cut-off never fires at the fuel `ensureUniqueSlug` supplies. -/
def probeCounterF : Nat → SlugReg → String → Nat → Nat
  | 0, _, _, c => c
  | fuel + 1, reg, base, c =>
    if regMem reg (base ++ "-" ++ natDecimal c) then probeCounterF fuel reg base (c + 1)
    else c

/-- `StoplightMigrator._ensure_unique_slug`. -/
def ensureUniqueSlug (reg : SlugReg) (slug0 : String) : String × SlugReg :=
  let slug := slugify slug0
  if regMem reg slug then
    let counter := (regGet reg slug).getD 0 + 1
    let base := slug
    let c := probeCounterF (reg.length + 1) reg base counter
    let uniqueSlug := base ++ "-" ++ natDecimal c
    (uniqueSlug, regSet (regSet reg base c) uniqueSlug 1)
  else
    (slug, regSet reg slug 1)

/-- `pathlib.Path.parent` on the textual path model: the text before the last
slash, `""` when there is none (`Path("docs.yml").parent == Path(".")`,
handled by `relativeTo`). -/
def pathParent (p : String) : String :=
  match splitFirst p.data.reverse '/' with
  | some (_, before) => ⟨before.reverse⟩
  | none => ""

/-- `str(path.relative_to(base))` on the textual model: strips `base ++ "/"`
when it is a prefix.  (`Path.relative_to` raises when `path` is not under
`base` — a pages directory outside the configuration file's directory; that
branch is modelled as returning the path unchanged and is exercised by no
verified property.) -/
def relativeTo (p : String) (base : String) : String :=
  if base = "" then p
  else if strStartsWith p (base ++ "/") then ⟨p.data.drop (base.length + 1)⟩ else p

/-- `StoplightMigrator._format_front_matter_value`. -/
def formatFrontMatterValue (value : String) : String :=
  if value = "" then twoSingleQuotes
  else if containsAnyOf value ['\n', ':'] || value ≠ pyStrip value then
    dqStr ++ escapeQuoted value ++ dqStr
  else value

/-- `StoplightMigrator._wrap_markdown`. -/
def wrapMarkdown (title slug markdown : String) : String :=
  let body := pyStrip markdown
  let fmLines := ["---", "slug: " ++ slug, "title: " ++ formatFrontMatterValue title, "---", ""]
  let fmLines := if body ≠ "" then fmLines ++ [body] else fmLines
  String.intercalate "\n" (fmLines ++ [""])

/-- `node.slug or slugify(node.title)`: the slug candidate handed to
`_ensure_unique_slug` (an empty stored slug is falsy). -/
def slugCandidate (node : StoplightNode) : String :=
  match node.slug with
  | some s => if s ≠ "" then s else slugify node.title
  | none => slugify node.title

/-- `StoplightMigrator._create_page_entry`.  `getMarkdown` is the
content-source collaborator (`client.get_markdown`); the file write is
emitted as an event unless `dry_run` is set. -/
def createPageEntry (cfg : MigrationConfig) (getMarkdown : StoplightNode → Option String)
    (node : StoplightNode) (reg : SlugReg) :
    Option Value × SlugReg × List FsEvent :=
  match getMarkdown node with
  | none => (none, reg, [])
  | some markdown =>
    let sr := ensureUniqueSlug reg (slugCandidate node)
    let slug := sr.1
    let filename := slug ++ ".mdx"
    let outputPath := cfg.pagesDir ++ "/" ++ filename
    let pageContent := wrapMarkdown node.title slug markdown
    let events := if cfg.dryRun then [] else [.writeText outputPath pageContent]
    let entry : Value := .map [("page", .str node.title), ("slug", .str slug),
      ("path", .str (relativeTo outputPath (pathParent cfg.docsYmlPath)))]
    (some entry, sr.2, events)

mutual
/-- Structural size of a node (fuel bound for `convertNodeF`). -/
def nodeSize : StoplightNode → Nat
  | ⟨_, _, _, _, _, children⟩ => 1 + nodeListSize children
def nodeListSize : List StoplightNode → Nat
  | [] => 0
  | n :: rest => 1 + nodeSize n + nodeListSize rest
end

mutual
/-- `StoplightMigrator._convert_node`, fuel-structural (the source recurses
into children; exhaustion, modelled as an error, is unreachable at the fuel
`migrateNav` supplies, namely the total node count). -/
def convertNodeF : Nat → MigrationConfig → (StoplightNode → Option String) →
    StoplightNode → SlugReg → Except PyErr (Option Value × SlugReg × List FsEvent)
  | 0, _, _, _, _ => .error .outOfFuel
  | fuel + 1, cfg, getMd, node, reg =>
    if node.isMarkdown then .ok (createPageEntry cfg getMd node reg)
    else if node.isSection then
      match convertChildrenF fuel cfg getMd node.children reg with
      | .error e => .error e
      | .ok (contents, reg1, evs) =>
        if contents.isEmpty then .ok (none, reg1, evs)
        else
          let sr := ensureUniqueSlug reg1 (slugCandidate node)
          .ok (some (.map [("section", .str node.title), ("slug", .str sr.1),
            ("contents", .list contents)]), sr.2, evs)
    else
      match node.children with
      | _ :: _ =>
        match convertChildrenF fuel cfg getMd node.children reg with
        | .error e => .error e
        | .ok (contents, reg1, evs) =>
          if !contents.isEmpty then
            let sr := ensureUniqueSlug reg1 (slugCandidate node)
            .ok (some (.map [("section", .str node.title), ("slug", .str sr.1),
              ("contents", .list contents)]), sr.2, evs)
          else
            let pe := createPageEntry cfg getMd node reg1
            .ok (pe.1, pe.2.1, evs ++ pe.2.2)
      | [] => .ok (createPageEntry cfg getMd node reg)
termination_by structural fuel => fuel

/-- Conversion of a sibling list: the `for child in node.children` loops (and
the top-level loop of `migrate`), threading the registry and collecting the
surviving entries and events in order. -/
def convertChildrenF : Nat → MigrationConfig → (StoplightNode → Option String) →
    List StoplightNode → SlugReg → Except PyErr (List Value × SlugReg × List FsEvent)
  | 0, _, _, _, _ => .error .outOfFuel
  | _ + 1, _, _, [], reg => .ok ([], reg, [])
  | fuel + 1, cfg, getMd, n :: rest, reg =>
    match convertNodeF fuel cfg getMd n reg with
    | .error e => .error e
    | .ok (r, reg1, evs) =>
      match convertChildrenF fuel cfg getMd rest reg1 with
      | .error e => .error e
      | .ok (rs, reg2, evs2) =>
        .ok ((match r with | some v => v :: rs | none => rs), reg2, evs ++ evs2)
termination_by structural fuel => fuel
end

/-- The generated navigation list of one `migrate` run (the loop of
`migrate`, lines 36–40), starting from the empty slug registry created in
`__init__`. -/
def migrateNav (cfg : MigrationConfig) (getMd : StoplightNode → Option String)
    (nodes : List StoplightNode) :
    Except PyErr (List Value × SlugReg × List FsEvent) :=
  convertChildrenF (nodeListSize nodes + 1) cfg getMd nodes []

/-- Lookup in an ordered mapping's entry list. -/
def vGet (kvs : List (String × Value)) (k : String) : Option Value :=
  (kvs.find? (fun kv => kv.1 == k)).map (fun kv => kv.2)

/-- An error aborting a migration run: a `YamlError` from loading the
existing configuration, the `TypeError` a non-mapping configuration root
would raise at `docs_config["navigation"] = ...`, or the fuel sentinel. -/
inductive RunError where
  | yaml (e : YamlError)
  | typeError
  | py (e : PyErr)
deriving DecidableEq, Repr

/-- Observable outcome of a migration run: filesystem events in issue order,
the text printed to stdout (dry run), and the final merged document. -/
structure MigrateOut where
  events : List FsEvent
  printed : Option String
  finalDoc : Value

/-- A full migration run: `StoplightMigrator.__init__` (whose unconditional
`pages_dir.mkdir(parents=True, exist_ok=True)` is the first event) followed
by `migrate`.  `existingDocsYml` models `docs_yml_path.exists()` and its
text; `getMd` and `nodes` model the client collaborator.  Events of a run
aborted by an exception are not observed (no verified property reads them). -/
def migrate (cfg : MigrationConfig) (getMd : StoplightNode → Option String)
    (nodes : List StoplightNode) (existingDocsYml : Option String) :
    Except RunError MigrateOut :=
  let initEvents := [FsEvent.mkdirParents cfg.pagesDir]
  match migrateNav cfg getMd nodes with
  | .error e => .error (.py e)
  | .ok (navigation, _, navEvents) =>
    match (match existingDocsYml with
           | some text => load text
           | none => .ok (.map []) : Except YamlError Value) with
    | .error e => .error (.yaml e)
    | .ok docsConfig =>
      match docsConfig with
      | .map kvs =>
        let navigation :=
          if (vGet kvs "navigation").isNone || !cfg.overwriteNavigation then
            let existing := match (vGet kvs "navigation").getD (.list []) with
              | .list xs => xs
              | _ => []
            existing ++ navigation
          else navigation
        let finalDoc := Value.map (odSet kvs "navigation" (.list navigation))
        if cfg.dryRun then
          .ok ⟨initEvents ++ navEvents, some (dump finalDoc ++ "\n"), finalDoc⟩
        else
          .ok ⟨initEvents ++ navEvents ++ [.writeText cfg.docsYmlPath (dump finalDoc)],
            none, finalDoc⟩
      | _ => .error .typeError

/-! ## Character-level and decimal lemmas -/

theorem charEq_iff {c d : Char} : (c = d) ↔ (c.toNat = d.toNat) :=
  ⟨fun h => h ▸ rfl, fun h => Char.ext_iff.mpr (UInt32.ext h)⟩

theorem charLe_iff {c d : Char} : (c ≤ d) ↔ (c.toNat ≤ d.toNat) := by
  rw [Char.le_def]; exact Iff.rfl

theorem pyIsSpace_iff {c : Char} :
    pyIsSpace c = true ↔ (c.toNat ∈ pySpaceCodes ∨ (8192 ≤ c.toNat ∧ c.toNat ≤ 8202)) := by
  simp [pyIsSpace, List.elem_iff]

/-- Printable ASCII other than space is never Python whitespace. -/
theorem pyIsSpace_false {c : Char} (h1 : 33 ≤ c.toNat) (h2 : c.toNat ≤ 126) :
    pyIsSpace c = false := by
  rw [Bool.eq_false_iff]
  intro hsp
  rcases pyIsSpace_iff.mp hsp with hm | hr
  · simp [pySpaceCodes] at hm; omega
  · omega

theorem pyIsLineBreak_iff {c : Char} :
    pyIsLineBreak c = true ↔ c.toNat ∈ pyLineBreakCodes := by
  simp [pyIsLineBreak, List.elem_iff]

theorem pyIsLineBreak_false {c : Char} (h1 : 33 ≤ c.toNat) (h2 : c.toNat ≤ 126) :
    pyIsLineBreak c = false := by
  rw [Bool.eq_false_iff]
  intro hb
  have := pyIsLineBreak_iff.mp hb
  simp [pyLineBreakCodes] at this; omega

theorem isSlugChar_iff {c : Char} :
    isSlugChar c = true ↔ ((97 ≤ c.toNat ∧ c.toNat ≤ 122) ∨ (48 ≤ c.toNat ∧ c.toNat ≤ 57)) := by
  simp [isSlugChar, isAsciiDigit, charLe_iff,
    show (Char.toNat 'a') = 97 from rfl, show (Char.toNat 'z') = 122 from rfl,
    show (Char.toNat '0') = 48 from rfl, show (Char.toNat '9') = 57 from rfl]

theorem isAsciiDigit_iff {c : Char} :
    isAsciiDigit c = true ↔ (48 ≤ c.toNat ∧ c.toNat ≤ 57) := by
  simp [isAsciiDigit, charLe_iff,
    show (Char.toNat '0') = 48 from rfl, show (Char.toNat '9') = 57 from rfl]

/-- `List.dropWhile` is the identity when no element satisfies the predicate. -/
theorem dropWhile_all_false {α : Type} {p : α → Bool} :
    ∀ {l : List α}, (∀ x ∈ l, p x = false) → l.dropWhile p = l
  | [], _ => rfl
  | x :: xs, h => by
    have hx := h x (by simp)
    simp [List.dropWhile, hx]

theorem pyLstrip_of_no_space {s : String} (h : ∀ c ∈ s.data, pyIsSpace c = false) :
    pyLstrip s = s := by
  simp [pyLstrip, dropWhile_all_false h]

theorem pyRstrip_of_no_space {s : String} (h : ∀ c ∈ s.data, pyIsSpace c = false) :
    pyRstrip s = s := by
  have : ∀ c ∈ s.data.reverse, pyIsSpace c = false := by
    intro c hc; exact h c (List.mem_reverse.mp hc)
  simp [pyRstrip, dropWhile_all_false this]

theorem pyStrip_of_no_space {s : String} (h : ∀ c ∈ s.data, pyIsSpace c = false) :
    pyStrip s = s := by
  rw [pyStrip, pyLstrip_of_no_space h, pyRstrip_of_no_space h]

/-! ## Decimal formatting -/

theorem natDigitsGo_append (n : Nat) : ∀ acc, natDigitsGo n acc = natDigitsGo n [] ++ acc := by
  induction n using Nat.strong_induction_on with
  | _ n ih =>
    intro acc
    by_cases h : n < 10
    · have e1 : natDigitsGo n acc = Char.ofNat (48 + n % 10) :: acc := by
        rw [natDigitsGo]; simp [h]
      have e2 : natDigitsGo n [] = [Char.ofNat (48 + n % 10)] := by
        rw [natDigitsGo]; simp [h]
      rw [e1, e2]; rfl
    · have hd : n / 10 < n := Nat.div_lt_self (by omega) (by omega)
      have e1 : natDigitsGo n acc = natDigitsGo (n / 10) (Char.ofNat (48 + n % 10) :: acc) := by
        rw [natDigitsGo]; simp [h]
      have e2 : natDigitsGo n [] = natDigitsGo (n / 10) [Char.ofNat (48 + n % 10)] := by
        rw [natDigitsGo]; simp [h]
      rw [e1, e2, ih (n / 10) hd (Char.ofNat (48 + n % 10) :: acc),
          ih (n / 10) hd [Char.ofNat (48 + n % 10)]]
      simp

/-- Structure: the digits of `n` end with the digit of `n % 10`. -/
theorem natDigitsGo_eq (n : Nat) :
    natDigitsGo n [] =
      if n < 10 then [Char.ofNat (48 + n % 10)]
      else natDigitsGo (n / 10) [] ++ [Char.ofNat (48 + n % 10)] := by
  by_cases h : n < 10
  · rw [natDigitsGo]; simp [h]
  · have e1 : natDigitsGo n [] = natDigitsGo (n / 10) [Char.ofNat (48 + n % 10)] := by
      rw [natDigitsGo]; simp [h]
    rw [e1, if_neg h]
    exact natDigitsGo_append (n / 10) _

/-- Fuel irrelevance: with fuel exceeding `n`, the fuelled worker computes
the specification digits. -/
theorem natDecimalGo_spec : ∀ (fuel n : Nat), n < fuel → ∀ acc,
    natDecimalGo fuel n acc = natDigitsGo n [] ++ acc := by
  intro fuel
  induction fuel with
  | zero => intro n h; omega
  | succ fuel ih =>
    intro n h acc
    by_cases h10 : n < 10
    · have e2 : natDigitsGo n [] = [Char.ofNat (48 + n % 10)] := by
        rw [natDigitsGo]; simp [h10]
      simp [natDecimalGo, h10, e2]
    · have hrec : n / 10 < fuel := by
        have hx : n / 10 < n := Nat.div_lt_self (by omega) (by omega)
        omega
      have e2 : natDigitsGo n [] = natDigitsGo (n / 10) [Char.ofNat (48 + n % 10)] := by
        rw [natDigitsGo]; simp [h10]
      rw [e2, natDigitsGo_append (n / 10) [Char.ofNat (48 + n % 10)]]
      simp only [natDecimalGo, if_neg h10]
      rw [ih (n / 10) hrec (Char.ofNat (48 + n % 10) :: acc)]
      simp

/-- `natDecimal` in terms of the specification digits. -/
theorem natDecimal_eq_digits (n : Nat) : natDecimal n = ⟨natDigitsGo n []⟩ := by
  rw [natDecimal, natDecimalGo_spec (n + 1) n (by omega) []]
  simp

theorem digitChar_toNat (r : Nat) (h : r < 10) : (Char.ofNat (48 + r)).toNat = 48 + r := by
  interval_cases r <;> decide

theorem digitChar_isDigit (r : Nat) (h : r < 10) : isAsciiDigit (Char.ofNat (48 + r)) = true := by
  interval_cases r <;> decide

theorem digitChar_val (r : Nat) (h : r < 10) : digitVal (Char.ofNat (48 + r)) = r := by
  interval_cases r <;> decide

theorem natDecimal_all_digits (n : Nat) : ∀ c ∈ (natDecimal n).data, isAsciiDigit c = true := by
  rw [natDecimal_eq_digits]
  suffices h : ∀ n, ∀ c ∈ natDigitsGo n [], isAsciiDigit c = true from h n
  intro n
  induction n using Nat.strong_induction_on with
  | _ n ih =>
    intro c hc
    rw [natDigitsGo_eq] at hc
    by_cases h : n < 10
    · simp [h] at hc
      subst hc
      exact digitChar_isDigit _ (Nat.mod_lt _ (by omega))
    · simp only [if_neg h, List.mem_append, List.mem_singleton] at hc
      rcases hc with hc | hc
      · exact ih (n / 10) (Nat.div_lt_self (by omega) (by omega)) c hc
      · subst hc
        exact digitChar_isDigit _ (Nat.mod_lt _ (by omega))

/-- Evaluating the digit list recovers the number. -/
theorem natDecimal_foldl (n : Nat) :
    (natDecimal n).data.foldl (fun a c => a * 10 + digitVal c) 0 = n := by
  rw [natDecimal_eq_digits]
  suffices h : ∀ n a, (natDigitsGo n []).foldl (fun a c => a * 10 + digitVal c) a = a * 10 ^ (natDigitsGo n []).length + n by
    have := h n 0
    simpa using this
  intro n
  induction n using Nat.strong_induction_on with
  | _ n ih =>
    intro a
    rw [natDigitsGo_eq]
    by_cases h : n < 10
    · simp [h, digitChar_val n (by omega), Nat.mod_eq_of_lt h]
    · have hd : n / 10 < n := Nat.div_lt_self (by omega) (by omega)
      simp only [if_neg h, List.foldl_append, List.foldl_cons, List.foldl_nil,
        List.length_append, List.length_singleton]
      rw [ih (n / 10) hd a]
      rw [digitChar_val _ (Nat.mod_lt _ (by omega))]
      ring_nf
      omega

theorem natDecimal_inj {a b : Nat} (h : natDecimal a = natDecimal b) : a = b := by
  have := congrArg (fun s : String => s.data.foldl (fun a c => a * 10 + digitVal c) 0) h
  simpa [natDecimal_foldl] using this

theorem parseDigitsU_all_digits :
    ∀ (cs : List Char) (acc : Nat), (∀ c ∈ cs, isAsciiDigit c = true) → cs ≠ [] →
      ∀ prev, parseDigitsU prev acc cs = some (cs.foldl (fun a c => a * 10 + digitVal c) acc)
  | [], _, _, hne, _ => absurd rfl hne
  | c :: rest, acc, h, _, prev => by
    have hc := h c (by simp)
    rcases rest with _ | ⟨d, rest2⟩
    · simp [parseDigitsU, hc]
    · have step : parseDigitsU prev acc (c :: d :: rest2) =
          parseDigitsU true (acc * 10 + digitVal c) (d :: rest2) := by
        simp [parseDigitsU, hc]
      rw [step, parseDigitsU_all_digits (d :: rest2) _
        (fun x hx => h x (List.mem_cons_of_mem c hx)) (by simp) true]
      simp

theorem pyStrip_natDecimal (n : Nat) : pyStrip (natDecimal n) = natDecimal n := by
  apply pyStrip_of_no_space
  intro c hc
  have := isAsciiDigit_iff.mp (natDecimal_all_digits n c hc)
  exact pyIsSpace_false (by omega) (by omega)

theorem natDecimal_ne_nil (n : Nat) : (natDecimal n).data ≠ [] := by
  rw [natDecimal_eq_digits]
  show natDigitsGo n [] ≠ []
  rw [natDigitsGo_eq]
  by_cases h : n < 10 <;> simp [h]

theorem pyIntParse_natDecimal (n : Nat) : pyIntParse (natDecimal n) = some (Int.ofNat n) := by
  have hd := natDecimal_all_digits n
  have hne := natDecimal_ne_nil n
  have hparse := parseDigitsU_all_digits (natDecimal n).data 0 hd hne false
  rw [pyIntParse, pyStrip_natDecimal]
  split
  · next rest he => exact absurd (hd '+' (by rw [he]; exact List.mem_cons_self _ _)) (by decide)
  · next rest he => exact absurd (hd '-' (by rw [he]; exact List.mem_cons_self _ _)) (by decide)
  · next => rw [hparse, natDecimal_foldl]; rfl

theorem toLower_eq_self {c : Char} (h : c.toNat < 65 ∨ 90 < c.toNat) : c.toLower = c := by
  rw [Char.toLower]
  have : ¬(c.toNat ≥ 65 ∧ c.toNat ≤ 90) := by omega
  simp [this]

theorem intDecimal_chars (i : Int) : ∀ c ∈ (intDecimal i).data, isAsciiDigit c = true ∨ c = '-' := by
  intro c hc
  rw [intDecimal] at hc
  by_cases h : i < 0
  · rw [if_pos h] at hc
    simp only [String.data_append] at hc
    rcases List.mem_append.mp hc with hm | hm
    · right
      simpa using hm
    · exact Or.inl (natDecimal_all_digits _ c hm)
  · rw [if_neg h] at hc
    exact Or.inl (natDecimal_all_digits _ c hc)

theorem pyIntParse_intDecimal (i : Int) : pyIntParse (intDecimal i) = some i := by
  by_cases h : i < 0
  · have hstrip : pyStrip (intDecimal i) = intDecimal i := by
      apply pyStrip_of_no_space
      intro c hc
      rcases intDecimal_chars i c hc with hd | hd
      · have := isAsciiDigit_iff.mp hd
        exact pyIsSpace_false (by omega) (by omega)
      · subst hd; decide
    have hdata : (intDecimal i).data = '-' :: (natDecimal i.natAbs).data := by
      rw [intDecimal, if_pos h]
      simp [String.data_append]
    rw [pyIntParse, hstrip, hdata]
    change Option.map (fun n => -Int.ofNat n) (parseDigitsU false 0 (natDecimal i.natAbs).data) = some i
    have hd := natDecimal_all_digits i.natAbs
    have hne := natDecimal_ne_nil i.natAbs
    rw [parseDigitsU_all_digits _ 0 hd hne false]
    rw [natDecimal_foldl]
    have h2 : -Int.ofNat i.natAbs = i := by
      simp only [Int.ofNat_eq_natCast]; omega
    change some (-Int.ofNat i.natAbs) = some i
    exact congrArg some h2
  · rw [intDecimal, if_neg h, pyIntParse_natDecimal]
    have h2 : Int.ofNat i.toNat = i := by
      simp only [Int.ofNat_eq_natCast]; omega
    rw [h2]

/-! ## Claims C5, C9, C8 -/

/-- **C5 — counterexample.**  The claim says the empty string is emitted
double-quoted; `_format_scalar` emits it as two single quotes (`''`), which
differs from the double-quoted-with-escapes encoding of the empty string
(two double-quote characters). -/
theorem claim_C5_counterexample :
    formatScalar (Value.str "") = twoSingleQuotes ∧
    formatScalar (Value.str "") ≠ dqStr ++ escapeQuoted "" ++ dqStr := by
  constructor
  · rfl
  · decide

/-- **C5 (amended).**  Scalar string encoding: a string is emitted unquoted
unless it is empty, contains one of newline, colon, hash, braces, brackets,
double quote, single quote, at-sign or backtick, or differs from its own
trimmed form.  A nonempty string meeting any of those conditions is emitted
double-quoted with backslash and double-quote characters escaped; the empty
string is emitted as two single quotes. -/
theorem claim_C5 (s : String) :
    (s ≠ "" → (∀ c ∈ s.data, c ∉ specialChars) → pyStrip s = s →
      formatScalar (Value.str s) = s) ∧
    (s ≠ "" → ((∃ c ∈ s.data, c ∈ specialChars) ∨ pyStrip s ≠ s) →
      formatScalar (Value.str s) = dqStr ++ escapeQuoted s ++ dqStr) ∧
    (s = "" → formatScalar (Value.str s) = twoSingleQuotes) := by
  refine ⟨?_, ?_, ?_⟩
  · intro h1 h2 h3
    have hca : containsAnyOf s specialChars = false := by
      simp only [containsAnyOf, List.any_eq_false]
      intro c hc
      simpa using h2 c hc
    simp [formatScalar, h1, hca, h3]
  · intro h1 h2
    have hcond : (containsAnyOf s specialChars || decide (pyStrip s ≠ s)) = true := by
      rcases h2 with ⟨c, hc, hmem⟩ | hne
      · have : containsAnyOf s specialChars = true := by
          simp only [containsAnyOf, List.any_eq_true]
          exact ⟨c, hc, by simpa using hmem⟩
        simp [this]
      · simp [hne]
    simp only [formatScalar]
    rw [if_neg h1, if_pos hcond]
  · intro h; subst h; rfl

/-- Witness for `claim_C5` at concrete inputs. -/
theorem claim_C5_witness :
    formatScalar (Value.str "FAQ page") = "FAQ page" ∧
    formatScalar (Value.str "a: b") = dqStr ++ escapeQuoted "a: b" ++ dqStr ∧
    formatScalar (Value.str "") = twoSingleQuotes :=
  ⟨(claim_C5 "FAQ page").1 (by decide) (by decide) (by decide),
   (claim_C5 "a: b").2.1 (by decide) (Or.inl ⟨':', by decide, by decide⟩),
   (claim_C5 "").2.2 rfl⟩


/-- Parsing any line list whose lines are all blank-or-comment yields the
empty ordered mapping. -/
theorem parseLinesF_all_skippable (fuel : Nat) (hf : 2 ≤ fuel) (ls : Lines)
    (hall : ∀ l ∈ ls, skippable l = true) : parseLinesF fuel ls = .ok (.map []) := by
  obtain ⟨f, rfl⟩ : ∃ f, fuel = f + 2 := ⟨fuel - 2, by omega⟩
  have hdrop : ls.dropWhile skippable = [] := List.dropWhile_eq_nil_iff.mpr hall
  simp [parseLinesF, parseBlockF, blockLoopF, hdrop, finishColl]

/-- **C9.**  Parsing an input consisting only of blank lines and comment
lines (including the empty string, covered by the vacuous hypothesis)
succeeds and returns an empty ordered mapping; consequently the serialized
form of an empty list re-parses as an empty mapping rather than an empty
list. -/
theorem claim_C9 :
    (∀ text : String, (∀ raw ∈ pySplitlines text, skippable (lineOf raw) = true) →
      load text = .ok (.map [])) ∧
    load (dump (.list [])) = .ok (.map []) := by
  constructor
  · intro text h
    rw [load]
    apply parseLinesF_all_skippable _ (by rw [parseFuel]; omega)
    intro l hl
    obtain ⟨raw, hraw, rfl⟩ := List.mem_map.mp hl
    exact h raw hraw
  · decide

/-- Witness for `claim_C9` at a concrete comment-and-blank input. -/
theorem claim_C9_witness : load ("# note\n" ++ "\n" ++ "   ") = .ok (.map []) :=
  claim_C9.1 _ (by decide)

/-- **C8.**  Two sibling leaf nodes both titled "FAQ" (no explicit slug),
both resolving to content, are allocated slugs "faq" and "faq-2" in
traversal order. -/
theorem claim_C8 :
    migrateNav ⟨"proj/docs.yml", "proj/docs/pages", true, false⟩ (fun _ => some "# FAQ")
      [⟨"article", "FAQ", none, none, .null, []⟩, ⟨"article", "FAQ", none, none, .null, []⟩] =
    .ok ([Value.map [("page", .str "FAQ"), ("slug", .str "faq"),
            ("path", .str "docs/pages/faq.mdx")],
          Value.map [("page", .str "FAQ"), ("slug", .str "faq-2"),
            ("path", .str "docs/pages/faq-2.mdx")]],
         [("faq", 2), ("faq-2", 1)],
         [FsEvent.writeText "proj/docs/pages/faq.mdx"
            "---\nslug: faq\ntitle: FAQ\n---\n\n# FAQ\n",
          FsEvent.writeText "proj/docs/pages/faq-2.mdx"
            "---\nslug: faq-2\ntitle: FAQ\n---\n\n# FAQ\n"]) := by
  decide


/-! ## Claim C3: dry run -/

/-- In dry-run mode `_create_page_entry` writes nothing. -/
theorem createPageEntry_dry (cfg : MigrationConfig) (getMd) (node) (reg)
    (hdry : cfg.dryRun = true) : (createPageEntry cfg getMd node reg).2.2 = [] := by
  rw [createPageEntry]
  cases getMd node
  · rfl
  · simp [hdry]

/-- In dry-run mode node conversion emits no filesystem events. -/
theorem convert_dry_no_events (cfg : MigrationConfig) (getMd) (hdry : cfg.dryRun = true) :
    ∀ fuel : Nat,
      (∀ node reg r, convertNodeF fuel cfg getMd node reg = .ok r → r.2.2 = []) ∧
      (∀ nodes reg r, convertChildrenF fuel cfg getMd nodes reg = .ok r → r.2.2 = []) := by
  intro fuel
  induction fuel with
  | zero =>
    constructor
    · intro _ _ _ h; exact absurd h (by simp [convertNodeF])
    · intro _ _ _ h; exact absurd h (by simp [convertChildrenF])
  | succ fuel ih =>
    constructor
    · intro node reg r h
      rw [convertNodeF] at h
      split at h
      · cases h
        exact createPageEntry_dry cfg getMd node reg hdry
      · split at h
        · rcases he : convertChildrenF fuel cfg getMd node.children reg with e | ⟨contents, reg1, evs⟩
          · rw [he] at h; cases h
          · rw [he] at h
            simp only at h
            split at h
            · cases h
              exact ih.2 node.children reg _ he
            · cases h
              exact ih.2 node.children reg _ he
        · split at h
          · rcases he : convertChildrenF fuel cfg getMd node.children reg with e | ⟨contents, reg1, evs⟩
            · rw [he] at h; cases h
            · rw [he] at h
              simp only at h
              split at h
              · cases h
                exact ih.2 node.children reg _ he
              · cases h
                have h1 := ih.2 node.children reg _ he
                have h2 := createPageEntry_dry cfg getMd node reg1 hdry
                simp only at h1 h2
                simp [h1, h2]
          · cases h
            exact createPageEntry_dry cfg getMd node reg hdry
    · intro nodes reg r h
      cases nodes with
      | nil => rw [convertChildrenF] at h; cases h; rfl
      | cons n rest =>
        rw [convertChildrenF] at h
        rcases he : convertNodeF fuel cfg getMd n reg with e | ⟨r1, reg1, evs⟩
        · rw [he] at h; cases h
        · rw [he] at h
          simp only at h
          rcases he2 : convertChildrenF fuel cfg getMd rest reg1 with e | ⟨rs, reg2, evs2⟩
          · rw [he2] at h; cases h
          · rw [he2] at h
            simp only at h
            cases h
            have h1 := ih.1 n reg _ he
            have h2 := ih.2 rest reg1 _ he2
            simp only at h1 h2
            simp [h1, h2]


/-- **C3 — counterexample.**  The claim says a dry run creates no directory;
`StoplightMigrator.__init__` issues `pages_dir.mkdir(parents=True,
exist_ok=True)` unconditionally, so a dry run still issues the directory
creation (here, the only event of a run over no nodes). -/
theorem claim_C3_counterexample :
    migrate ⟨"proj/docs.yml", "proj/docs/pages", true, true⟩ (fun _ => none) [] none =
      .ok ⟨[FsEvent.mkdirParents "proj/docs/pages"],
           some ("navigation:\n" ++ "\n"), .map [("navigation", .list [])]⟩ := by
  rfl

/-- **C3 (amended).**  A dry run performs full synthesis and prints the
would-be merged document, and writes no file (no page file and no
configuration file): its only filesystem event is the pages-directory
creation issued at construction. -/
theorem claim_C3 (cfg : MigrationConfig) (getMd : StoplightNode → Option String)
    (nodes : List StoplightNode) (existing : Option String) (out : MigrateOut)
    (hdry : cfg.dryRun = true)
    (hrun : migrate cfg getMd nodes existing = .ok out) :
    out.events = [FsEvent.mkdirParents cfg.pagesDir] ∧
    (∀ p c, FsEvent.writeText p c ∉ out.events) ∧
    out.printed = some (dump out.finalDoc ++ "\n") := by
  rw [migrate.eq_def] at hrun
  rcases hnav : migrateNav cfg getMd nodes with e | ⟨navigation, reg, navEvents⟩
  · rw [hnav] at hrun; cases hrun
  · rw [hnav] at hrun
    simp only at hrun
    have hevs : navEvents = [] :=
      (convert_dry_no_events cfg getMd hdry (nodeListSize nodes + 1)).2 nodes [] _ hnav
    subst hevs
    rcases existing with _ | text
    · dsimp only at hrun
      rw [if_pos hdry] at hrun
      cases hrun
      refine ⟨by simp, ?_, rfl⟩
      intro p c hmem
      simp at hmem
    · dsimp only at hrun
      rcases hload : load text with e | docsConfig
      · rw [hload] at hrun; cases hrun
      · rw [hload] at hrun
        dsimp only at hrun
        rcases docsConfig with _ | _ | _ | _ | _ | xs | kvs
        · cases hrun
        · cases hrun
        · cases hrun
        · cases hrun
        · cases hrun
        · cases hrun
        · dsimp only at hrun
          rw [if_pos hdry] at hrun
          cases hrun
          refine ⟨by simp, ?_, rfl⟩
          intro p c hmem
          simp at hmem

/-- Witness for `claim_C3` at a concrete dry run. -/
theorem claim_C3_witness :
    ([FsEvent.mkdirParents "proj/docs/pages"] : List FsEvent) =
        [FsEvent.mkdirParents "proj/docs/pages"] ∧
    (∀ p c, FsEvent.writeText p c ∉ ([FsEvent.mkdirParents "proj/docs/pages"] : List FsEvent)) := by
  have h := claim_C3 ⟨"proj/docs.yml", "proj/docs/pages", true, true⟩
    (fun _ => some "# X") [⟨"article", "FAQ", none, none, .null, []⟩] none
    ⟨[FsEvent.mkdirParents "proj/docs/pages"],
     some ("navigation:\n  -\n    page: FAQ\n    slug: faq\n    path: docs/pages/faq.mdx\n" ++ "\n"),
     .map [("navigation", .list [.map [("page", .str "FAQ"), ("slug", .str "faq"),
       ("path", .str "docs/pages/faq.mdx")]])]⟩ rfl (by rfl)
  exact ⟨h.1, h.2.1⟩

/-! ## Claims C4 and C6: merge laws -/

theorem vGet_cons (k0 : String) (v0 : Value) (rest : List (String × Value)) (k : String) :
    vGet ((k0, v0) :: rest) k = if k0 == k then some v0 else vGet rest k := by
  by_cases h : (k0 == k) = true
  · rw [if_pos h]
    unfold vGet
    rw [List.find?_cons_of_pos _ (by exact h)]
    rfl
  · rw [if_neg h]
    unfold vGet
    rw [List.find?_cons_of_neg _ (by exact h)]

theorem vGet_odSet_self : ∀ (kvs : List (String × Value)) (k : String) (v : Value),
    vGet (odSet kvs k v) k = some v
  | [], k, v => by simp [odSet, vGet_cons, vGet]
  | (k0, v0) :: rest, k, v => by
    by_cases h : k0 = k
    · subst h
      simp [odSet, vGet_cons]
    · rw [odSet, if_neg h, vGet_cons, if_neg (by simpa using h)]
      exact vGet_odSet_self rest k v

theorem odSet_filter_ne : ∀ (kvs : List (String × Value)) (k : String) (v : Value),
    (odSet kvs k v).filter (fun kv => !(kv.1 == k)) = kvs.filter (fun kv => !(kv.1 == k))
  | [], k, v => by simp [odSet]
  | (k0, v0) :: rest, k, v => by
    by_cases h : k0 = k
    · subst h
      simp [odSet, List.filter]
    · rw [odSet, if_neg h]
      simp only [List.filter]
      rw [odSet_filter_ne rest k v]

/-- **C6.**  Document-merge frame condition: merging the generated navigation
into an existing configuration document leaves every entry other than the
`navigation` key — value and relative order — unchanged (stated as equality
of the non-`navigation` sublists). -/
theorem claim_C6 (cfg : MigrationConfig) (getMd : StoplightNode → Option String)
    (nodes : List StoplightNode) (docsText : String) (kvs : List (String × Value))
    (out : MigrateOut)
    (hload : load docsText = .ok (.map kvs))
    (hrun : migrate cfg getMd nodes (some docsText) = .ok out) :
    ∃ kvs2, out.finalDoc = .map kvs2 ∧
      kvs2.filter (fun kv => !(kv.1 == "navigation")) =
        kvs.filter (fun kv => !(kv.1 == "navigation")) := by
  rw [migrate.eq_def] at hrun
  rcases hnav : migrateNav cfg getMd nodes with e | ⟨navigation, reg, navEvents⟩
  · rw [hnav] at hrun; cases hrun
  · rw [hnav] at hrun
    simp only at hrun
    rw [hload] at hrun
    dsimp only at hrun
    split at hrun
    · cases hrun
      exact ⟨_, rfl, odSet_filter_ne kvs "navigation" _⟩
    · cases hrun
      exact ⟨_, rfl, odSet_filter_ne kvs "navigation" _⟩

/-- Witness for `claim_C6` at a concrete run. -/
theorem claim_C6_witness :
    ∃ kvs2,
      Value.map [("title", Value.str "T"), ("navigation", Value.list [])] = .map kvs2 ∧
      kvs2.filter (fun kv => !(kv.1 == "navigation")) =
        [("title", Value.str "T")].filter (fun kv => !(kv.1 == "navigation")) := by
  have h := claim_C6 ⟨"proj/docs.yml", "proj/docs/pages", true, true⟩ (fun _ => none) []
    "title: T\n" [("title", .str "T")]
    ⟨[FsEvent.mkdirParents "proj/docs/pages"],
     some ("title: T\nnavigation:\n" ++ "\n"),
     .map [("title", Value.str "T"), ("navigation", Value.list [])]⟩
    (by rfl) (by rfl)
  exact h

/-- **C4.**  Append merge mode: with `overwrite_navigation` false and an
existing configuration carrying a navigation list, the run succeeds and the
final navigation list is the existing list followed by the generated list,
in that order. -/
theorem claim_C4 (cfg : MigrationConfig) (getMd : StoplightNode → Option String)
    (nodes : List StoplightNode) (docsText : String) (kvs : List (String × Value))
    (xs gen : List Value) (reg : SlugReg) (evs : List FsEvent)
    (hover : cfg.overwriteNavigation = false)
    (hload : load docsText = .ok (.map kvs))
    (hnav : vGet kvs "navigation" = some (.list xs))
    (hgen : migrateNav cfg getMd nodes = .ok (gen, reg, evs)) :
    ∃ out, migrate cfg getMd nodes (some docsText) = .ok out ∧
      ∃ kvs2, out.finalDoc = .map kvs2 ∧
        vGet kvs2 "navigation" = some (.list (xs ++ gen)) := by
  simp only [migrate, hgen, hload, hover, hnav]
  simp only [Option.isNone_some, Bool.not_false, Bool.or_true, if_true]
  by_cases hdry : cfg.dryRun = true
  · rw [if_pos hdry]
    exact ⟨_, rfl, _, rfl, vGet_odSet_self kvs "navigation" _⟩
  · rw [if_neg hdry]
    exact ⟨_, rfl, _, rfl, vGet_odSet_self kvs "navigation" _⟩

/-- Witness for `claim_C4` at a concrete append-mode run. -/
theorem claim_C4_witness :
    ∃ out, migrate ⟨"proj/docs.yml", "proj/docs/pages", false, true⟩
        (fun _ => some "# X") [⟨"article", "FAQ", none, none, .null, []⟩]
        (some "navigation:\n  - page: Existing\n    path: p.mdx\n") = .ok out ∧
      ∃ kvs2, out.finalDoc = .map kvs2 ∧
        vGet kvs2 "navigation" = some (.list
          ([Value.map [("page", .str "Existing"), ("path", .str "p.mdx")]] ++
           [Value.map [("page", .str "FAQ"), ("slug", .str "faq"),
             ("path", .str "docs/pages/faq.mdx")]])) :=
  claim_C4 ⟨"proj/docs.yml", "proj/docs/pages", false, true⟩
    (fun _ => some "# X") [⟨"article", "FAQ", none, none, .null, []⟩]
    "navigation:\n  - page: Existing\n    path: p.mdx\n"
    [("navigation", Value.list [Value.map [("page", .str "Existing"), ("path", .str "p.mdx")]])]
    [Value.map [("page", .str "Existing"), ("path", .str "p.mdx")]]
    [Value.map [("page", .str "FAQ"), ("slug", .str "faq"), ("path", .str "docs/pages/faq.mdx")]]
    [("faq", 1)] [] rfl (by rfl) (by rfl) (by rfl)

/-! ## Claim C7: dropped-node law -/

/-- The children probe finds a list only under one of the accepted keys. -/
theorem findListUnder_mem : ∀ (keys : List String) (kvs : List (String × Json)) (xs : List Json),
    findListUnder keys kvs = some xs → ∃ k ∈ keys, jGet kvs k = some (.arr xs)
  | [], _, _, h => by simp [findListUnder] at h
  | k :: rest, kvs, xs, h => by
    rw [findListUnder] at h
    split at h
    · next ys hcase =>
        cases h
        exact ⟨k, by simp, hcase⟩
    · next hcase =>
        obtain ⟨k2, hk2, hj⟩ := findListUnder_mem rest kvs xs h
        exact ⟨k2, by simp [hk2], hj⟩

/-- **C7 — counterexample.**  The unrestricted dropped-node law is false: a
record whose `type` field holds the truthy non-string `123` has no recognized
type/kind discriminator, no child list under any accepted field name and no
inline content, yet the run fails — `_parse_item` calls `.lower()` on the
non-string discriminator (`toc.py` line 40), raising `AttributeError`, which
`TocParser.parse` does not catch. -/
theorem claim_C7_counterexample :
    tocParse [Json.obj [("type", Json.num 123)]] = .error .attributeError := rfl

/-- **C7 (amended).**  Dropped-node law for string discriminators: a raw
record whose type/kind discriminator chain resolves to an ASCII string
outside both tag sets (a truthy non-string discriminator instead aborts the
run, see the counterexample; the ASCII requirement keeps the ASCII-level
`lower()` model faithful, since Python's full lowering can map non-ASCII
code points such as U+212A into the recognized tags), with no non-empty
child list under any accepted field name and no truthy inline `markdown`
field, is parsed to nothing, does not fail the run, and contributes nothing
to `TocParser.parse` wherever it occurs. -/
theorem claim_C7 (kvs : List (String × Json))
    (hdisc : ∃ ds, jOr (jGet kvs "type") (jOr (jGet kvs "kind") (Json.str "")) = .str ds ∧
        (∀ c ∈ ds.data, c.toNat < 128) ∧
        ¬ groupTags.contains (pyLower ds) = true ∧ ¬ articleTags.contains (pyLower ds) = true)
    (hchild : ∀ k ∈ childKeys, ∀ xs, jGet kvs k = some (.arr xs) → xs = [])
    (hmd : jTruthy ((jGet kvs "markdown").getD .null) = false) :
    (∀ fuel, 1 ≤ fuel → parseItemF fuel (.obj kvs) = .ok none) ∧
    (∀ pre post, tocParse (pre ++ .obj kvs :: post) = tocParse (pre ++ post)) := by
  obtain ⟨ds, hds, _, hg, ha⟩ := hdisc
  rw [Bool.not_eq_true] at hg ha
  have hdrop : ∀ fuel, 1 ≤ fuel → parseItemF fuel (.obj kvs) = .ok none := by
    intro fuel hf
    obtain ⟨f, rfl⟩ : ∃ f, fuel = f + 1 := ⟨fuel - 1, by omega⟩
    rw [parseItemF, hds]
    simp only [hg, ha, Bool.false_eq_true, if_false]
    rcases hcd : findListUnder childKeys kvs with _ | xs
    · simp [hcd, hmd]
    · have hxs : xs = [] := by
        obtain ⟨k, hk, hj⟩ := findListUnder_mem childKeys kvs xs hcd
        exact hchild k hk xs hj
      subst hxs
      simp [hcd, hmd]
  refine ⟨hdrop, ?_⟩
  intro pre post
  rw [tocParse, tocParse]
  induction pre with
  | nil =>
    simp only [List.nil_append]
    rw [tocParseGo, hdrop _ (by omega)]
    rcases tocParseGo post with e | rs <;> rfl
  | cons p rest ih =>
    simp only [List.cons_append]
    rw [tocParseGo, tocParseGo]
    rw [ih]

/-- Witness for `claim_C7`: a record with an unrecognized discriminator and
no children or markdown contributes nothing between two parses. -/
theorem claim_C7_witness :
    tocParse [Json.obj [("type", Json.str "group"), ("title", Json.str "T")],
        Json.obj [("foo", Json.str "x")]] =
      tocParse [Json.obj [("type", Json.str "group"), ("title", Json.str "T")]] :=
  (claim_C7 [("foo", Json.str "x")]
    ⟨"", rfl, by decide, by decide, by decide⟩
    (by intro k hk xs h; fin_cases hk <;> exact Option.noConfusion h)
    (by decide)).2 [Json.obj [("type", Json.str "group"), ("title", Json.str "T")]] []

/-! ## Claim C10: slugify idempotence -/

/-- No two adjacent hyphens. -/
def noDoubleHyphen : List Char → Bool
  | [] => true
  | [_] => true
  | a :: b :: rest => !(a = '-' && b = '-') && noDoubleHyphen (b :: rest)

def headNotHyphen : List Char → Bool
  | [] => true
  | c :: _ => !(c = '-')

theorem noDoubleHyphen_tail : ∀ {a : Char} {l : List Char},
    noDoubleHyphen (a :: l) = true → noDoubleHyphen l = true := by
  intro a l h
  cases l with
  | nil => rfl
  | cons b rest =>
    rw [noDoubleHyphen] at h
    simp only [Bool.and_eq_true] at h
    exact h.2

theorem slugReplaceGo_chars : ∀ (l : List Char) (prev : Bool),
    ∀ c ∈ slugReplaceGo prev l, isSlugChar c = true ∨ c = '-'
  | [], _, c, hc => by simp [slugReplaceGo] at hc
  | a :: rest, prev, c, hc => by
    rw [slugReplaceGo] at hc
    by_cases ha : isSlugChar a
    · rw [if_pos ha] at hc
      rcases List.mem_cons.mp hc with rfl | hc2
      · exact Or.inl ha
      · exact slugReplaceGo_chars rest false c hc2
    · rw [if_neg ha] at hc
      by_cases hp : prev
      · rw [if_pos hp] at hc
        exact slugReplaceGo_chars rest true c hc
      · rw [if_neg hp] at hc
        rcases List.mem_cons.mp hc with rfl | hc2
        · exact Or.inr rfl
        · exact slugReplaceGo_chars rest true c hc2

theorem slugReplaceGo_structure : ∀ l : List Char,
    (∀ prev, noDoubleHyphen (slugReplaceGo prev l) = true) ∧
    headNotHyphen (slugReplaceGo true l) = true := by
  intro l
  induction l with
  | nil => exact ⟨fun _ => rfl, rfl⟩
  | cons a rest ih =>
    by_cases ha : isSlugChar a
    · have hne : ¬(a = '-') := by
        intro hh; subst hh; exact absurd ha (by decide)
      constructor
      · intro prev
        rw [slugReplaceGo, if_pos ha]
        cases hgo : slugReplaceGo false rest with
        | nil => rfl
        | cons b t =>
          rw [noDoubleHyphen]
          simp only [Bool.and_eq_true]
          refine ⟨by simp [hne], ?_⟩
          rw [← hgo]
          exact ih.1 false
      · rw [slugReplaceGo, if_pos ha, headNotHyphen]
        simp [hne]
    · constructor
      · intro prev
        by_cases hp : prev
        · rw [slugReplaceGo, if_neg ha, if_pos hp]
          exact ih.1 true
        · rw [slugReplaceGo, if_neg ha, if_neg hp]
          cases hgo : slugReplaceGo true rest with
          | nil => rfl
          | cons b t =>
            rw [noDoubleHyphen]
            simp only [Bool.and_eq_true]
            refine ⟨?_, ?_⟩
            · have hb := ih.2
              rw [hgo, headNotHyphen] at hb
              simp at hb ⊢
              exact hb
            · rw [← hgo]
              exact ih.1 true
      · rw [slugReplaceGo, if_neg ha]
        by_cases hp : True
        · rw [if_pos (by trivial : (true : Bool) = true)]
          exact ih.2
        · exact absurd trivial hp

/-- The substitution is the identity on strings that already consist of
slug characters and isolated hyphens. -/
theorem slugReplaceGo_id : ∀ l : List Char,
    (∀ c ∈ l, isSlugChar c = true ∨ c = '-') → noDoubleHyphen l = true →
    (slugReplaceGo false l = l ∧ (headNotHyphen l = true → slugReplaceGo true l = l)) := by
  intro l
  induction l with
  | nil => exact fun _ _ => ⟨rfl, fun _ => rfl⟩
  | cons a rest ih =>
    intro hall hnd
    have hrest := ih (fun c hc => hall c (List.mem_cons_of_mem a hc)) (noDoubleHyphen_tail hnd)
    rcases hall a (List.mem_cons_self a rest) with ha | ha
    · have h1 : slugReplaceGo false (a :: rest) = a :: rest := by
        rw [slugReplaceGo, if_pos ha, hrest.1]
      refine ⟨h1, fun _ => ?_⟩
      rw [slugReplaceGo, if_pos ha, hrest.1]
    · subst ha
      have hhead : headNotHyphen rest = true := by
        cases rest with
        | nil => rfl
        | cons b t =>
          rw [noDoubleHyphen] at hnd
          simp only [Bool.and_eq_true] at hnd
          have := hnd.1
          rw [headNotHyphen]
          simp at this ⊢
          exact this
      have hslug : ¬ isSlugChar '-' = true := by decide
      constructor
      · rw [slugReplaceGo, if_neg hslug, if_neg (by simp : ¬ (false : Bool) = true)]
        rw [hrest.2 hhead]
      · intro hh
        rw [headNotHyphen] at hh
        simp at hh



theorem noDoubleHyphen_prefix : ∀ (l₁ l₂ : List Char),
    noDoubleHyphen (l₁ ++ l₂) = true → noDoubleHyphen l₁ = true
  | [], _, _ => rfl
  | [_], _, _ => rfl
  | a :: b :: rest, l₂, h => by
    rw [List.cons_append, List.cons_append] at h
    rw [noDoubleHyphen] at h ⊢
    simp only [Bool.and_eq_true] at h ⊢
    exact ⟨h.1, noDoubleHyphen_prefix (b :: rest) l₂ (by rw [List.cons_append]; exact h.2)⟩

theorem noDoubleHyphen_suffix : ∀ (l₁ l₂ : List Char),
    noDoubleHyphen (l₁ ++ l₂) = true → noDoubleHyphen l₂ = true
  | [], _, h => h
  | a :: rest, l₂, h => by
    rw [List.cons_append] at h
    exact noDoubleHyphen_suffix rest l₂ (noDoubleHyphen_tail h)

theorem dropWhile_head_false (p : Char → Bool) :
    ∀ {l : List Char} {c : Char} {t : List Char}, l.dropWhile p = c :: t → p c = false
  | [], c, t, h => by simp [List.dropWhile] at h
  | a :: rest, c, t, h => by
    rw [List.dropWhile] at h
    by_cases ha : p a
    · rw [ha] at h
      exact dropWhile_head_false p h
    · rw [Bool.eq_false_iff.mpr ha] at h
      cases h
      exact Bool.eq_false_iff.mpr ha

/-- `dropWhile` yields a suffix: the dropped prefix exists. -/
theorem dropWhile_is_suffix (p : Char → Bool) :
    ∀ l : List Char, ∃ pre, l = pre ++ l.dropWhile p
  | [] => ⟨[], rfl⟩
  | a :: rest => by
    rw [List.dropWhile]
    by_cases ha : p a
    · obtain ⟨pre, hpre⟩ := dropWhile_is_suffix p rest
      rw [ha]
      exact ⟨a :: pre, by rw [List.cons_append, ← hpre]⟩
    · rw [Bool.eq_false_iff.mpr ha]
      exact ⟨[], rfl⟩

/-- The list-level core of `pyStripChar s '-'`. -/
def stripHyphens (l : List Char) : List Char :=
  ((l.dropWhile (· = '-')).reverse.dropWhile (· = '-')).reverse

theorem pyStripChar_data (s : String) : (pyStripChar s '-').data = stripHyphens s.data := rfl

theorem stripHyphens_sub : ∀ l : List Char, ∀ c ∈ stripHyphens l, c ∈ l := by
  intro l c hc
  rw [stripHyphens] at hc
  have h1 : c ∈ (l.dropWhile (· = '-')).reverse := by
    obtain ⟨pre, hpre⟩ := dropWhile_is_suffix (· = '-') (l.dropWhile (· = '-')).reverse
    rw [List.mem_reverse] at hc
    rw [hpre]
    exact List.mem_append_right pre hc
  rw [List.mem_reverse] at h1
  obtain ⟨pre, hpre⟩ := dropWhile_is_suffix (· = '-') l
  rw [hpre]
  exact List.mem_append_right pre h1

theorem stripHyphens_noDH {l : List Char} (h : noDoubleHyphen l = true) :
    noDoubleHyphen (stripHyphens l) = true := by
  have h1 : noDoubleHyphen (l.dropWhile (· = '-')) = true := by
    obtain ⟨pre, hpre⟩ := dropWhile_is_suffix (· = '-') l
    exact noDoubleHyphen_suffix pre _ (by rw [← hpre]; exact h)
  obtain ⟨pre, hpre⟩ := dropWhile_is_suffix (· = '-') (l.dropWhile (· = '-')).reverse
  have h2 : l.dropWhile (· = '-') = stripHyphens l ++ pre.reverse := by
    have := congrArg List.reverse hpre
    rw [List.reverse_reverse, List.reverse_append] at this
    exact this
  exact noDoubleHyphen_prefix _ pre.reverse (by rw [← h2]; exact h1)

theorem stripHyphens_head (l : List Char) : headNotHyphen (stripHyphens l) = true := by
  rw [stripHyphens]
  rcases he : ((l.dropWhile (· = '-')).reverse.dropWhile (· = '-')).reverse with _ | ⟨c, t⟩
  · rfl
  · rw [headNotHyphen]
    have hrev : (l.dropWhile (· = '-')).reverse.dropWhile (· = '-') = (c :: t).reverse := by
      have := congrArg List.reverse he
      rwa [List.reverse_reverse] at this
    -- c is the head of the (prefix of) dropWhile result
    obtain ⟨pre, hpre⟩ := dropWhile_is_suffix (· = '-') (l.dropWhile (· = '-')).reverse
    have hdrop : l.dropWhile (· = '-') = c :: (t ++ pre.reverse) := by
      have := congrArg List.reverse hpre
      rw [List.reverse_reverse, List.reverse_append, hrev, List.reverse_reverse] at this
      rw [this, List.cons_append]
    have hc := dropWhile_head_false (· = '-') hdrop
    simp at hc ⊢
    exact hc

theorem stripHyphens_last (l : List Char) : headNotHyphen (stripHyphens l).reverse = true := by
  rw [stripHyphens, List.reverse_reverse]
  rcases he : (l.dropWhile (· = '-')).reverse.dropWhile (· = '-') with _ | ⟨c, t⟩
  · rfl
  · rw [headNotHyphen]
    have hc := dropWhile_head_false (· = '-') he
    simp at hc ⊢
    exact hc

theorem map_eq_self_of {l : List Char} {f : Char → Char} (h : ∀ c ∈ l, f c = c) :
    l.map f = l := by
  induction l with
  | nil => rfl
  | cons a rest ih =>
    rw [List.map_cons, h a (List.mem_cons_self a rest),
      ih (fun c hc => h c (List.mem_cons_of_mem a hc))]

theorem toLower_slugChar {c : Char} (h : isSlugChar c = true ∨ c = '-') : c.toLower = c := by
  rcases h with h | h
  · rcases isSlugChar_iff.mp h with ⟨h1, h2⟩ | ⟨h1, h2⟩ <;> exact toLower_eq_self (by omega)
  · subst h; decide

theorem slugChar_not_space {c : Char} (h : isSlugChar c = true ∨ c = '-') :
    pyIsSpace c = false := by
  rcases h with h | h
  · rcases isSlugChar_iff.mp h with ⟨h1, h2⟩ | ⟨h1, h2⟩ <;>
      exact pyIsSpace_false (by omega) (by omega)
  · subst h; decide

theorem string_data_ext {s t : String} (h : s.data = t.data) : s = t := by
  cases s with
  | mk d1 =>
    cases t with
    | mk d2 => exact congrArg String.mk h

/-- Every `slugify` output is either the placeholder or a nonempty string of
slug characters and isolated hyphens with no hyphen at either end. -/
theorem slugify_output_props (s : String) :
    slugify s = "page" ∨
    ((slugify s).data ≠ [] ∧
     (∀ c ∈ (slugify s).data, isSlugChar c = true ∨ c = '-') ∧
     noDoubleHyphen (slugify s).data = true ∧
     headNotHyphen (slugify s).data = true ∧
     headNotHyphen (slugify s).data.reverse = true) := by
  simp only [slugify]
  set rl : List Char := (pyLower (pyStrip s)).data with hrl
  by_cases h : pyStripChar (⟨slugReplaceGo false rl⟩ : String) '-' = ""
  · left
    rw [if_pos h]
  · right
    rw [if_neg h]
    have hdata : (pyStripChar (⟨slugReplaceGo false rl⟩ : String) '-').data =
        stripHyphens (slugReplaceGo false rl) := rfl
    have hok : ∀ c ∈ stripHyphens (slugReplaceGo false rl), isSlugChar c = true ∨ c = '-' :=
      fun c hc => slugReplaceGo_chars rl false c (stripHyphens_sub _ c hc)
    refine ⟨?_, ?_, ?_, ?_, ?_⟩
    · intro hd
      exact h (string_data_ext hd)
    · rw [hdata]; exact hok
    · rw [hdata]
      exact stripHyphens_noDH ((slugReplaceGo_structure rl).1 false)
    · rw [hdata]
      exact stripHyphens_head _
    · rw [hdata]
      exact stripHyphens_last _

/-- `slugify` fixes any nonempty string of slug characters and isolated
hyphens with no hyphen at either end. -/
theorem slugify_fixes {u : String}
    (hne : u.data ≠ [])
    (hok : ∀ c ∈ u.data, isSlugChar c = true ∨ c = '-')
    (hnd : noDoubleHyphen u.data = true)
    (hh : headNotHyphen u.data = true)
    (hl : headNotHyphen u.data.reverse = true) :
    slugify u = u := by
  have hstrip : pyStrip u = u := pyStrip_of_no_space (fun c hc => slugChar_not_space (hok c hc))
  have hlow : pyLower u = u := by
    rw [pyLower, map_eq_self_of (fun c hc => toLower_slugChar (hok c hc))]
    -- goal: ⟨u.data⟩ = u
  have hgo : slugReplaceGo false u.data = u.data := (slugReplaceGo_id u.data hok hnd).1
  have hdrop1 : u.data.dropWhile (· = '-') = u.data := by
    cases hu : u.data with
    | nil => rfl
    | cons c t =>
      rw [hu] at hh
      rw [headNotHyphen] at hh
      simp at hh
      simp [List.dropWhile_cons, hh]
  have hdrop2 : u.data.reverse.dropWhile (· = '-') = u.data.reverse := by
    cases hu : u.data.reverse with
    | nil => rfl
    | cons c t =>
      rw [hu] at hl
      rw [headNotHyphen] at hl
      simp at hl
      simp [List.dropWhile_cons, hl]
  have hstripchar : pyStripChar u '-' = u := by
    apply string_data_ext
    rw [pyStripChar_data, stripHyphens, hdrop1, hdrop2, List.reverse_reverse]
  have hune : ¬ (u = "") := by
    intro hu
    rw [hu] at hne
    exact hne rfl
  simp only [slugify, hstrip, hlow]
  have heta : (⟨u.data⟩ : String) = u := rfl
  rw [hgo, heta, hstripchar, if_neg hune]

theorem slugify_idem (s : String) : slugify (slugify s) = slugify s := by
  rcases slugify_output_props s with h | ⟨hne, hok, hnd, hh, hl⟩
  · rw [h]; decide
  · exact slugify_fixes hne hok hnd hh hl

/-- **C10.**  `slugify` is idempotent, and every slug the synthesizer
allocates is, before any disambiguation suffix, the slugified candidate — a
fixed point of `slugify` (`_ensure_unique_slug` first applies `slugify` to
whatever candidate the raw node supplied). -/
theorem claim_C10 :
    (∀ s : String, slugify (slugify s) = slugify s) ∧
    (∀ (reg : SlugReg) (s : String),
      ((ensureUniqueSlug reg s).1 = slugify s ∨
       ∃ n : Nat, (ensureUniqueSlug reg s).1 = slugify s ++ "-" ++ natDecimal n) ∧
      slugify (slugify s) = slugify s) := by
  refine ⟨slugify_idem, ?_⟩
  intro reg s
  refine ⟨?_, slugify_idem s⟩
  simp only [ensureUniqueSlug]
  by_cases h : regMem reg (slugify s) = true
  · rw [if_pos h]
    exact Or.inr ⟨_, rfl⟩
  · rw [if_neg h]
    exact Or.inl rfl

/-! ## Claim C2: slug uniqueness -/

theorem regMem_iff {reg : SlugReg} {x : String} :
    regMem reg x = true ↔ x ∈ reg.map (fun kv => kv.1) := by
  rw [regMem, List.any_eq_true]
  constructor
  · rintro ⟨kv, hmem, heq⟩
    rw [List.mem_map]
    exact ⟨kv, hmem, beq_iff_eq.mp heq⟩
  · intro hx
    obtain ⟨kv, hmem, heq⟩ := List.mem_map.mp hx
    exact ⟨kv, hmem, beq_iff_eq.mpr heq⟩

theorem regMem_cons (k0 : String) (v0 : Nat) (rest : SlugReg) (x : String) :
    regMem ((k0, v0) :: rest) x = true ↔ (k0 = x ∨ regMem rest x = true) := by
  rw [regMem, List.any_cons]
  simp only [Bool.or_eq_true]
  rw [regMem]
  constructor
  · rintro (h | h)
    · exact Or.inl (beq_iff_eq.mp h)
    · exact Or.inr h
  · rintro (h | h)
    · exact Or.inl (beq_iff_eq.mpr h)
    · exact Or.inr h

theorem regMem_regSet_iff : ∀ (reg : SlugReg) (k : String) (v : Nat) (x : String),
    regMem (regSet reg k v) x = true ↔ (regMem reg x = true ∨ k = x)
  | [], k, v, x => by
    rw [regSet, regMem_cons]
    simp [regMem]

  | (k0, v0) :: rest, k, v, x => by
    by_cases h : k0 = k
    · subst h
      rw [regSet, if_pos rfl, regMem_cons, regMem_cons]
      tauto
    · rw [regSet, if_neg h, regMem_cons, regMem_cons, regMem_regSet_iff rest k v x]
      tauto

theorem probeCounterF_spec : ∀ (fuel : Nat) (reg : SlugReg) (base : String) (c : Nat),
    (∃ k, k < fuel ∧ regMem reg (base ++ "-" ++ natDecimal (c + k)) = false) →
    regMem reg (base ++ "-" ++ natDecimal (probeCounterF fuel reg base c)) = false := by
  intro fuel
  induction fuel with
  | zero =>
    rintro reg base c ⟨k, hk, _⟩
    omega
  | succ fuel ih =>
    rintro reg base c ⟨k, hk, hfree⟩
    rw [probeCounterF]
    by_cases h : regMem reg (base ++ "-" ++ natDecimal c) = true
    · rw [if_pos h]
      apply ih
      rcases Nat.eq_zero_or_pos k with rfl | hpos
      · rw [Nat.add_zero] at hfree
        rw [hfree] at h
        cases h
      · exact ⟨k - 1, by omega, by rw [show c + 1 + (k - 1) = c + k by omega]; exact hfree⟩
    · rw [if_neg h]
      exact Bool.not_eq_true _ ▸ h

theorem probe_inj {base : String} {a b : Nat}
    (h : base ++ "-" ++ natDecimal a = base ++ "-" ++ natDecimal b) : a = b := by
  have hd := congrArg String.data h
  simp only [String.data_append] at hd
  rw [List.append_assoc, List.append_assoc] at hd
  have h2 := List.append_cancel_left hd
  have h3 := List.append_cancel_left h2
  exact natDecimal_inj (string_data_ext h3)

theorem exists_free_probe (reg : SlugReg) (base : String) (c : Nat) :
    ∃ k, k < reg.length + 1 ∧ regMem reg (base ++ "-" ++ natDecimal (c + k)) = false := by
  by_contra hno
  push_neg at hno
  have hall : ∀ k < reg.length + 1, regMem reg (base ++ "-" ++ natDecimal (c + k)) = true := by
    intro k hk
    have := hno k hk
    cases hb : regMem reg (base ++ "-" ++ natDecimal (c + k))
    · exact absurd hb this
    · rfl
  have hnodup : ((List.range (reg.length + 1)).map
      (fun k => base ++ "-" ++ natDecimal (c + k))).Nodup := by
    refine List.Nodup.map ?_ (List.nodup_range _)
    intro a b hab
    have := probe_inj hab
    omega
  have hsub : ((List.range (reg.length + 1)).map
      (fun k => base ++ "-" ++ natDecimal (c + k))) ⊆ reg.map (fun kv => kv.1) := by
    intro x hx
    obtain ⟨k, hk, rfl⟩ := List.mem_map.mp hx
    exact regMem_iff.mp (hall k (List.mem_range.mp hk))
  have hlen := (hnodup.subperm hsub).length_le
  simp at hlen

/-- `_ensure_unique_slug` returns a slug absent from the incoming registry,
present in the outgoing registry, and only grows the registry. -/
theorem ensureUniqueSlug_spec (reg : SlugReg) (s : String) :
    regMem reg (ensureUniqueSlug reg s).1 = false ∧
    regMem (ensureUniqueSlug reg s).2 (ensureUniqueSlug reg s).1 = true ∧
    (∀ x, regMem reg x = true → regMem (ensureUniqueSlug reg s).2 x = true) := by
  simp only [ensureUniqueSlug]
  by_cases h : regMem reg (slugify s) = true
  · rw [if_pos h]
    refine ⟨?_, ?_, ?_⟩
    · exact probeCounterF_spec _ reg (slugify s) _ (exists_free_probe reg (slugify s) _)
    · exact (regMem_regSet_iff _ _ _ _).mpr (Or.inr rfl)
    · intro x hx
      exact (regMem_regSet_iff _ _ _ _).mpr
        (Or.inl ((regMem_regSet_iff _ _ _ _).mpr (Or.inl hx)))
  · rw [if_neg h]
    refine ⟨?_, ?_, ?_⟩
    · cases hb : regMem reg (slugify s)
      · rfl
      · exact absurd hb h
    · exact (regMem_regSet_iff _ _ _ _).mpr (Or.inr rfl)
    · intro x hx
      exact (regMem_regSet_iff _ _ _ _).mpr (Or.inl hx)

mutual
/-- All string values stored under a `"slug"` key anywhere in a value
(the flattening of C2). -/
def slugsInVal : Value → List String
  | .map kvs => slugsInKvs kvs
  | .list xs => slugsInList xs
  | _ => []
def slugsInList : List Value → List String
  | [] => []
  | v :: rest => slugsInVal v ++ slugsInList rest
def slugsInKvs : List (String × Value) → List String
  | [] => []
  | (k, v) :: rest =>
    (if k = "slug" then (match v with | .str s => [s] | _ => []) else []) ++
      slugsInVal v ++ slugsInKvs rest
end

def slugsOptVal : Option Value → List String
  | some v => slugsInVal v
  | none => []

theorem slugsInVal_page (t s p : String) :
    slugsInVal (.map [("page", .str t), ("slug", .str s), ("path", .str p)]) = [s] := rfl

theorem slugsInVal_section (t s : String) (contents : List Value) :
    slugsInVal (.map [("section", .str t), ("slug", .str s), ("contents", .list contents)]) =
      s :: slugsInList contents := by
  simp [slugsInVal, slugsInKvs]

/-- `_create_page_entry`: the produced entry's slugs are fresh and recorded;
the registry only grows. -/
theorem createPageEntry_spec (cfg : MigrationConfig) (getMd) (node) (reg : SlugReg) :
    (∀ x ∈ slugsOptVal (createPageEntry cfg getMd node reg).1,
      regMem reg x = false ∧ regMem (createPageEntry cfg getMd node reg).2.1 x = true) ∧
    (slugsOptVal (createPageEntry cfg getMd node reg).1).Nodup ∧
    (∀ x, regMem reg x = true → regMem (createPageEntry cfg getMd node reg).2.1 x = true) := by
  rw [createPageEntry]
  cases getMd node with
  | none => exact ⟨(by intro x hx; cases hx), List.nodup_nil, fun x hx => hx⟩
  | some md =>
    dsimp only
    have hs := ensureUniqueSlug_spec reg (slugCandidate node)
    refine ⟨?_, ?_, hs.2.2⟩
    · intro x hx
      rw [slugsOptVal, slugsInVal_page] at hx
      rcases List.mem_singleton.mp hx with rfl
      exact ⟨hs.1, hs.2.1⟩
    · rw [slugsOptVal, slugsInVal_page]
      exact List.nodup_singleton _

/-- The conversion invariant: produced slugs are fresh with respect to the
incoming registry, recorded in the outgoing registry, and duplicate-free;
the registry only grows. -/
theorem convert_slug_spec (cfg : MigrationConfig) (getMd) : ∀ fuel : Nat,
    (∀ node reg res, convertNodeF fuel cfg getMd node reg = .ok res →
      ((∀ x ∈ slugsOptVal res.1, regMem reg x = false ∧ regMem res.2.1 x = true) ∧
       (slugsOptVal res.1).Nodup ∧
       (∀ x, regMem reg x = true → regMem res.2.1 x = true))) ∧
    (∀ nodes reg res, convertChildrenF fuel cfg getMd nodes reg = .ok res →
      ((∀ x ∈ slugsInList res.1, regMem reg x = false ∧ regMem res.2.1 x = true) ∧
       (slugsInList res.1).Nodup ∧
       (∀ x, regMem reg x = true → regMem res.2.1 x = true))) := by
  intro fuel
  induction fuel with
  | zero =>
    constructor
    · intro _ _ _ h; exact absurd h (by simp [convertNodeF])
    · intro _ _ _ h; exact absurd h (by simp [convertChildrenF])
  | succ fuel ih =>
    have hsection : ∀ (node : StoplightNode) (reg reg1 : SlugReg) (contents : List Value),
        ((∀ x ∈ slugsInList contents, regMem reg x = false ∧ regMem reg1 x = true) ∧
          (slugsInList contents).Nodup ∧
          (∀ x, regMem reg x = true → regMem reg1 x = true)) →
        ((∀ x ∈ slugsOptVal (some (.map [("section", .str node.title),
              ("slug", .str (ensureUniqueSlug reg1 (slugCandidate node)).1),
              ("contents", .list contents)])),
            regMem reg x = false ∧
            regMem (ensureUniqueSlug reg1 (slugCandidate node)).2 x = true) ∧
          (slugsOptVal (some (.map [("section", .str node.title),
              ("slug", .str (ensureUniqueSlug reg1 (slugCandidate node)).1),
              ("contents", .list contents)]))).Nodup ∧
          (∀ x, regMem reg x = true →
            regMem (ensureUniqueSlug reg1 (slugCandidate node)).2 x = true)) := by
      intro node reg reg1 contents hch
      have hs := ensureUniqueSlug_spec reg1 (slugCandidate node)
      have hfresh : regMem reg (ensureUniqueSlug reg1 (slugCandidate node)).1 = false := by
        cases hb : regMem reg (ensureUniqueSlug reg1 (slugCandidate node)).1
        · rfl
        · have h2 := hch.2.2 _ hb
          rw [hs.1] at h2
          cases h2
      refine ⟨?_, ?_, fun x hx => hs.2.2 x (hch.2.2 x hx)⟩
      · intro x hx
        rw [slugsOptVal, slugsInVal_section] at hx
        rcases List.mem_cons.mp hx with rfl | hx2
        · exact ⟨hfresh, hs.2.1⟩
        · exact ⟨(hch.1 x hx2).1, hs.2.2 x (hch.1 x hx2).2⟩
      · rw [slugsOptVal, slugsInVal_section]
        refine List.Nodup.cons ?_ hch.2.1
        intro hmem
        have h2 := (hch.1 _ hmem).2
        rw [hs.1] at h2
        cases h2
    constructor
    · intro node reg res h
      rw [convertNodeF] at h
      split at h
      · cases h
        exact createPageEntry_spec cfg getMd node reg
      · split at h
        · rcases he : convertChildrenF fuel cfg getMd node.children reg with e | ⟨contents, reg1, evs⟩
          · rw [he] at h; cases h
          · rw [he] at h
            simp only at h
            have hch := ih.2 node.children reg _ he
            split at h
            · cases h
              exact ⟨(by intro x hx; cases hx), List.nodup_nil, hch.2.2⟩
            · cases h
              exact hsection node reg reg1 contents hch
        · split at h
          · rcases he : convertChildrenF fuel cfg getMd node.children reg with e | ⟨contents, reg1, evs⟩
            · rw [he] at h; cases h
            · rw [he] at h
              simp only at h
              have hch := ih.2 node.children reg _ he
              split at h
              · cases h
                exact hsection node reg reg1 contents hch
              · cases h
                have hpe := createPageEntry_spec cfg getMd node reg1
                refine ⟨?_, hpe.2.1, fun x hx => hpe.2.2 x (hch.2.2 x hx)⟩
                intro x hx
                refine ⟨?_, (hpe.1 x hx).2⟩
                cases hb : regMem reg x
                · rfl
                · have h3 := hch.2.2 x hb
                  rw [(hpe.1 x hx).1] at h3
                  cases h3
          · cases h
            exact createPageEntry_spec cfg getMd node reg
    · intro nodes reg res h
      cases nodes with
      | nil =>
        rw [convertChildrenF] at h
        cases h
        exact ⟨(by intro x hx; cases hx), List.nodup_nil, fun x hx => hx⟩
      | cons n rest =>
        rw [convertChildrenF] at h
        rcases he : convertNodeF fuel cfg getMd n reg with e | ⟨r1, reg1, evs⟩
        · rw [he] at h; cases h
        · rw [he] at h
          simp only at h
          rcases he2 : convertChildrenF fuel cfg getMd rest reg1 with e | ⟨rs, reg2, evs2⟩
          · rw [he2] at h; cases h
          · rw [he2] at h
            simp only at h
            have h1 := ih.1 n reg _ he
            have h2 := ih.2 rest reg1 _ he2
            have hrest : ∀ x ∈ slugsInList rs, regMem reg x = false ∧ regMem reg2 x = true := by
              intro x hx2
              refine ⟨?_, (h2.1 x hx2).2⟩
              cases hb : regMem reg x
              · rfl
              · have h3 := h1.2.2 x hb
                rw [(h2.1 x hx2).1] at h3
                cases h3
            cases r1 with
            | none =>
              cases h
              exact ⟨hrest, h2.2.1, fun x hx => h2.2.2 x (h1.2.2 x hx)⟩
            | some v =>
              cases h
              have hcombined : slugsInList (v :: rs) = slugsInVal v ++ slugsInList rs := rfl
              refine ⟨?_, ?_, fun x hx => h2.2.2 x (h1.2.2 x hx)⟩
              · intro x hx
                rw [hcombined] at hx
                rcases List.mem_append.mp hx with hx1 | hx2
                · exact ⟨(h1.1 x hx1).1, h2.2.2 x (h1.1 x hx1).2⟩
                · exact hrest x hx2
              · rw [hcombined]
                refine List.Nodup.append h1.2.1 h2.2.1 ?_
                intro x hx1 hx2
                have h3 := (h1.1 x hx1).2
                rw [(h2.1 x hx2).1] at h3
                cases h3

/-- **C2.**  Slug uniqueness: across any migration run's generated
navigation (pages and sections at every depth), the flattened `slug` fields
contain no duplicates, for any input tree. -/
theorem claim_C2 (cfg : MigrationConfig) (getMd : StoplightNode → Option String)
    (nodes : List StoplightNode) (gen : List Value) (reg : SlugReg) (evs : List FsEvent)
    (h : migrateNav cfg getMd nodes = .ok (gen, reg, evs)) :
    (slugsInList gen).Nodup := by
  rw [migrateNav] at h
  exact ((convert_slug_spec cfg getMd (nodeListSize nodes + 1)).2 nodes [] _ h).2.1

/-- Witness for `claim_C2` at a concrete duplicate-title run. -/
theorem claim_C2_witness :
    (slugsInList
      [Value.map [("page", .str "FAQ"), ("slug", .str "faq"),
          ("path", .str "docs/pages/faq.mdx")],
       Value.map [("page", .str "FAQ"), ("slug", .str "faq-2"),
          ("path", .str "docs/pages/faq-2.mdx")]]).Nodup :=
  claim_C2 ⟨"proj/docs.yml", "proj/docs/pages", true, false⟩ (fun _ => some "# FAQ")
    [⟨"article", "FAQ", none, none, .null, []⟩, ⟨"article", "FAQ", none, none, .null, []⟩]
    _ [("faq", 2), ("faq-2", 1)]
    [FsEvent.writeText "proj/docs/pages/faq.mdx" "---\nslug: faq\ntitle: FAQ\n---\n\n# FAQ\n",
     FsEvent.writeText "proj/docs/pages/faq-2.mdx" "---\nslug: faq-2\ntitle: FAQ\n---\n\n# FAQ\n"]
    (by rfl)

/-! # Claim C1: the serializer round trip -/

/-! ## The safe class for the amended round-trip claim -/

/-- A string scalar whose emitted form decodes back to itself: empty, or
plain-emittable, ASCII, and free of re-interpretation (keywords, numbers,
markers, line breaks), or force-quoted and free of the characters the
decoder cannot undo (backslash, double quote, colon, line breaks).  The
ASCII requirement on the plain branch keeps the class inside the fragment
where the ASCII-level `pyLower` / `pyIntParse` / `pyFloatOk` agree with
Python, whose `int()` / `float()` also accept non-ASCII decimal digits
(`int("５") = 5`) and whose `lower()` can map non-ASCII code points into the
keywords; force-quoted scalars need no such restriction because a leading
double quote defeats the keyword and number readers in both semantics. -/
def safeStrB (s : String) : Bool :=
  s == "" ||
  (!containsAnyOf s specialChars && pyStrip s == s &&
   s.data.all (fun c => !pyIsLineBreak c) &&
   pyLower s != "null" && pyLower s != "true" && pyLower s != "false" &&
   (strContains s (Char.ofNat 46) || (pyIntParse s).isNone) &&
   (!strContains s (Char.ofNat 46) || !pyFloatOk s) &&
   s != "__BLOCK__" && s != "|" && s != ">" &&
   s.data.all (fun c => decide (c.toNat < 128))) ||
  ((containsAnyOf s specialChars || pyStrip s != s) &&
   !strContains s (Char.ofNat 92) && !strContains s dqChar &&
   !strContains s (Char.ofNat 58) &&
   s.data.all (fun c => !pyIsLineBreak c))

/-- A mapping key the parser recovers verbatim: trimmed, colon-free,
break-free, and not starting like a comment or a list item. -/
def safeKeyB (k : String) : Bool :=
  pyStrip k == k && !strContains k (Char.ofNat 58) &&
  k.data.all (fun c => !pyIsLineBreak c) &&
  !strStartsWith k "#" && !strStartsWith k "- "

mutual
/-- Values on which `load` inverts `dump` (see `claim_C1`): no floats, no
empty lists, unambiguous strings, well-behaved and duplicate-free keys. -/
def safeVal : Value → Bool
  | .str s => safeStrB s
  | .int _ => true
  | .pyFloat _ => false
  | .bool _ => true
  | .null => true
  | .list xs => !xs.isEmpty && safeList xs
  | .map kvs => safeKvs kvs

def safeList : List Value → Bool
  | [] => true
  | v :: rest => safeVal v && safeList rest

def safeKvs : List (String × Value) → Bool
  | [] => true
  | (k, v) :: rest =>
    safeKeyB k && safeVal v && rest.all (fun q => q.1 != k) && safeKvs rest
end

/-- Is the value a collection (list or mapping)? -/
def isColl : Value → Bool
  | .list _ => true
  | .map _ => true
  | _ => false

/-- The domain of the amended round-trip law: a safe collection at the root
(`dump` is only ever applied to documents, and a bare scalar document does
not parse back). -/
def safeRoot (v : Value) : Bool := isColl v && safeVal v

/-! ## String and character toolkit -/

theorem strEta (s : String) : String.mk s.data = s := string_data_ext rfl

theorem strNe_of_data {s t : String} (h : s.data ≠ t.data) : s ≠ t :=
  fun e => h (congrArg String.data e)

theorem data_append (a b : String) : (a ++ b).data = a.data ++ b.data :=
  String.data_append a b

theorem strEmpty_iff {s : String} : s = "" ↔ s.data = [] :=
  ⟨fun e => by rw [e], fun e => string_data_ext (by rw [e])⟩

theorem exists_concat {α : Type} {l : List α} (h : l ≠ []) :
    ∃ m c, l = m ++ [c] := by
  induction l with
  | nil => exact absurd rfl h
  | cons a t ih =>
    rcases t with _ | ⟨b, t2⟩
    · exact ⟨[], a, rfl⟩
    · obtain ⟨m, c, e⟩ := ih (by simp)
      exact ⟨a :: m, c, by rw [e]; simp⟩

theorem dropWhile_replicate_append {p : Char → Bool} {a : Char} (h : p a = true)
    (i : Nat) (l : List Char) :
    List.dropWhile p (List.replicate i a ++ l) = List.dropWhile p l := by
  induction i with
  | zero => simp
  | succ n ih => simp [List.replicate_succ, List.dropWhile_cons, h, ih]

theorem takeWhile_replicate_append {p : Char → Bool} {a : Char} (h : p a = true)
    (i : Nat) (l : List Char) (hl : ∀ c m, l = c :: m → p c = false) :
    List.takeWhile p (List.replicate i a ++ l) = List.replicate i a := by
  induction i with
  | zero =>
    rcases l with _ | ⟨c, m⟩
    · simp
    · simp [List.takeWhile_cons, hl c m rfl]
  | succ n ih => simp [List.replicate_succ, List.takeWhile_cons, h, ih]

/-- If `dropWhile` keeps the head, the head fails the predicate. -/
theorem dropWhile_fix_head {p : Char → Bool} {c : Char} {m : List Char}
    (h : List.dropWhile p (c :: m) = c :: m) : p c = false := by
  cases hpc : p c with
  | false => rfl
  | true =>
    exfalso
    rw [List.dropWhile_cons, if_pos hpc] at h
    obtain ⟨pre, hpre⟩ := dropWhile_is_suffix p m
    rw [h] at hpre
    have := congrArg List.length hpre
    simp at this
    omega

theorem pyLstrip_data (s : String) :
    (pyLstrip s).data = s.data.dropWhile pyIsSpace := rfl

theorem pyRstrip_data (s : String) :
    (pyRstrip s).data = (s.data.reverse.dropWhile pyIsSpace).reverse := rfl

/-- A both-sides-trimmed string is left- and right-trimmed. -/
theorem strip_to_lr {s : String} (h : pyStrip s = s) :
    pyLstrip s = s ∧ pyRstrip s = s := by
  have hdata : ((pyLstrip s).data.reverse.dropWhile pyIsSpace).reverse = s.data := by
    have h0 := congrArg String.data h
    rw [pyStrip] at h0
    rw [← pyRstrip_data]
    exact h0
  obtain ⟨pre1, hpre1⟩ := dropWhile_is_suffix pyIsSpace (pyLstrip s).data.reverse
  have hlen1 : s.data.length ≤ (pyLstrip s).data.length := by
    have e1 := congrArg List.length hdata
    have e2 := congrArg List.length hpre1
    simp only [List.length_reverse, List.length_append] at e1 e2
    omega
  obtain ⟨pre2, hpre2⟩ := dropWhile_is_suffix pyIsSpace s.data
  rw [← pyLstrip_data] at hpre2
  have hls : pyLstrip s = s := by
    apply string_data_ext
    have hpl : pre2.length = 0 := by
      have e2 := congrArg List.length hpre2
      simp only [List.length_append] at e2
      omega
    rw [List.length_eq_zero] at hpl
    rw [hpre2, hpl, List.nil_append]
  refine ⟨hls, ?_⟩
  have h2 : pyRstrip (pyLstrip s) = s := h
  rw [hls] at h2
  exact h2

/-- Head of a trimmed nonempty string is not whitespace. -/
theorem strip_inv_head {s : String} (h : pyStrip s = s) {c : Char} {m : List Char}
    (e : s.data = c :: m) : pyIsSpace c = false := by
  have hl := (strip_to_lr h).1
  have hd : List.dropWhile pyIsSpace (c :: m) = c :: m := by
    have := congrArg String.data hl
    rw [pyLstrip_data, e] at this
    exact this
  exact dropWhile_fix_head hd

/-- Last character of a trimmed nonempty string is not whitespace. -/
theorem strip_inv_last {s : String} (h : pyStrip s = s) {m : List Char} {c : Char}
    (e : s.data = m ++ [c]) : pyIsSpace c = false := by
  have hr := (strip_to_lr h).2
  have hd : List.dropWhile pyIsSpace (c :: m.reverse) = c :: m.reverse := by
    have h0 := congrArg String.data hr
    rw [pyRstrip_data, e] at h0
    have h2 := congrArg List.reverse h0
    simpa using h2
  exact dropWhile_fix_head hd

/-- Left-trim is the identity when the head is not whitespace (or the string
is empty). -/
theorem pyLstrip_id {s : String} (h : ∀ c m, s.data = c :: m → pyIsSpace c = false) :
    pyLstrip s = s := by
  apply string_data_ext
  rw [pyLstrip_data]
  rcases hd : s.data with _ | ⟨c, m⟩
  · simp
  · simp [List.dropWhile_cons, h c m hd]

/-- Right-trim is the identity when the last character is not whitespace (or
the string is empty). -/
theorem pyRstrip_id {s : String} (h : ∀ m c, s.data = m ++ [c] → pyIsSpace c = false) :
    pyRstrip s = s := by
  apply string_data_ext
  rw [pyRstrip_data]
  rcases hd : s.data with _ | ⟨c, m⟩
  · simp
  · obtain ⟨m2, c2, e2⟩ := exists_concat (l := c :: m) (by simp)
    rw [e2]
    have hc2 : pyIsSpace c2 = false := h m2 c2 (hd.trans e2)
    simp [List.dropWhile_cons, hc2]

/-- Trim is the identity given both end conditions. -/
theorem pyStrip_id {s : String} (h1 : ∀ c m, s.data = c :: m → pyIsSpace c = false)
    (h2 : ∀ m c, s.data = m ++ [c] → pyIsSpace c = false) :
    pyStrip s = s := by
  rw [pyStrip, pyLstrip_id h1, pyRstrip_id h2]

/-- Stripping a space-prefixed string strips the suffix. -/
theorem pyStrip_spaces_append (i : Nat) (u : String) :
    pyStrip (spaces i ++ u) = pyStrip u := by
  rw [pyStrip, pyStrip]
  have : pyLstrip (spaces i ++ u) = pyLstrip u := by
    apply string_data_ext
    rw [pyLstrip_data, pyLstrip_data, data_append]
    have hsp : (spaces i).data = List.replicate i ' ' := rfl
    rw [hsp, dropWhile_replicate_append (by decide)]
  rw [this]

theorem leadingSpaces_spaces_append (i : Nat) (u : String)
    (h : ∀ c m, u.data = c :: m → c ≠ ' ') :
    leadingSpaces (spaces i ++ u) = i := by
  rw [leadingSpaces, data_append]
  have hsp : (spaces i).data = List.replicate i ' ' := rfl
  rw [hsp, takeWhile_replicate_append (by decide) i u.data]
  · simp
  · intro c m hc
    have := h c m hc
    simp [this]

/-! ## Line-level facts about emitted lines -/

theorem pyIsLineBreak_newline : pyIsLineBreak (Char.ofNat 10) = true := by decide

theorem pyRstripNewline_id {s : String} (h : ∀ c ∈ s.data, c ≠ Char.ofNat 10) :
    pyRstripNewline s = s := by
  apply string_data_ext
  rw [pyRstripNewline]
  have : List.dropWhile (fun c => c = Char.ofNat 10) s.data.reverse = s.data.reverse := by
    apply dropWhile_all_false
    intro c hc
    have := h c (List.mem_reverse.mp hc)
    simp [this]
  show (List.dropWhile (fun c => c = Char.ofNat 10) s.data.reverse).reverse = s.data
  rw [this, List.reverse_reverse]

theorem strStartsWith_hash_false {u : String} {c : Char} {m : List Char}
    (e : u.data = c :: m) (hc : c ≠ Char.ofNat 35) : strStartsWith u "#" = false := by
  rw [strStartsWith]
  have hd : ("#" : String).data = [Char.ofNat 35] := by decide
  rw [hd, e]
  show (Char.ofNat 35 == c && List.isPrefixOf [] m) = false
  have : (Char.ofNat 35 == c) = false := by
    cases he : Char.ofNat 35 == c
    · rfl
    · exact absurd (beq_iff_eq.mp he).symm hc
  rw [this, Bool.false_and]

/-- The combined facts about an emitted line `spaces i ++ u`. -/
theorem line_facts {i : Nat} {u : String}
    (hne : u.data ≠ [])
    (hhead : ∀ c m, u.data = c :: m → pyIsSpace c = false ∧ c ≠ Char.ofNat 35)
    (hlast : ∀ m c, u.data = m ++ [c] → pyIsSpace c = false)
    (hbr : ∀ c ∈ u.data, pyIsLineBreak c = false) :
    lineOf (spaces i ++ u) = ⟨spaces i ++ u, i⟩ ∧
    skippable ⟨spaces i ++ u, i⟩ = false ∧
    pyStrip (spaces i ++ u) = u := by
  have hustrip : pyStrip u = u := by
    apply pyStrip_id
    · intro c m e
      exact (hhead c m e).1
    · exact hlast
  have hstrip : pyStrip (spaces i ++ u) = u := by
    rw [pyStrip_spaces_append, hustrip]
  have hlstrip : pyLstrip (spaces i ++ u) = pyLstrip u := by
    apply string_data_ext
    rw [pyLstrip_data, pyLstrip_data, data_append]
    have hsp : (spaces i).data = List.replicate i ' ' := rfl
    rw [hsp, dropWhile_replicate_append (by decide)]
  have hulstrip : pyLstrip u = u := by
    apply pyLstrip_id
    intro c m e
    exact (hhead c m e).1
  refine ⟨?_, ?_, hstrip⟩
  · rw [lineOf]
    have htext : pyRstripNewline (spaces i ++ u) = spaces i ++ u := by
      apply pyRstripNewline_id
      intro c hc
      rw [data_append] at hc
      rcases List.mem_append.mp hc with hc1 | hc1
      · have : c = ' ' := by
          have hsp : (spaces i).data = List.replicate i ' ' := rfl
          rw [hsp] at hc1
          exact List.eq_of_mem_replicate hc1
        rw [this]
        decide
      · have := hbr c hc1
        intro he
        rw [he] at this
        rw [pyIsLineBreak_newline] at this
        cases this
    have hind : leadingSpaces (spaces i ++ u) = i := by
      apply leadingSpaces_spaces_append
      intro c m e hce
      have := (hhead c m e).1
      rw [hce] at this
      cases this
    rw [htext, hind]
  · rw [skippable]
    have h2 : strStartsWith (pyLstrip (spaces i ++ u)) "#" = false := by
      rw [hlstrip, hulstrip]
      rcases hd : u.data with _ | ⟨c, m⟩
      · exact absurd hd hne
      · exact strStartsWith_hash_false hd (hhead c m hd).2
    simp only [h2, Bool.or_false]
    simp only [decide_eq_false_iff_not]
    intro e
    rw [hstrip] at e
    exact hne (strEmpty_iff.mp e)

/-! ## `splitFirst` and affix helpers -/

theorem splitFirst_of_not_mem {l : List Char} {sep : Char} (h : sep ∉ l) :
    splitFirst l sep = none := by
  induction l with
  | nil => rfl
  | cons c rest ih =>
    rw [splitFirst]
    have hc : ¬(c = sep) := fun e => h (by simp [e])
    rw [if_neg hc, ih (fun hm => h (List.mem_cons_of_mem c hm))]
    rfl

theorem splitFirst_append {k r : List Char} {sep : Char} (h : sep ∉ k) :
    splitFirst (k ++ sep :: r) sep = some (k, r) := by
  induction k with
  | nil => simp [splitFirst]
  | cons c rest ih =>
    rw [List.cons_append, splitFirst]
    have hc : ¬(c = sep) := fun e => h (by simp [e])
    rw [if_neg hc, ih (fun hm => h (List.mem_cons_of_mem c hm))]
    rfl

theorem strEndsWith_single_false {t : String} {x : Char}
    (h : ∀ c ∈ t.data, c ≠ x) : strEndsWith t ⟨[x]⟩ = false := by
  rw [strEndsWith]
  show List.isPrefixOf [x].reverse t.data.reverse = false
  rcases hd : t.data.reverse with _ | ⟨c, m⟩
  · rfl
  · have hc : c ∈ t.data := by
      rw [← List.mem_reverse, hd]
      exact List.mem_cons_self c m
    show List.isPrefixOf [x] (c :: m) = false
    rw [List.isPrefixOf]
    have : (x == c) = false := by
      cases he : x == c
      · rfl
      · exact absurd (beq_iff_eq.mp he).symm (h c hc)
    rw [this, Bool.false_and]

/-! ## Ordered-mapping key freshness -/

/-- Key membership in an entry list. -/
def keyMem (mp : List (String × Value)) (k : String) : Bool :=
  mp.any (fun q => q.1 == k)

theorem keyMem_nil (k : String) : keyMem [] k = false := rfl

theorem odSet_append : ∀ {mp : List (String × Value)} {k : String} (v : Value),
    keyMem mp k = false → odSet mp k v = mp ++ [(k, v)] := by
  intro mp
  induction mp with
  | nil => intro k v _; rfl
  | cons q rest ih =>
    intro k v h
    rw [keyMem, List.any_cons] at h
    have h1 : (q.1 == k) = false := by
      cases he : q.1 == k
      · rfl
      · rw [he] at h; cases h
    have h2 : keyMem rest k = false := by
      cases he : rest.any (fun q => q.1 == k)
      · show rest.any (fun q => q.1 == k) = false
        exact he
      · rw [he] at h; rw [h1] at h; cases h
    rcases q with ⟨k0, v0⟩
    rw [odSet]
    have : ¬(k0 = k) := by
      intro e
      rw [e] at h1
      simp at h1
    rw [if_neg this, ih v h2]
    rfl

theorem keyMem_append_one (mp : List (String × Value)) (k x : String) (v : Value) :
    keyMem (mp ++ [(k, v)]) x = (keyMem mp x || k == x) := by
  rw [keyMem, keyMem, List.any_append]
  simp

/-! ## Number recognizers on non-numeric heads -/

theorem splitOnChar_ne_nil (sep : Char) : ∀ l : List Char, splitOnChar sep l ≠ [] := by
  intro l
  induction l with
  | nil => simp [splitOnChar]
  | cons c rest ih =>
    rw [splitOnChar]
    by_cases hc : c = sep
    · simp [hc]
    · rw [if_neg hc]
      rcases he : splitOnChar sep rest with _ | ⟨t, ts⟩
      · simp
      · simp

theorem splitOnChar_cons_ne {sep c : Char} (h : c ≠ sep) (l : List Char) :
    ∃ t ts, splitOnChar sep l = t :: ts ∧ splitOnChar sep (c :: l) = (c :: t) :: ts := by
  rcases he : splitOnChar sep l with _ | ⟨t, ts⟩
  · exact absurd he (splitOnChar_ne_nil sep l)
  · refine ⟨t, ts, rfl, ?_⟩
    rw [splitOnChar, if_neg h, he]

theorem digitsURec_cons_bad {c : Char} (h : isAsciiDigit c = false) (l : List Char) :
    digitsURec false (c :: l) = false := by
  simp [digitsURec, h]

theorem parseDigitsU_cons_bad {c : Char} (h : isAsciiDigit c = false) (l : List Char) :
    parseDigitsU false 0 (c :: l) = none := by
  simp [parseDigitsU, h]

theorem floatMantissaOk_cons_bad {c : Char} (hd : isAsciiDigit c = false)
    (hdot : c ≠ '.') (l : List Char) : floatMantissaOk (c :: l) = false := by
  obtain ⟨t, ts, _, he2⟩ := splitOnChar_cons_ne hdot l
  rw [floatMantissaOk, he2]
  rcases ts with _ | ⟨f, ts2⟩
  · show digitsURec false (c :: t) = false
    exact digitsURec_cons_bad hd t
  · rcases ts2 with _ | ⟨g, ts3⟩
    · show ((decide (c :: t = []) || digitsURec false (c :: t)) && _ && _) = false
      rw [digitsURec_cons_bad hd t]
      simp
    · rfl

/-- `float(value)` fails on a trimmed string whose head is structurally
non-numeric (our use: a double quote). -/
theorem stripSign_cons_ne {c : Char} (hplus : c ≠ '+') (hminus : c ≠ '-')
    (l : List Char) : stripSign (c :: l) = c :: l := by
  simp [stripSign, hplus, hminus]

theorem pyFloatOk_cons_bad {s : String} {c : Char} {l : List Char}
    (e : s.data = c :: l) (hs : pyStrip s = s)
    (hd : isAsciiDigit c = false) (hdot : c ≠ '.') (hplus : c ≠ '+')
    (hminus : c ≠ '-') (hee : c ≠ 'e') (hEE : c ≠ 'E') : pyFloatOk s = false := by
  rw [pyFloatOk, hs, e, stripSign_cons_ne hplus hminus]
  obtain ⟨t1, ts1, _, heq1⟩ := splitOnChar_cons_ne hee l
  obtain ⟨t2, ts2, _, heq2⟩ := splitOnChar_cons_ne hEE l
  rw [heq1]
  by_cases hlen : ((c :: t1) :: ts1).length = 1
  · rw [if_pos hlen, heq2]
    rcases ts2 with _ | ⟨f, ts3⟩
    · show floatMantissaOk (c :: t2) = false
      exact floatMantissaOk_cons_bad hd hdot t2
    · rcases ts3 with _ | ⟨g, ts4⟩
      · show (floatMantissaOk (c :: t2) && _) = false
        rw [floatMantissaOk_cons_bad hd hdot t2]
        rfl
      · rfl
  · rw [if_neg hlen]
    rcases ts1 with _ | ⟨f, ts3⟩
    · simp at hlen
    · rcases ts3 with _ | ⟨g, ts4⟩
      · show (floatMantissaOk (c :: t1) && _) = false
        rw [floatMantissaOk_cons_bad hd hdot t1]
        rfl
      · rfl

/-- `int(value)` fails on a trimmed string whose head is neither a sign nor
a digit. -/
theorem pyIntParse_cons_bad {s : String} {c : Char} {l : List Char}
    (e : s.data = c :: l) (hs : pyStrip s = s)
    (hd : isAsciiDigit c = false) (hplus : c ≠ '+') (hminus : c ≠ '-') :
    pyIntParse s = none := by
  rw [pyIntParse, hs, e]
  split
  · next rest h2 => rw [List.cons.injEq] at h2; exact absurd h2.1 hplus
  · next rest h2 => rw [List.cons.injEq] at h2; exact absurd h2.1 hminus
  · rw [parseDigitsU_cons_bad hd]
    rfl

/-! ## Escaping and lowering -/

theorem replaceCharBy_id {l : List Char} {target : Char} (rep : List Char)
    (h : ∀ c ∈ l, c ≠ target) : replaceCharBy l target rep = l := by
  induction l with
  | nil => rfl
  | cons c rest ih =>
    rw [replaceCharBy] at ih ⊢
    rw [List.flatMap_cons, if_neg (h c (List.mem_cons_self c rest)),
        ih (fun d hd => h d (List.mem_cons_of_mem c hd))]
    rfl

theorem escapeQuoted_id {s : String} (h1 : ∀ c ∈ s.data, c ≠ Char.ofNat 92)
    (h2 : ∀ c ∈ s.data, c ≠ dqChar) : escapeQuoted s = s := by
  rw [escapeQuoted]
  have hbs : ('\\' : Char) = Char.ofNat 92 := by decide
  have e1 : replaceCharBy s.data '\\' ['\\', '\\'] = s.data := by
    rw [hbs]
    exact replaceCharBy_id _ h1
  rw [e1, replaceCharBy_id _ h2]

theorem pyLower_data (s : String) : (pyLower s).data = s.data.map Char.toLower := rfl

theorem strNe_of_head {s t : String} {c d : Char} {m n : List Char}
    (hs : s.data = c :: m) (ht : t.data = d :: n) (h : c ≠ d) : s ≠ t := by
  apply strNe_of_data
  rw [hs, ht]
  intro e
  rw [List.cons.injEq] at e
  exact h e.1

/-! ## Membership helpers and safe-class destructuring -/

theorem strContains_false_iff {s : String} {x : Char} :
    strContains s x = false ↔ x ∉ s.data := by
  rw [strContains]
  constructor
  · intro h hm
    rw [← @List.elem_iff _ _ _ x s.data] at hm
    have h2 : List.elem x s.data = false := h
    rw [hm] at h2
    cases h2
  · intro h
    cases he : s.data.contains x
    · rfl
    · exact absurd (List.elem_iff.mp he) h

theorem ne_all_of_not_mem {l : List Char} {x : Char} (h : x ∉ l) :
    ∀ c ∈ l, c ≠ x := fun _ hc e => h (e ▸ hc)

theorem containsAnyOf_false_spec {s : String} {chars : List Char}
    (h : containsAnyOf s chars = false) : ∀ c ∈ s.data, c ∉ chars := by
  intro c hc hm
  rw [containsAnyOf] at h
  have hcc := List.any_eq_false.mp h c hc
  rw [← @List.elem_iff _ _ _ c chars] at hm
  exact hcc hm

theorem strStartsWith_single_false {s : String} {x : Char}
    (h : ∀ c ∈ s.data, c ≠ x) : strStartsWith s ⟨[x]⟩ = false := by
  rw [strStartsWith]
  show List.isPrefixOf [x] s.data = false
  rcases hd : s.data with _ | ⟨c, m⟩
  · rfl
  · rw [List.isPrefixOf]
    have : (x == c) = false := by
      cases he : x == c
      · rfl
      · exact absurd (beq_iff_eq.mp he).symm (h c (by rw [hd]; exact List.mem_cons_self c m))
    rw [this, Bool.false_and]

theorem strStartsWith_single_true {s : String} {x : Char} {m : List Char}
    (e : s.data = x :: m) : strStartsWith s ⟨[x]⟩ = true := by
  rw [strStartsWith]
  show List.isPrefixOf [x] s.data = true
  rw [e, List.isPrefixOf]
  simp [List.isPrefixOf]

theorem strEndsWith_concat {l : List Char} {x : Char} {s : String}
    (e : s.data = l ++ [x]) : strEndsWith s ⟨[x]⟩ = true := by
  rw [strEndsWith]
  show List.isPrefixOf [x].reverse s.data.reverse = true
  rw [e]
  simp [List.isPrefixOf]

theorem append_singleton_inj {α : Type} {l m : List α} {c d : α}
    (h : l ++ [c] = m ++ [d]) : l = m ∧ c = d := by
  have h2 := List.append_inj h (by
    have := congrArg List.length h
    simp at this
    omega)
  refine ⟨h2.1, ?_⟩
  have := h2.2
  rw [List.cons.injEq] at this
  exact this.1

/-- Unpacked form of `safeStrB`. -/
theorem safeStrB_cases {s : String} (h : safeStrB s = true) :
    s = "" ∨
    (containsAnyOf s specialChars = false ∧ pyStrip s = s ∧
     (∀ c ∈ s.data, pyIsLineBreak c = false) ∧
     pyLower s ≠ "null" ∧ pyLower s ≠ "true" ∧ pyLower s ≠ "false" ∧
     (strContains s '.' = true ∨ pyIntParse s = none) ∧
     (strContains s '.' = false ∨ pyFloatOk s = false) ∧
     s ≠ "__BLOCK__" ∧ s ≠ "|" ∧ s ≠ ">") ∨
    ((containsAnyOf s specialChars = true ∨ pyStrip s ≠ s) ∧
     (∀ c ∈ s.data, c ≠ Char.ofNat 92) ∧ (∀ c ∈ s.data, c ≠ dqChar) ∧
     (∀ c ∈ s.data, c ≠ ':') ∧ (∀ c ∈ s.data, pyIsLineBreak c = false)) := by
  rw [safeStrB] at h
  have h46 : Char.ofNat 46 = '.' := by decide
  have h58 : Char.ofNat 58 = ':' := by decide
  rw [h46, h58] at h
  rcases Bool.or_eq_true_iff.mp h with h1 | h1
  · rcases Bool.or_eq_true_iff.mp h1 with h2 | h2
    · exact Or.inl (beq_iff_eq.mp h2)
    · refine Or.inr (Or.inl ?_)
      simp only [Bool.and_eq_true, Bool.not_eq_true', beq_iff_eq, bne_iff_ne,
        List.all_eq_true, Bool.or_eq_true, Option.isNone_iff_eq_none] at h2
      obtain ⟨⟨⟨⟨⟨⟨⟨⟨⟨⟨⟨ha, hb⟩, hc⟩, hd⟩, he⟩, hf⟩, hg⟩, hh⟩, hi⟩, hj⟩, hk⟩, _⟩ := h2
      refine ⟨ha, hb, ?_, hd, he, hf, hg, ?_, hi, hj, hk⟩
      · intro c hcm
        have := hc c hcm
        simpa using this
      · rcases hh with hh | hh
        · left
          cases hx : strContains s '.'
          · rfl
          · rw [hx] at hh; cases hh
        · right; exact hh
  · refine Or.inr (Or.inr ?_)
    simp only [Bool.and_eq_true, Bool.not_eq_true', beq_iff_eq, bne_iff_ne,
      List.all_eq_true, Bool.or_eq_true] at h1
    obtain ⟨⟨⟨⟨ha, hb⟩, hc⟩, hd⟩, he⟩ := h1
    refine ⟨?_, ?_, ?_, ?_, ?_⟩
    · rcases ha with ha | ha
      · exact Or.inl ha
      · exact Or.inr ha
    · exact ne_all_of_not_mem (strContains_false_iff.mp hb)
    · exact ne_all_of_not_mem (strContains_false_iff.mp hc)
    · exact ne_all_of_not_mem (strContains_false_iff.mp hd)
    · intro c hcm
      have := he c hcm
      simpa using this

/-- Unpacked form of `safeKeyB`. -/
theorem safeKeyB_props {k : String} (h : safeKeyB k = true) :
    pyStrip k = k ∧ (∀ c ∈ k.data, c ≠ ':') ∧
    (∀ c ∈ k.data, pyIsLineBreak c = false) ∧
    strStartsWith k "#" = false ∧ strStartsWith k "- " = false := by
  rw [safeKeyB] at h
  have h58 : Char.ofNat 58 = ':' := by decide
  rw [h58] at h
  simp only [Bool.and_eq_true, Bool.not_eq_true', beq_iff_eq, List.all_eq_true] at h
  obtain ⟨⟨⟨⟨ha, hb⟩, hc⟩, hd⟩, he⟩ := h
  refine ⟨ha, ne_all_of_not_mem (strContains_false_iff.mp hb), ?_, hd, he⟩
  intro c hcm
  have := hc c hcm
  simpa using this

theorem safeVal_map {kvs : List (String × Value)} (h : safeVal (.map kvs) = true) :
    safeKvs kvs = true := h

theorem safeVal_list {xs : List Value} (h : safeVal (.list xs) = true) :
    xs ≠ [] ∧ safeList xs = true := by
  rw [safeVal, Bool.and_eq_true] at h
  refine ⟨?_, h.2⟩
  intro e
  rw [e] at h
  rcases h with ⟨h1, _⟩
  simp at h1

theorem safeKvs_cons {k : String} {v : Value} {rest : List (String × Value)}
    (h : safeKvs ((k, v) :: rest) = true) :
    safeKeyB k = true ∧ safeVal v = true ∧ (∀ q ∈ rest, q.1 ≠ k) ∧
    safeKvs rest = true := by
  rw [safeKvs] at h
  simp only [Bool.and_eq_true, List.all_eq_true, bne_iff_ne] at h
  obtain ⟨⟨⟨ha, hb⟩, hc⟩, hd⟩ := h
  exact ⟨ha, hb, hc, hd⟩

theorem safeList_cons {v : Value} {rest : List Value}
    (h : safeList (v :: rest) = true) : safeVal v = true ∧ safeList rest = true := by
  rw [safeList, Bool.and_eq_true] at h
  exact h

/-! ## `parseScalar` reduction -/

theorem parseScalar_num {t : String} {v : Value} (hne : t ≠ "")
    (hnull : pyLower t ≠ "null") (htrue : pyLower t ≠ "true")
    (hfalse : pyLower t ≠ "false")
    (hnum : (if strContains t '.' then
        (if pyFloatOk t then some (Value.pyFloat t) else none)
      else (pyIntParse t).map Value.int) = some v) :
    parseScalar t = v := by
  rw [parseScalar, if_neg hne]
  dsimp only
  rw [if_neg hnull, if_neg htrue, if_neg hfalse, hnum]

theorem parseScalar_notNum {t : String} (hne : t ≠ "")
    (hnull : pyLower t ≠ "null") (htrue : pyLower t ≠ "true")
    (hfalse : pyLower t ≠ "false")
    (hnum : (if strContains t '.' then
        (if pyFloatOk t then some (Value.pyFloat t) else none)
      else (pyIntParse t).map Value.int) = none) :
    parseScalar t =
      if (strStartsWith t sqStr && strEndsWith t sqStr) ||
         (strStartsWith t dqStr && strEndsWith t dqStr) then
        Value.str ⟨(t.data.drop 1).dropLast⟩
      else Value.str t := by
  rw [parseScalar, if_neg hne]
  dsimp only
  rw [if_neg hnull, if_neg htrue, if_neg hfalse, hnum]

/-! ## The scalar round trip -/

/-- The facts the parser needs about an emitted scalar text `t` encoding the
scalar value `v`. -/
def scOK (v : Value) (t : String) : Prop :=
  t.data ≠ [] ∧ (∀ c ∈ t.data, c ≠ ':') ∧ pyStrip t = t ∧
  (∀ c ∈ t.data, pyIsLineBreak c = false) ∧ t ≠ "|" ∧ t ≠ ">" ∧
  parseScalar t = v ∧ v ≠ .str "__BLOCK__" ∧ isColl v = false

theorem intDecimal_ne_nil (i : Int) : (intDecimal i).data ≠ [] := by
  rw [intDecimal]
  split
  · rw [data_append]
    simp
  · exact fun h => (natDecimal_ne_nil _) h

/-- Character-class bound for `str(int)` output: code points in `{45} ∪ [48, 57]`. -/
theorem intDecimal_codes (i : Int) :
    ∀ c ∈ (intDecimal i).data, c.toNat = 45 ∨ (48 ≤ c.toNat ∧ c.toNat ≤ 57) := by
  intro c hc
  rcases intDecimal_chars i c hc with hd | hd
  · right
    exact isAsciiDigit_iff.mp hd
  · left
    rw [hd]
    rfl

theorem formatScalar_int_scOK (n : Int) : scOK (.int n) (intDecimal n) := by
  have hne : (intDecimal n).data ≠ [] := intDecimal_ne_nil n
  have hcc := intDecimal_codes n
  have hne2 : intDecimal n ≠ "" := fun e => hne (strEmpty_iff.mp e)
  have hstrip : pyStrip (intDecimal n) = intDecimal n := by
    apply pyStrip_id
    · intro c m e
      apply pyIsSpace_false
      · have := hcc c (by rw [e]; exact List.mem_cons_self c m)
        omega
      · have := hcc c (by rw [e]; exact List.mem_cons_self c m)
        omega
    · intro m c e
      apply pyIsSpace_false
      · have := hcc c (by rw [e]; simp)
        omega
      · have := hcc c (by rw [e]; simp)
        omega
  have hlow : pyLower (intDecimal n) = intDecimal n := by
    apply string_data_ext
    rw [pyLower_data]
    apply map_eq_self_of
    intro c hc
    apply toLower_eq_self
    have := hcc c hc
    omega
  obtain ⟨c0, m0, hm0⟩ : ∃ c0 m0, (intDecimal n).data = c0 :: m0 := by
    rcases hd : (intDecimal n).data with _ | ⟨c, m⟩
    · exact absurd hd hne
    · exact ⟨c, m, rfl⟩
  have hc0c := hcc c0 (by rw [hm0]; exact List.mem_cons_self c0 m0)
  have hdot : strContains (intDecimal n) '.' = false := by
    rw [strContains_false_iff]
    intro hm
    have := hcc '.' hm
    have h46 : ('.' : Char).toNat = 46 := rfl
    omega
  refine ⟨hne, ?_, hstrip, ?_, ?_, ?_, ?_, by simp, rfl⟩
  · intro c hc e
    have := hcc c hc
    rw [e] at this
    have h58 : (':' : Char).toNat = 58 := rfl
    omega
  · intro c hc
    apply pyIsLineBreak_false
    · have := hcc c hc
      omega
    · have := hcc c hc
      omega
  · apply strNe_of_head hm0 (show ("|" : String).data = ['|'] from rfl)
    intro e
    rw [e] at hc0c
    have : ('|' : Char).toNat = 124 := rfl
    omega
  · apply strNe_of_head hm0 (show (">" : String).data = ['>'] from rfl)
    intro e
    rw [e] at hc0c
    have : ('>' : Char).toNat = 62 := rfl
    omega
  · apply parseScalar_num hne2
    · rw [hlow]
      apply strNe_of_head hm0 (show ("null" : String).data = 'n' :: ['u', 'l', 'l'] from rfl)
      intro e
      rw [e] at hc0c
      have : ('n' : Char).toNat = 110 := rfl
      omega
    · rw [hlow]
      apply strNe_of_head hm0 (show ("true" : String).data = 't' :: ['r', 'u', 'e'] from rfl)
      intro e
      rw [e] at hc0c
      have : ('t' : Char).toNat = 116 := rfl
      omega
    · rw [hlow]
      apply strNe_of_head hm0 (show ("false" : String).data = 'f' :: ['a', 'l', 's', 'e'] from rfl)
      intro e
      rw [e] at hc0c
      have : ('f' : Char).toNat = 102 := rfl
      omega
    · rw [hdot]
      show (pyIntParse (intDecimal n)).map Value.int = some (Value.int n)
      rw [pyIntParse_intDecimal]
      rfl

theorem sq_mem_special : sqChar ∈ specialChars := by decide

theorem dq_mem_special : dqChar ∈ specialChars := by decide

theorem colon_mem_special : (':' : Char) ∈ specialChars := by decide

theorem newline_mem_special : Char.ofNat 10 ∈ specialChars := by decide

/-- A plain-emitted safe string decodes to itself. -/
theorem formatScalar_plain_scOK {s : String} (hs0 : s ≠ "")
    (h2 : containsAnyOf s specialChars = false ∧ pyStrip s = s ∧
     (∀ c ∈ s.data, pyIsLineBreak c = false) ∧
     pyLower s ≠ "null" ∧ pyLower s ≠ "true" ∧ pyLower s ≠ "false" ∧
     (strContains s '.' = true ∨ pyIntParse s = none) ∧
     (strContains s '.' = false ∨ pyFloatOk s = false) ∧
     s ≠ "__BLOCK__" ∧ s ≠ "|" ∧ s ≠ ">") :
    scOK (.str s) s := by
  obtain ⟨hspec, hstrip, hbr, hnull, htrue, hfalse, hint, hfl, hblock, hpipe, hgt⟩ := h2
  have hnospec := containsAnyOf_false_spec hspec
  have hne : s.data ≠ [] := fun e => hs0 (strEmpty_iff.mpr e)
  have hnum : (if strContains s '.' then
      (if pyFloatOk s then some (Value.pyFloat s) else none)
    else (pyIntParse s).map Value.int) = none := by
    cases hdot : strContains s '.'
    · rw [if_neg (by simp)]
      rcases hint with hint | hint
      · rw [hdot] at hint; cases hint
      · rw [hint]; rfl
    · rw [if_pos (by simp)]
      rcases hfl with hfl | hfl
      · rw [hdot] at hfl; cases hfl
      · rw [hfl]
        rfl
  refine ⟨hne, ?_, hstrip, hbr, hpipe, hgt, ?_, ?_, rfl⟩
  · intro c hc e
    exact hnospec c hc (e ▸ colon_mem_special)
  · rw [parseScalar_notNum hs0 hnull htrue hfalse hnum]
    rw [if_neg ?_]
    intro hq
    rcases Bool.or_eq_true_iff.mp hq with hq1 | hq1
    · rw [Bool.and_eq_true] at hq1
      have hsw : strStartsWith s sqStr = false := by
        apply strStartsWith_single_false
        intro c hc e
        exact hnospec c hc (e ▸ sq_mem_special)
      rw [hsw] at hq1
      exact absurd hq1.1 (by simp)
    · rw [Bool.and_eq_true] at hq1
      have hsw : strStartsWith s dqStr = false := by
        apply strStartsWith_single_false
        intro c hc e
        exact hnospec c hc (e ▸ dq_mem_special)
      rw [hsw] at hq1
      exact absurd hq1.1 (by simp)
  · intro e
    rw [Value.str.injEq] at e
    exact hblock e

/-- A force-quoted safe string decodes to itself. -/
theorem formatScalar_quoted_scOK {s : String}
    (hbs : ∀ c ∈ s.data, c ≠ Char.ofNat 92) (hdq : ∀ c ∈ s.data, c ≠ dqChar)
    (hcolon : ∀ c ∈ s.data, c ≠ ':') (hbr : ∀ c ∈ s.data, pyIsLineBreak c = false)
    (hblock : s ≠ "__BLOCK__") :
    scOK (.str s) (dqStr ++ escapeQuoted s ++ dqStr) := by
  have hesc : escapeQuoted s = s := escapeQuoted_id hbs hdq
  rw [hesc]
  have hdata : (dqStr ++ s ++ dqStr).data = dqChar :: (s.data ++ [dqChar]) := by
    rw [data_append, data_append]
    rfl
  have hdata2 : (dqStr ++ s ++ dqStr).data = (dqChar :: s.data) ++ [dqChar] := by
    rw [hdata]
    rfl
  have hmem : ∀ c ∈ (dqStr ++ s ++ dqStr).data, c = dqChar ∨ c ∈ s.data := by
    intro c hc
    rw [hdata] at hc
    rcases List.mem_cons.mp hc with hc1 | hc1
    · exact Or.inl hc1
    · rcases List.mem_append.mp hc1 with hc2 | hc2
      · exact Or.inr hc2
      · left
        rcases List.mem_singleton.mp hc2 with rfl
        rfl
  have hne : (dqStr ++ s ++ dqStr).data ≠ [] := by
    rw [hdata]
    simp
  have hne2 : (dqStr ++ s ++ dqStr) ≠ "" := fun e => hne (strEmpty_iff.mp e)
  have hstrip : pyStrip (dqStr ++ s ++ dqStr) = dqStr ++ s ++ dqStr := by
    apply pyStrip_id
    · intro c m e
      rw [hdata] at e
      rw [List.cons.injEq] at e
      rw [← e.1]
      decide
    · intro m c e
      rw [hdata2] at e
      have h3 := (append_singleton_inj e.symm).2
      rw [h3]
      decide
  have hlowne : ∀ (w : String) (c1 : Char) (m1 : List Char),
      w.data = c1 :: m1 → Char.toLower dqChar ≠ c1 →
      pyLower (dqStr ++ s ++ dqStr) ≠ w := by
    intro w c1 m1 hw hne1
    have hld : (pyLower (dqStr ++ s ++ dqStr)).data =
        Char.toLower dqChar :: (s.data ++ [dqChar]).map Char.toLower := by
      rw [pyLower_data, hdata, List.map_cons]
    exact strNe_of_head hld hw hne1
  refine ⟨hne, ?_, hstrip, ?_, ?_, ?_, ?_, ?_, rfl⟩
  · intro c hc e
    rcases hmem c hc with h1 | h1
    · rw [e] at h1
      exact absurd h1.symm (by decide)
    · exact hcolon c h1 e
  · intro c hc
    rcases hmem c hc with h1 | h1
    · rw [h1]
      decide
    · exact hbr c h1
  · apply strNe_of_head hdata (show ("|" : String).data = ['|'] from rfl)
    decide
  · apply strNe_of_head hdata (show (">" : String).data = ['>'] from rfl)
    decide
  · have hnum : (if strContains (dqStr ++ s ++ dqStr) '.' then
        (if pyFloatOk (dqStr ++ s ++ dqStr) then
          some (Value.pyFloat (dqStr ++ s ++ dqStr)) else none)
      else (pyIntParse (dqStr ++ s ++ dqStr)).map Value.int) = none := by
      cases hdot : strContains (dqStr ++ s ++ dqStr) '.'
      · rw [if_neg (by simp)]
        rw [pyIntParse_cons_bad hdata hstrip (by decide) (by decide) (by decide)]
        rfl
      · rw [if_pos (by simp)]
        rw [pyFloatOk_cons_bad hdata hstrip (by decide) (by decide) (by decide)
          (by decide) (by decide) (by decide)]
        simp
    rw [parseScalar_notNum hne2
      (hlowne _ _ _ (show ("null" : String).data = 'n' :: ['u', 'l', 'l'] from rfl) (by decide))
      (hlowne _ _ _ (show ("true" : String).data = 't' :: ['r', 'u', 'e'] from rfl) (by decide))
      (hlowne _ _ _ (show ("false" : String).data = 'f' :: ['a', 'l', 's', 'e'] from rfl) (by decide))
      hnum]
    have hq2 : (strStartsWith (dqStr ++ s ++ dqStr) dqStr &&
        strEndsWith (dqStr ++ s ++ dqStr) dqStr) = true := by
      have e1 : strStartsWith (dqStr ++ s ++ dqStr) dqStr = true :=
        strStartsWith_single_true hdata
      have e2 : strEndsWith (dqStr ++ s ++ dqStr) dqStr = true :=
        strEndsWith_concat hdata2
      rw [e1, e2]
      rfl
    rw [if_pos (by rw [hq2, Bool.or_true])]
    rw [Value.str.injEq]
    apply string_data_ext
    show ((dqStr ++ s ++ dqStr).data.drop 1).dropLast = s.data
    rw [hdata]
    show (s.data ++ [dqChar]).dropLast = s.data
    rw [List.dropLast_concat]
  · intro e
    rw [Value.str.injEq] at e
    exact hblock e

/-- The scalar workhorse: every safe non-collection value is encoded by
`formatScalar` into a text the parser decodes back to it. -/
theorem formatScalar_scOK : ∀ {v : Value}, safeVal v = true → isColl v = false →
    scOK v (formatScalar v) := by
  intro v hsafe hcoll
  match v with
  | .pyFloat lit => rw [safeVal] at hsafe; cases hsafe
  | .list xs => rw [isColl] at hcoll; cases hcoll
  | .map kvs => rw [isColl] at hcoll; cases hcoll
  | .null =>
    show scOK .null "null"
    exact ⟨by decide, by decide, by decide, by decide, by decide, by decide,
      by decide, by decide, by decide⟩
  | .bool true =>
    show scOK (.bool true) "true"
    exact ⟨by decide, by decide, by decide, by decide, by decide, by decide,
      by decide, by decide, by decide⟩
  | .bool false =>
    show scOK (.bool false) "false"
    exact ⟨by decide, by decide, by decide, by decide, by decide, by decide,
      by decide, by decide, by decide⟩
  | .int n =>
    show scOK (.int n) (intDecimal n)
    exact formatScalar_int_scOK n
  | .str s =>
    by_cases hs0 : s = ""
    · subst hs0
      show scOK (.str "") (formatScalar (.str ""))
      rw [formatScalar, if_pos rfl]
      exact ⟨by decide, by decide, by decide, by decide, by decide, by decide,
        by decide, by decide, by decide⟩
    · have hsb : safeStrB s = true := hsafe
      rcases safeStrB_cases hsb with h1 | h1 | h1
      · exact absurd h1 hs0
      · have hfmt : formatScalar (.str s) = s := by
          rw [formatScalar, if_neg hs0, if_neg ?_]
          rw [h1.1, h1.2.1]
          simp
        rw [hfmt]
        exact formatScalar_plain_scOK hs0 h1
      · obtain ⟨hforce, hbs, hdq, hcolon, hbr⟩ := h1
        have hblock : s ≠ "__BLOCK__" := by
          intro e
          subst e
          rcases hforce with hf | hf
          · exact absurd hf (by decide)
          · exact absurd (by decide) hf
        have hfmt : formatScalar (.str s) = dqStr ++ escapeQuoted s ++ dqStr := by
          rw [formatScalar, if_neg hs0, if_pos ?_]
          rcases hforce with hf | hf
          · rw [hf]
            simp
          · simp [hf]
        rw [hfmt]
        exact formatScalar_quoted_scOK hbs hdq hcolon hbr hblock

/-! ## `parseKeyValue` on emitted entry lines -/

theorem parseKeyValue_scalar {w k t : String}
    (hw : w.data = k.data ++ ':' :: ' ' :: t.data)
    (hk : ∀ c ∈ k.data, c ≠ ':') (hks : pyStrip k = k)
    (hts : pyStrip t = t) (htne : t.data ≠ []) (hp : t ≠ "|") (hg : t ≠ ">") :
    parseKeyValue w = .ok (k, true, parseScalar t) := by
  have hsp : splitFirst w.data ':' = some (k.data, ' ' :: t.data) := by
    rw [hw]
    exact splitFirst_append (fun hm => hk ':' hm rfl)
  rw [parseKeyValue, hsp]
  dsimp only
  have hkey : pyStrip (⟨k.data⟩ : String) = k := by rw [strEta]; exact hks
  have h1 : pyLstrip (⟨' ' :: t.data⟩ : String) = t := by
    apply string_data_ext
    rw [pyLstrip_data]
    show List.dropWhile pyIsSpace (' ' :: t.data) = t.data
    rw [List.dropWhile_cons, if_pos (by decide)]
    have h2 := congrArg String.data (strip_to_lr hts).1
    rw [pyLstrip_data] at h2
    exact h2
  have hrem : pyStrip (⟨' ' :: t.data⟩ : String) = t := by
    rw [pyStrip, h1]
    exact (strip_to_lr hts).2
  rw [hkey, hrem]
  rw [if_neg (fun e => htne (strEmpty_iff.mp e)), if_neg ?_]
  simp [hp, hg]

theorem parseKeyValue_nested {w k : String}
    (hw : w.data = k.data ++ [':'])
    (hk : ∀ c ∈ k.data, c ≠ ':') (hks : pyStrip k = k) :
    parseKeyValue w = .ok (k, false, .null) := by
  have hsp : splitFirst w.data ':' = some (k.data, []) := by
    rw [hw]
    exact splitFirst_append (fun hm => hk ':' hm rfl)
  rw [parseKeyValue, hsp]
  dsimp only
  have hkey : pyStrip (⟨k.data⟩ : String) = k := by rw [strEta]; exact hks
  have hrem : pyStrip (⟨([] : List Char)⟩ : String) = "" := by decide
  rw [hkey, hrem, if_pos rfl]

/-! ## Line-text checks for the block loop -/

theorem startsWith_hash_head {c : Char} {t : List Char} {k : String}
    (hk : k.data = c :: t) (h : strStartsWith k "#" = false) : c ≠ '#' := by
  intro e
  rw [strStartsWith, hk] at h
  subst e
  simp [List.isPrefixOf] at h

/-- A mapping-entry line is neither a bare dash nor a list item. -/
theorem key_line_checks {k : String} {r : List Char} {w : String}
    (hw : w.data = k.data ++ ':' :: r)
    (hsw : strStartsWith k "- " = false) :
    w ≠ "-" ∧ strStartsWith w "- " = false := by
  constructor
  · intro e
    rw [e] at hw
    have hd : ("-" : String).data = ['-'] := rfl
    rw [hd] at hw
    rcases hk : k.data with _ | ⟨a, k2⟩
    · rw [hk] at hw
      simp at hw
    · rw [hk] at hw
      simp at hw
  · rw [strStartsWith]
    have hd : ("- " : String).data = ['-', ' '] := rfl
    rw [hd, hw]
    rcases hk : k.data with _ | ⟨a, k2⟩
    · simp [List.isPrefixOf]
    · rcases hk2 : k2 with _ | ⟨b, k3⟩
      · simp [List.isPrefixOf]
      · rw [strStartsWith, hd, hk, hk2] at hsw
        simp [List.isPrefixOf] at hsw ⊢
        exact hsw

theorem pyLstrip_space_cons {t : String} (hts : pyLstrip t = t) :
    pyLstrip (⟨' ' :: t.data⟩ : String) = t := by
  apply string_data_ext
  rw [pyLstrip_data]
  show List.dropWhile pyIsSpace (' ' :: t.data) = t.data
  rw [List.dropWhile_cons, if_pos (by decide)]
  have h2 := congrArg String.data hts
  rw [pyLstrip_data] at h2
  exact h2

/-- A scalar list-item line text starts like a list item and is not a bare
dash. -/
theorem dash_scalar_checks {t w : String} (hw : w.data = '-' :: ' ' :: t.data)
    (hts : pyStrip t = t) :
    w ≠ "-" ∧ strStartsWith w "- " = true ∧ pyLstrip ⟨w.data.drop 1⟩ = t := by
  refine ⟨?_, ?_, ?_⟩
  · intro e
    rw [e] at hw
    have hd : ("-" : String).data = ['-'] := rfl
    rw [hd] at hw
    simp at hw
  · rw [strStartsWith]
    have hd : ("- " : String).data = ['-', ' '] := rfl
    rw [hd, hw]
    simp [List.isPrefixOf]
  · rw [hw]
    show pyLstrip (⟨' ' :: t.data⟩ : String) = t
    exact pyLstrip_space_cons (strip_to_lr hts).1

/-! ## The emitted-line bundles -/

/-- A line the serializer can emit: free of line breaks and ending in a
non-whitespace character (so joining and re-splitting is lossless). -/
def goodLine (l : String) : Prop :=
  (∀ c ∈ l.data, pyIsLineBreak c = false) ∧
  ∃ m c, l.data = m ++ [c] ∧ pyIsSpace c = false

theorem strAppend_assoc (a b c : String) : a ++ b ++ c = a ++ (b ++ c) :=
  string_data_ext (by
    rw [data_append, data_append, data_append, data_append, List.append_assoc])

theorem line_facts_good {i : Nat} {u : String}
    (hne : u.data ≠ [])
    (hhead : ∀ c m, u.data = c :: m → pyIsSpace c = false ∧ c ≠ Char.ofNat 35)
    (hlast : ∀ m c, u.data = m ++ [c] → pyIsSpace c = false)
    (hbr : ∀ c ∈ u.data, pyIsLineBreak c = false) :
    lineOf (spaces i ++ u) = ⟨spaces i ++ u, i⟩ ∧
    skippable ⟨spaces i ++ u, i⟩ = false ∧
    pyStrip (spaces i ++ u) = u ∧
    goodLine (spaces i ++ u) := by
  obtain ⟨h1, h2, h3⟩ := line_facts hne hhead hlast hbr (i := i)
  refine ⟨h1, h2, h3, ?_, ?_⟩
  · intro c hc
    rw [data_append] at hc
    rcases List.mem_append.mp hc with hc1 | hc1
    · have hsp : (spaces i).data = List.replicate i ' ' := rfl
      rw [hsp] at hc1
      rw [List.eq_of_mem_replicate hc1]
      decide
    · exact hbr c hc1
  · obtain ⟨m2, c2, e2⟩ := exists_concat hne
    refine ⟨(spaces i).data ++ m2, c2, ?_, hlast m2 c2 e2⟩
    rw [data_append, e2, List.append_assoc]

/-- Facts about an emitted scalar mapping-entry line. -/
theorem mapScalarLine (i : Nat) {k t : String} (hkB : safeKeyB k = true)
    (htne : t.data ≠ []) (hts : pyStrip t = t)
    (htb : ∀ c ∈ t.data, pyIsLineBreak c = false)
    (hp : t ≠ "|") (hg : t ≠ ">") :
    lineOf (spaces i ++ (k ++ ": " ++ t)) = ⟨spaces i ++ (k ++ ": " ++ t), i⟩ ∧
    skippable ⟨spaces i ++ (k ++ ": " ++ t), i⟩ = false ∧
    pyStrip (spaces i ++ (k ++ ": " ++ t)) = k ++ ": " ++ t ∧
    goodLine (spaces i ++ (k ++ ": " ++ t)) ∧
    (k ++ ": " ++ t) ≠ "-" ∧
    strStartsWith (k ++ ": " ++ t) "- " = false ∧
    parseKeyValue (k ++ ": " ++ t) = .ok (k, true, parseScalar t) := by
  obtain ⟨hks, hkc, hkb, hhash, hdash⟩ := safeKeyB_props hkB
  have hu : (k ++ ": " ++ t).data = k.data ++ ':' :: ' ' :: t.data := by
    rw [data_append, data_append]
    have : (": " : String).data = [':', ' '] := rfl
    rw [this, List.append_assoc]
    rfl
  obtain ⟨m2, c2, e2⟩ := exists_concat htne
  have hu2 : (k ++ ": " ++ t).data = (k.data ++ ':' :: ' ' :: m2) ++ [c2] := by
    rw [hu, e2]
    simp
  have hne : (k ++ ": " ++ t).data ≠ [] := by
    rw [hu]
    simp
  have hhead : ∀ c m, (k ++ ": " ++ t).data = c :: m →
      pyIsSpace c = false ∧ c ≠ Char.ofNat 35 := by
    intro c m e
    rw [hu] at e
    rcases hkd : k.data with _ | ⟨a, k2⟩
    · rw [hkd] at e
      simp at e
      rw [← e.1]
      exact ⟨by decide, by decide⟩
    · rw [hkd] at e
      simp at e
      rw [← e.1]
      constructor
      · exact strip_inv_head hks hkd
      · have h35 : Char.ofNat 35 = '#' := by decide
        rw [h35]
        exact startsWith_hash_head hkd hhash
  have hlast : ∀ m c, (k ++ ": " ++ t).data = m ++ [c] → pyIsSpace c = false := by
    intro m c e
    have hc2 := (append_singleton_inj (e.symm.trans hu2)).2
    rw [hc2]
    exact strip_inv_last hts e2
  have hbr : ∀ c ∈ (k ++ ": " ++ t).data, pyIsLineBreak c = false := by
    intro c hc
    rw [hu] at hc
    rcases List.mem_append.mp hc with hc1 | hc1
    · exact hkb c hc1
    · rcases List.mem_cons.mp hc1 with hc2 | hc2
      · rw [hc2]; decide
      · rcases List.mem_cons.mp hc2 with hc3 | hc3
        · rw [hc3]; decide
        · exact htb c hc3
  obtain ⟨g1, g2, g3, g4⟩ := line_facts_good hne hhead hlast hbr (i := i)
  obtain ⟨d1, d2⟩ := key_line_checks (r := ' ' :: t.data) hu hdash
  exact ⟨g1, g2, g3, g4, d1, d2, parseKeyValue_scalar hu hkc hks hts htne hp hg⟩

/-- Facts about an emitted nested mapping-entry line. -/
theorem mapNestedLine (i : Nat) {k : String} (hkB : safeKeyB k = true) :
    lineOf (spaces i ++ (k ++ ":")) = ⟨spaces i ++ (k ++ ":"), i⟩ ∧
    skippable ⟨spaces i ++ (k ++ ":"), i⟩ = false ∧
    pyStrip (spaces i ++ (k ++ ":")) = k ++ ":" ∧
    goodLine (spaces i ++ (k ++ ":")) ∧
    (k ++ ":") ≠ "-" ∧
    strStartsWith (k ++ ":") "- " = false ∧
    parseKeyValue (k ++ ":") = .ok (k, false, .null) := by
  obtain ⟨hks, hkc, hkb, hhash, hdash⟩ := safeKeyB_props hkB
  have hu : (k ++ ":").data = k.data ++ [':'] := by
    rw [data_append]
  have hne : (k ++ ":").data ≠ [] := by
    rw [hu]
    simp
  have hhead : ∀ c m, (k ++ ":").data = c :: m →
      pyIsSpace c = false ∧ c ≠ Char.ofNat 35 := by
    intro c m e
    rw [hu] at e
    rcases hkd : k.data with _ | ⟨a, k2⟩
    · rw [hkd] at e
      simp at e
      rw [← e.1]
      exact ⟨by decide, by decide⟩
    · rw [hkd] at e
      simp at e
      rw [← e.1]
      constructor
      · exact strip_inv_head hks hkd
      · have h35 : Char.ofNat 35 = '#' := by decide
        rw [h35]
        exact startsWith_hash_head hkd hhash
  have hlast : ∀ m c, (k ++ ":").data = m ++ [c] → pyIsSpace c = false := by
    intro m c e
    have hc2 := (append_singleton_inj (e.symm.trans hu)).2
    rw [hc2]
    decide
  have hbr : ∀ c ∈ (k ++ ":").data, pyIsLineBreak c = false := by
    intro c hc
    rw [hu] at hc
    rcases List.mem_append.mp hc with hc1 | hc1
    · exact hkb c hc1
    · rw [List.mem_singleton.mp hc1]
      decide
  obtain ⟨g1, g2, g3, g4⟩ := line_facts_good hne hhead hlast hbr (i := i)
  obtain ⟨d1, d2⟩ := key_line_checks (r := ([] : List Char)) hu hdash
  exact ⟨g1, g2, g3, g4, d1, d2, parseKeyValue_nested hu hkc hks⟩

/-- Facts about an emitted scalar list-item line. -/
theorem listScalarLine (i : Nat) {t : String}
    (htne : t.data ≠ []) (hts : pyStrip t = t)
    (htb : ∀ c ∈ t.data, pyIsLineBreak c = false) :
    lineOf (spaces i ++ ("- " ++ t)) = ⟨spaces i ++ ("- " ++ t), i⟩ ∧
    skippable ⟨spaces i ++ ("- " ++ t), i⟩ = false ∧
    pyStrip (spaces i ++ ("- " ++ t)) = "- " ++ t ∧
    goodLine (spaces i ++ ("- " ++ t)) ∧
    ("- " ++ t) ≠ "-" ∧
    strStartsWith ("- " ++ t) "- " = true ∧
    pyLstrip ⟨("- " ++ t).data.drop 1⟩ = t := by
  have hu : ("- " ++ t).data = '-' :: ' ' :: t.data := by
    rw [data_append]
    rfl
  obtain ⟨m2, c2, e2⟩ := exists_concat htne
  have hu2 : ("- " ++ t).data = ('-' :: ' ' :: m2) ++ [c2] := by
    rw [hu, e2]
    simp
  have hne : ("- " ++ t).data ≠ [] := by
    rw [hu]
    simp
  have hhead : ∀ c m, ("- " ++ t).data = c :: m →
      pyIsSpace c = false ∧ c ≠ Char.ofNat 35 := by
    intro c m e
    rw [hu] at e
    simp at e
    rw [← e.1]
    exact ⟨by decide, by decide⟩
  have hlast : ∀ m c, ("- " ++ t).data = m ++ [c] → pyIsSpace c = false := by
    intro m c e
    have hc2 := (append_singleton_inj (e.symm.trans hu2)).2
    rw [hc2]
    exact strip_inv_last hts e2
  have hbr : ∀ c ∈ ("- " ++ t).data, pyIsLineBreak c = false := by
    intro c hc
    rw [hu] at hc
    rcases List.mem_cons.mp hc with hc1 | hc1
    · rw [hc1]; decide
    · rcases List.mem_cons.mp hc1 with hc2 | hc2
      · rw [hc2]; decide
      · exact htb c hc2
  obtain ⟨g1, g2, g3, g4⟩ := line_facts_good hne hhead hlast hbr (i := i)
  obtain ⟨d1, d2, d3⟩ := dash_scalar_checks hu hts
  exact ⟨g1, g2, g3, g4, d1, d2, d3⟩

/-- Facts about an emitted bare-dash list-item line. -/
theorem listDashLine (i : Nat) :
    lineOf (spaces i ++ "-") = ⟨spaces i ++ "-", i⟩ ∧
    skippable ⟨spaces i ++ "-", i⟩ = false ∧
    pyStrip (spaces i ++ "-") = "-" ∧
    goodLine (spaces i ++ "-") ∧
    pyLstrip ⟨(("-" : String)).data.drop 1⟩ = "" := by
  have hfacts := line_facts_good (u := "-") (i := i) (by decide)
    (by intro c m e; simp at e; rw [← e.1]; exact ⟨by decide, by decide⟩)
    (by intro m c e
        have : m ++ [c] = ['-'] := e.symm
        rcases m with _ | ⟨a, m2⟩
        · simp at this
          rw [this]
          decide
        · simp at this)
    (by decide)
  obtain ⟨g1, g2, g3, g4⟩ := hfacts
  exact ⟨g1, g2, g3, g4, by decide⟩

/-! ## Shape of the emitted line lists -/

theorem goodLine_spaces_append {i : Nat} {u : String} (hne : u.data ≠ [])
    (hbr : ∀ c ∈ u.data, pyIsLineBreak c = false) (hts : pyStrip u = u) :
    goodLine (spaces i ++ u) := by
  obtain ⟨m2, c2, e2⟩ := exists_concat hne
  constructor
  · intro c hc
    rw [data_append] at hc
    rcases List.mem_append.mp hc with hc1 | hc1
    · have hsp : (spaces i).data = List.replicate i ' ' := rfl
      rw [hsp] at hc1
      rw [List.eq_of_mem_replicate hc1]
      decide
    · exact hbr c hc1
  · refine ⟨(spaces i).data ++ m2, c2, ?_, strip_inv_last hts e2⟩
    rw [data_append, e2, List.append_assoc]

/-- A safe scalar entry in a mapping emits exactly the line
`spaces i ++ (k ++ ": " ++ formatScalar v)` with all line facts. -/
theorem scOK_elim {v : Value} {t : String} (h : scOK v t) :
    t.data ≠ [] ∧ (∀ c ∈ t.data, c ≠ ':') ∧ pyStrip t = t ∧
    (∀ c ∈ t.data, pyIsLineBreak c = false) ∧ t ≠ "|" ∧ t ≠ ">" ∧
    parseScalar t = v ∧ v ≠ .str "__BLOCK__" ∧ isColl v = false := h

mutual
theorem dumpValue_good : ∀ (v : Value) (i : Nat), safeVal v = true →
    ∀ l ∈ dumpValue v i, goodLine l
  | .list xs, i => fun hs l hl =>
      dumpListItems_good xs i (safeVal_list hs).2 l hl
  | .map kvs, i => fun hs l hl =>
      dumpMapItems_good kvs i (safeVal_map hs) l hl
  | .null, i => by
    intro hs l hl
    rcases List.mem_singleton.mp hl with rfl
    obtain ⟨h1, _, h3, h4, _⟩ := scOK_elim (formatScalar_scOK hs rfl)
    exact goodLine_spaces_append h1 h4 h3
  | .bool b, i => by
    intro hs l hl
    rcases List.mem_singleton.mp hl with rfl
    obtain ⟨h1, _, h3, h4, _⟩ := scOK_elim (formatScalar_scOK hs rfl)
    exact goodLine_spaces_append h1 h4 h3
  | .int n, i => by
    intro hs l hl
    rcases List.mem_singleton.mp hl with rfl
    obtain ⟨h1, _, h3, h4, _⟩ := scOK_elim (formatScalar_scOK hs rfl)
    exact goodLine_spaces_append h1 h4 h3
  | .str s, i => by
    intro hs l hl
    rcases List.mem_singleton.mp hl with rfl
    obtain ⟨h1, _, h3, h4, _⟩ := scOK_elim (formatScalar_scOK hs rfl)
    exact goodLine_spaces_append h1 h4 h3
  | .pyFloat lit, i => by
    intro hs l hl
    rw [safeVal] at hs
    cases hs

theorem dumpListItems_good : ∀ (xs : List Value) (i : Nat), safeList xs = true →
    ∀ l ∈ dumpListItems xs i, goodLine l
  | [], i => by
    intro hs l hl
    rw [dumpListItems] at hl
    cases hl
  | .list xs :: rest, i => by
    intro hs l hl
    obtain ⟨hv, hrest⟩ := safeList_cons hs
    rw [show dumpListItems (.list xs :: rest) i =
      ((spaces i ++ "-") :: dumpValue (.list xs) (i + 2)) ++ dumpListItems rest i
      from rfl] at hl
    rcases List.mem_append.mp hl with hl1 | hl1
    · rcases List.mem_cons.mp hl1 with rfl | hl2
      · have hd : ("-" : String).data = ['-'] := rfl
        exact goodLine_spaces_append (u := "-") (by rw [hd]; simp)
          (by rw [hd]; decide) (by decide)
      · exact dumpValue_good (.list xs) (i + 2) hv l hl2
    · exact dumpListItems_good rest i hrest l hl1
  | .map kvs :: rest, i => by
    intro hs l hl
    obtain ⟨hv, hrest⟩ := safeList_cons hs
    rw [show dumpListItems (.map kvs :: rest) i =
      ((spaces i ++ "-") :: dumpValue (.map kvs) (i + 2)) ++ dumpListItems rest i
      from rfl] at hl
    rcases List.mem_append.mp hl with hl1 | hl1
    · rcases List.mem_cons.mp hl1 with rfl | hl2
      · have hd : ("-" : String).data = ['-'] := rfl
        exact goodLine_spaces_append (u := "-") (by rw [hd]; simp)
          (by rw [hd]; decide) (by decide)
      · exact dumpValue_good (.map kvs) (i + 2) hv l hl2
    · exact dumpListItems_good rest i hrest l hl1
  | .null :: rest, i => by
    intro hs l hl
    obtain ⟨hv, hrest⟩ := safeList_cons hs
    rw [show dumpListItems (.null :: rest) i =
      [spaces i ++ "- " ++ formatScalar .null] ++ dumpListItems rest i from rfl] at hl
    rcases List.mem_append.mp hl with hl1 | hl1
    · rcases List.mem_singleton.mp hl1 with rfl
      obtain ⟨h1, _, h3, h4, _⟩ := scOK_elim (formatScalar_scOK hv rfl)
      rw [strAppend_assoc]
      exact (listScalarLine i h1 h3 h4).2.2.2.1
    · exact dumpListItems_good rest i hrest l hl1
  | .bool b :: rest, i => by
    intro hs l hl
    obtain ⟨hv, hrest⟩ := safeList_cons hs
    rw [show dumpListItems (.bool b :: rest) i =
      [spaces i ++ "- " ++ formatScalar (.bool b)] ++ dumpListItems rest i
      from rfl] at hl
    rcases List.mem_append.mp hl with hl1 | hl1
    · rcases List.mem_singleton.mp hl1 with rfl
      obtain ⟨h1, _, h3, h4, _⟩ := scOK_elim (formatScalar_scOK hv rfl)
      rw [strAppend_assoc]
      exact (listScalarLine i h1 h3 h4).2.2.2.1
    · exact dumpListItems_good rest i hrest l hl1
  | .int n :: rest, i => by
    intro hs l hl
    obtain ⟨hv, hrest⟩ := safeList_cons hs
    rw [show dumpListItems (.int n :: rest) i =
      [spaces i ++ "- " ++ formatScalar (.int n)] ++ dumpListItems rest i
      from rfl] at hl
    rcases List.mem_append.mp hl with hl1 | hl1
    · rcases List.mem_singleton.mp hl1 with rfl
      obtain ⟨h1, _, h3, h4, _⟩ := scOK_elim (formatScalar_scOK hv rfl)
      rw [strAppend_assoc]
      exact (listScalarLine i h1 h3 h4).2.2.2.1
    · exact dumpListItems_good rest i hrest l hl1
  | .str s :: rest, i => by
    intro hs l hl
    obtain ⟨hv, hrest⟩ := safeList_cons hs
    rw [show dumpListItems (.str s :: rest) i =
      [spaces i ++ "- " ++ formatScalar (.str s)] ++ dumpListItems rest i
      from rfl] at hl
    rcases List.mem_append.mp hl with hl1 | hl1
    · rcases List.mem_singleton.mp hl1 with rfl
      obtain ⟨h1, _, h3, h4, _⟩ := scOK_elim (formatScalar_scOK hv rfl)
      rw [strAppend_assoc]
      exact (listScalarLine i h1 h3 h4).2.2.2.1
    · exact dumpListItems_good rest i hrest l hl1
  | .pyFloat lit :: rest, i => by
    intro hs l hl
    obtain ⟨hv, hrest⟩ := safeList_cons hs
    rw [safeVal] at hv
    cases hv

theorem dumpMapItems_good : ∀ (kvs : List (String × Value)) (i : Nat),
    safeKvs kvs = true → ∀ l ∈ dumpMapItems kvs i, goodLine l
  | [], i => by
    intro hs l hl
    rw [dumpMapItems] at hl
    cases hl
  | (k, .list xs) :: rest, i => by
    intro hs l hl
    obtain ⟨hk, hv, _, hrest⟩ := safeKvs_cons hs
    rw [show dumpMapItems ((k, .list xs) :: rest) i =
      ((spaces i ++ k ++ ":") :: dumpValue (.list xs) (i + 2)) ++ dumpMapItems rest i
      from rfl] at hl
    rcases List.mem_append.mp hl with hl1 | hl1
    · rcases List.mem_cons.mp hl1 with rfl | hl2
      · rw [strAppend_assoc]
        exact (mapNestedLine i hk).2.2.2.1
      · exact dumpValue_good (.list xs) (i + 2) hv l hl2
    · exact dumpMapItems_good rest i hrest l hl1
  | (k, .map kvs2) :: rest, i => by
    intro hs l hl
    obtain ⟨hk, hv, _, hrest⟩ := safeKvs_cons hs
    rw [show dumpMapItems ((k, .map kvs2) :: rest) i =
      ((spaces i ++ k ++ ":") :: dumpValue (.map kvs2) (i + 2)) ++ dumpMapItems rest i
      from rfl] at hl
    rcases List.mem_append.mp hl with hl1 | hl1
    · rcases List.mem_cons.mp hl1 with rfl | hl2
      · rw [strAppend_assoc]
        exact (mapNestedLine i hk).2.2.2.1
      · exact dumpValue_good (.map kvs2) (i + 2) hv l hl2
    · exact dumpMapItems_good rest i hrest l hl1
  | (k, .null) :: rest, i => by
    intro hs l hl
    obtain ⟨hk, hv, _, hrest⟩ := safeKvs_cons hs
    rw [show dumpMapItems ((k, .null) :: rest) i =
      [spaces i ++ k ++ ": " ++ formatScalar .null] ++ dumpMapItems rest i
      from rfl] at hl
    rcases List.mem_append.mp hl with hl1 | hl1
    · rcases List.mem_singleton.mp hl1 with rfl
      obtain ⟨h1, _, h3, h4, h5, h6, _⟩ := scOK_elim (formatScalar_scOK hv rfl)
      rw [strAppend_assoc (spaces i) k ": ", strAppend_assoc (spaces i) _ _]
      exact (mapScalarLine i hk h1 h3 h4 h5 h6).2.2.2.1
    · exact dumpMapItems_good rest i hrest l hl1
  | (k, .bool b) :: rest, i => by
    intro hs l hl
    obtain ⟨hk, hv, _, hrest⟩ := safeKvs_cons hs
    rw [show dumpMapItems ((k, .bool b) :: rest) i =
      [spaces i ++ k ++ ": " ++ formatScalar (.bool b)] ++ dumpMapItems rest i
      from rfl] at hl
    rcases List.mem_append.mp hl with hl1 | hl1
    · rcases List.mem_singleton.mp hl1 with rfl
      obtain ⟨h1, _, h3, h4, h5, h6, _⟩ := scOK_elim (formatScalar_scOK hv rfl)
      rw [strAppend_assoc (spaces i) k ": ", strAppend_assoc (spaces i) _ _]
      exact (mapScalarLine i hk h1 h3 h4 h5 h6).2.2.2.1
    · exact dumpMapItems_good rest i hrest l hl1
  | (k, .int n) :: rest, i => by
    intro hs l hl
    obtain ⟨hk, hv, _, hrest⟩ := safeKvs_cons hs
    rw [show dumpMapItems ((k, .int n) :: rest) i =
      [spaces i ++ k ++ ": " ++ formatScalar (.int n)] ++ dumpMapItems rest i
      from rfl] at hl
    rcases List.mem_append.mp hl with hl1 | hl1
    · rcases List.mem_singleton.mp hl1 with rfl
      obtain ⟨h1, _, h3, h4, h5, h6, _⟩ := scOK_elim (formatScalar_scOK hv rfl)
      rw [strAppend_assoc (spaces i) k ": ", strAppend_assoc (spaces i) _ _]
      exact (mapScalarLine i hk h1 h3 h4 h5 h6).2.2.2.1
    · exact dumpMapItems_good rest i hrest l hl1
  | (k, .str s) :: rest, i => by
    intro hs l hl
    obtain ⟨hk, hv, _, hrest⟩ := safeKvs_cons hs
    rw [show dumpMapItems ((k, .str s) :: rest) i =
      [spaces i ++ k ++ ": " ++ formatScalar (.str s)] ++ dumpMapItems rest i
      from rfl] at hl
    rcases List.mem_append.mp hl with hl1 | hl1
    · rcases List.mem_singleton.mp hl1 with rfl
      obtain ⟨h1, _, h3, h4, h5, h6, _⟩ := scOK_elim (formatScalar_scOK hv rfl)
      rw [strAppend_assoc (spaces i) k ": ", strAppend_assoc (spaces i) _ _]
      exact (mapScalarLine i hk h1 h3 h4 h5 h6).2.2.2.1
    · exact dumpMapItems_good rest i hrest l hl1
  | (k, .pyFloat lit) :: rest, i => by
    intro hs l hl
    obtain ⟨hk, hv, _, hrest⟩ := safeKvs_cons hs
    rw [safeVal] at hv
    cases hv
end

/-! ## The rest-of-input invariant -/

/-- The lines following an emitted block: either exhausted, or beginning with
a non-skippable line of smaller indent (so any block parse at indent `i`
stops there). -/
def restOK (i : Nat) (rest : Lines) : Prop :=
  rest = [] ∨ ∃ l tl, rest = l :: tl ∧ skippable l = false ∧ l.indent < i

theorem restOK_mono {i j : Nat} {rest : Lines} (hij : i ≤ j) (h : restOK i rest) :
    restOK j rest := by
  rcases h with h | ⟨l, tl, e, h1, h2⟩
  · exact Or.inl h
  · exact Or.inr ⟨l, tl, e, h1, by omega⟩

theorem head_line_scalarEntry (i : Nat) {k : String} {v : Value}
    (hk : safeKeyB k = true) (hsafe : safeVal v = true) (hcoll : isColl v = false) :
    skippable (lineOf (spaces i ++ k ++ ": " ++ formatScalar v)) = false ∧
    (lineOf (spaces i ++ k ++ ": " ++ formatScalar v)).indent = i := by
  obtain ⟨h1, _, h3, h4, h5, h6, _⟩ := scOK_elim (formatScalar_scOK hsafe hcoll)
  obtain ⟨g1, g2, _⟩ := mapScalarLine i hk h1 h3 h4 h5 h6
  rw [strAppend_assoc (spaces i) k ": ", strAppend_assoc (spaces i) _ _, g1]
  exact ⟨g2, rfl⟩

theorem head_line_nestedEntry (i : Nat) {k : String} (hk : safeKeyB k = true) :
    skippable (lineOf (spaces i ++ k ++ ":")) = false ∧
    (lineOf (spaces i ++ k ++ ":")).indent = i := by
  obtain ⟨g1, g2, _⟩ := mapNestedLine i hk
  rw [strAppend_assoc, g1]
  exact ⟨g2, rfl⟩

theorem head_line_scalarItem (i : Nat) {v : Value}
    (hsafe : safeVal v = true) (hcoll : isColl v = false) :
    skippable (lineOf (spaces i ++ "- " ++ formatScalar v)) = false ∧
    (lineOf (spaces i ++ "- " ++ formatScalar v)).indent = i := by
  obtain ⟨h1, _, h3, h4, _⟩ := scOK_elim (formatScalar_scOK hsafe hcoll)
  obtain ⟨g1, g2, _⟩ := listScalarLine i h1 h3 h4
  rw [strAppend_assoc (spaces i) "- " _, g1]
  exact ⟨g2, rfl⟩

theorem head_line_dash (i : Nat) :
    skippable (lineOf (spaces i ++ "-")) = false ∧
    (lineOf (spaces i ++ "-")).indent = i := by
  obtain ⟨g1, g2, _⟩ := listDashLine i
  rw [g1]
  exact ⟨g2, rfl⟩

/-- A nonempty emitted mapping block begins with a non-skippable line at its
own indent. -/
theorem mapLines_head : ∀ {kvs : List (String × Value)} (i : Nat),
    safeKvs kvs = true → kvs ≠ [] →
    ∃ r tl, (dumpMapItems kvs i).map lineOf = r :: tl ∧
      skippable r = false ∧ r.indent = i
  | [], _, _, hne => absurd rfl hne
  | (k, v) :: rest, i, hs, _ => by
    obtain ⟨hk, hv, _, _⟩ := safeKvs_cons hs
    match v with
    | .list xs =>
      refine ⟨lineOf (spaces i ++ k ++ ":"), _, rfl, ?_⟩
      exact (head_line_nestedEntry i hk)
    | .map kvs2 =>
      refine ⟨lineOf (spaces i ++ k ++ ":"), _, rfl, ?_⟩
      exact (head_line_nestedEntry i hk)
    | .null =>
      exact ⟨lineOf (spaces i ++ k ++ ": " ++ formatScalar .null), _, rfl,
        head_line_scalarEntry i hk hv rfl⟩
    | .bool b =>
      exact ⟨lineOf (spaces i ++ k ++ ": " ++ formatScalar (.bool b)), _, rfl,
        head_line_scalarEntry i hk hv rfl⟩
    | .int n =>
      exact ⟨lineOf (spaces i ++ k ++ ": " ++ formatScalar (.int n)), _, rfl,
        head_line_scalarEntry i hk hv rfl⟩
    | .str s =>
      exact ⟨lineOf (spaces i ++ k ++ ": " ++ formatScalar (.str s)), _, rfl,
        head_line_scalarEntry i hk hv rfl⟩
    | .pyFloat lit => rw [safeVal] at hv; cases hv

/-- A nonempty emitted list block begins with a non-skippable line at its own
indent. -/
theorem listLines_head : ∀ {xs : List Value} (i : Nat),
    safeList xs = true → xs ≠ [] →
    ∃ r tl, (dumpListItems xs i).map lineOf = r :: tl ∧
      skippable r = false ∧ r.indent = i
  | [], _, _, hne => absurd rfl hne
  | v :: rest, i, hs, _ => by
    obtain ⟨hv, _⟩ := safeList_cons hs
    match v with
    | .list xs2 =>
      exact ⟨lineOf (spaces i ++ "-"), _, rfl, head_line_dash i⟩
    | .map kvs2 =>
      exact ⟨lineOf (spaces i ++ "-"), _, rfl, head_line_dash i⟩
    | .null =>
      exact ⟨lineOf (spaces i ++ "- " ++ formatScalar .null), _, rfl,
        head_line_scalarItem i hv rfl⟩
    | .bool b =>
      exact ⟨lineOf (spaces i ++ "- " ++ formatScalar (.bool b)), _, rfl,
        head_line_scalarItem i hv rfl⟩
    | .int n =>
      exact ⟨lineOf (spaces i ++ "- " ++ formatScalar (.int n)), _, rfl,
        head_line_scalarItem i hv rfl⟩
    | .str s =>
      exact ⟨lineOf (spaces i ++ "- " ++ formatScalar (.str s)), _, rfl,
        head_line_scalarItem i hv rfl⟩
    | .pyFloat lit => rw [safeVal] at hv; cases hv

/-- The rest-invariant extends over a pending emitted mapping block. -/
theorem restOK_of_mapLines {kvs : List (String × Value)} {i j : Nat} {rest : Lines}
    (hs : safeKvs kvs = true) (hij : i < j) (hrest : restOK i rest) :
    restOK j ((dumpMapItems kvs i).map lineOf ++ rest) := by
  rcases hkvs : kvs with _ | ⟨q, rest2⟩
  · rw [show dumpMapItems [] i = [] from rfl]
    rw [List.map_nil, List.nil_append]
    exact restOK_mono (by omega) hrest
  · obtain ⟨r, tl, he, h1, h2⟩ := mapLines_head i (hkvs ▸ hs) (by simp)
    rw [← hkvs] at *
    rw [he]
    exact Or.inr ⟨r, tl ++ rest, rfl, h1, by omega⟩

/-- The rest-invariant extends over a pending emitted list block. -/
theorem restOK_of_listLines {xs : List Value} {i j : Nat} {rest : Lines}
    (hs : safeList xs = true) (hij : i < j) (hrest : restOK i rest) :
    restOK j ((dumpListItems xs i).map lineOf ++ rest) := by
  rcases hxs : xs with _ | ⟨v, rest2⟩
  · rw [show dumpListItems [] i = [] from rfl]
    rw [List.map_nil, List.nil_append]
    exact restOK_mono (by omega) hrest
  · obtain ⟨r, tl, he, h1, h2⟩ := listLines_head i (hxs ▸ hs) (by simp)
    rw [← hxs] at *
    rw [he]
    exact Or.inr ⟨r, tl ++ rest, rfl, h1, by omega⟩

/-! ## Single steps of the block loop on emitted lines -/

theorem parseBlockF_succ (f i : Nat) (ls : Lines) :
    parseBlockF (f + 1) i ls = blockLoopF f i ls .cnone [] [] := rfl

/-- The loop stops cleanly on the rest-invariant. -/
theorem blockLoop_end {f i : Nat} {rest : Lines} {coll : Coll}
    {items : List Value} {mp : List (String × Value)} (hrest : restOK i rest) :
    blockLoopF (f + 1) i rest coll items mp = .ok (finishColl coll items mp, rest) := by
  rcases hrest with rfl | ⟨l, tl, rfl, h1, h2⟩
  · simp [blockLoopF]
  · have hdw : List.dropWhile skippable (l :: tl) = l :: tl := by
      simp [List.dropWhile_cons, h1]
    simp only [blockLoopF, hdw]
    rw [if_pos h2]

/-- One loop step over a scalar mapping entry. -/
theorem blockLoop_map_scalar_step {f i : Nat} {k : String} {v : Value} {L2 : Lines}
    {coll : Coll} {mp : List (String × Value)}
    (hk : safeKeyB k = true) (hsafe : safeVal v = true) (hcoll : isColl v = false)
    (hc : coll ≠ .clist) :
    blockLoopF (f + 1) i
        (lineOf (spaces i ++ k ++ ": " ++ formatScalar v) :: L2) coll [] mp =
      blockLoopF f i L2 .cdict [] (odSet mp k v) := by
  obtain ⟨h1, _, h3, h4, h5, h6, hparse, hblockne, _⟩ :=
    scOK_elim (formatScalar_scOK hsafe hcoll)
  obtain ⟨g1, g2, g3, _, d1, d2, dpkv⟩ := mapScalarLine i hk h1 h3 h4 h5 h6
  rw [strAppend_assoc (spaces i) k ": ", strAppend_assoc (spaces i) _ _, g1]
  have hdw : List.dropWhile skippable
      ((⟨spaces i ++ (k ++ ": " ++ formatScalar v), i⟩ : Line) :: L2) =
      (⟨spaces i ++ (k ++ ": " ++ formatScalar v), i⟩ : Line) :: L2 := by
    simp [List.dropWhile_cons, g2]
  simp only [blockLoopF, hdw]
  rw [if_neg (Nat.lt_irrefl i)]
  rw [if_neg (by omega : ¬ i > i)]
  dsimp only
  rw [g3]
  rw [if_neg ?hdash]
  case hdash =>
    simp [d1, d2]
  rw [if_neg hc]
  rw [dpkv]
  dsimp only
  rw [if_neg ?hblk]
  case hblk =>
    simp [hparse, hblockne]
  rw [hparse]

/-- One loop step over a nested (collection-valued) mapping entry. -/
theorem blockLoop_map_nested_step {f i : Nat} {k : String} {L2 rest2 : Lines}
    {w : Value} {coll : Coll} {mp : List (String × Value)}
    (hk : safeKeyB k = true) (hc : coll ≠ .clist)
    (hpb : parseBlockF f (i + 2) L2 = .ok (w, rest2)) :
    blockLoopF (f + 1) i (lineOf (spaces i ++ k ++ ":") :: L2) coll [] mp =
      blockLoopF f i rest2 .cdict [] (odSet mp k w) := by
  obtain ⟨g1, g2, g3, _, d1, d2, dpkv⟩ := mapNestedLine i hk
  rw [strAppend_assoc (spaces i) k ":", g1]
  have hdw : List.dropWhile skippable
      ((⟨spaces i ++ (k ++ ":"), i⟩ : Line) :: L2) =
      (⟨spaces i ++ (k ++ ":"), i⟩ : Line) :: L2 := by
    simp [List.dropWhile_cons, g2]
  simp only [blockLoopF, hdw]
  rw [if_neg (Nat.lt_irrefl i)]
  rw [if_neg (by omega : ¬ i > i)]
  dsimp only
  rw [g3]
  rw [if_neg ?hdash]
  case hdash =>
    simp [d1, d2]
  rw [if_neg hc]
  rw [dpkv]
  dsimp only
  rw [if_pos ?hblk]
  case hblk =>
    simp
  rw [hpb]

/-- `collectF` on a non-mapping value just validates the next line and
returns. -/
theorem collectF_scalar {f ind : Nat} {cur : Value} {L2 : Lines}
    (hnm : ∀ mp0, cur ≠ .map mp0)
    (hpk : L2 = [] ∨ ∃ l tl, L2 = l :: tl ∧ skippable l = false ∧ l.indent < ind) :
    collectF (f + 1) cur ind L2 = .ok (cur, L2) := by
  match cur, hnm with
  | .str s, _ =>
    simp only [collectF]
    rcases hpk with rfl | ⟨l, tl, rfl, hs1, hs2⟩
    · rfl
    · have hdw : List.dropWhile skippable (l :: tl) = l :: tl := by
        simp [List.dropWhile_cons, hs1]
      rw [hdw]
      dsimp only
      have hcond : ¬((decide (l.indent ≥ ind) &&
          !strStartsWith (pyStrip l.text) "- ") = true) := by
        intro hcon
        rw [Bool.and_eq_true] at hcon
        have h9 := hcon.1
        simp only [decide_eq_true_eq] at h9
        omega
      rw [if_neg hcond]
  | .int n, _ =>
    simp only [collectF]
    rcases hpk with rfl | ⟨l, tl, rfl, hs1, hs2⟩
    · rfl
    · have hdw : List.dropWhile skippable (l :: tl) = l :: tl := by
        simp [List.dropWhile_cons, hs1]
      rw [hdw]
      dsimp only
      have hcond : ¬((decide (l.indent ≥ ind) &&
          !strStartsWith (pyStrip l.text) "- ") = true) := by
        intro hcon
        rw [Bool.and_eq_true] at hcon
        have h9 := hcon.1
        simp only [decide_eq_true_eq] at h9
        omega
      rw [if_neg hcond]
  | .pyFloat lit, _ =>
    simp only [collectF]
    rcases hpk with rfl | ⟨l, tl, rfl, hs1, hs2⟩
    · rfl
    · have hdw : List.dropWhile skippable (l :: tl) = l :: tl := by
        simp [List.dropWhile_cons, hs1]
      rw [hdw]
      dsimp only
      have hcond : ¬((decide (l.indent ≥ ind) &&
          !strStartsWith (pyStrip l.text) "- ") = true) := by
        intro hcon
        rw [Bool.and_eq_true] at hcon
        have h9 := hcon.1
        simp only [decide_eq_true_eq] at h9
        omega
      rw [if_neg hcond]
  | .bool b, _ =>
    simp only [collectF]
    rcases hpk with rfl | ⟨l, tl, rfl, hs1, hs2⟩
    · rfl
    · have hdw : List.dropWhile skippable (l :: tl) = l :: tl := by
        simp [List.dropWhile_cons, hs1]
      rw [hdw]
      dsimp only
      have hcond : ¬((decide (l.indent ≥ ind) &&
          !strStartsWith (pyStrip l.text) "- ") = true) := by
        intro hcon
        rw [Bool.and_eq_true] at hcon
        have h9 := hcon.1
        simp only [decide_eq_true_eq] at h9
        omega
      rw [if_neg hcond]
  | .null, _ =>
    simp only [collectF]
    rcases hpk with rfl | ⟨l, tl, rfl, hs1, hs2⟩
    · rfl
    · have hdw : List.dropWhile skippable (l :: tl) = l :: tl := by
        simp [List.dropWhile_cons, hs1]
      rw [hdw]
      dsimp only
      have hcond : ¬((decide (l.indent ≥ ind) &&
          !strStartsWith (pyStrip l.text) "- ") = true) := by
        intro hcon
        rw [Bool.and_eq_true] at hcon
        have h9 := hcon.1
        simp only [decide_eq_true_eq] at h9
        omega
      rw [if_neg hcond]
  | .list xs, _ =>
    simp only [collectF]
    rcases hpk with rfl | ⟨l, tl, rfl, hs1, hs2⟩
    · rfl
    · have hdw : List.dropWhile skippable (l :: tl) = l :: tl := by
        simp [List.dropWhile_cons, hs1]
      rw [hdw]
      dsimp only
      have hcond : ¬((decide (l.indent ≥ ind) &&
          !strStartsWith (pyStrip l.text) "- ") = true) := by
        intro hcon
        rw [Bool.and_eq_true] at hcon
        have h9 := hcon.1
        simp only [decide_eq_true_eq] at h9
        omega
      rw [if_neg hcond]
  | .map mp0, hnm => exact absurd rfl (hnm mp0)

/-- One loop step over a scalar list item. -/
theorem blockLoop_list_scalar_step {f i : Nat} {v : Value} {L2 : Lines}
    {coll : Coll} {acc : List Value}
    (hsafe : safeVal v = true) (hcoll : isColl v = false)
    (hc : coll ≠ .cdict)
    (hpk : L2 = [] ∨ ∃ l tl, L2 = l :: tl ∧ skippable l = false ∧ l.indent ≤ i) :
    blockLoopF (f + 3) i
        (lineOf (spaces i ++ "- " ++ formatScalar v) :: L2) coll acc [] =
      blockLoopF (f + 2) i L2 .clist (acc ++ [v]) [] := by
  obtain ⟨h1, _, h3, h4, h5, h6, hparse, hblockne, _⟩ :=
    scOK_elim (formatScalar_scOK hsafe hcoll)
  obtain ⟨g1, g2, g3, _, d1, d2, d3⟩ := listScalarLine i h1 h3 h4
  rw [strAppend_assoc (spaces i) "- " _, g1]
  have hdw : List.dropWhile skippable
      ((⟨spaces i ++ ("- " ++ formatScalar v), i⟩ : Line) :: L2) =
      (⟨spaces i ++ ("- " ++ formatScalar v), i⟩ : Line) :: L2 := by
    simp [List.dropWhile_cons, g2]
  simp only [blockLoopF, hdw]
  rw [if_neg (Nat.lt_irrefl i)]
  rw [if_neg (by omega : ¬ i > i)]
  dsimp only
  rw [g3]
  rw [if_pos ?hdash]
  case hdash =>
    simp [d2]
  rw [if_neg hc]
  rw [d3]
  have hpli : parseListItemF (f + 2) (formatScalar v) i L2 =
      collectF (f + 1) (parseScalar (pyStrip (formatScalar v))) (i + 2) L2 := by
    rw [parseListItemF]
    rw [if_neg (fun e => h1 (strEmpty_iff.mp e))]
    have hends : strEndsWith (formatScalar v) ":" = false := by
      have : (":" : String) = ⟨[':']⟩ := rfl
      rw [this]
      apply strEndsWith_single_false
      exact (scOK_elim (formatScalar_scOK hsafe hcoll)).2.1
    rw [hends]
    rw [if_neg (by simp)]
    have hsf : splitFirst (formatScalar v).data ':' = none := by
      apply splitFirst_of_not_mem
      intro hm
      exact (scOK_elim (formatScalar_scOK hsafe hcoll)).2.1 ':' hm rfl
    rw [hsf]
  rw [hpli]
  rw [h3, hparse]
  rw [collectF_scalar (fun mp0 e => by rw [e] at hcoll; cases hcoll) ?hpk2]
  case hpk2 =>
    rcases hpk with rfl | ⟨l, tl, rfl, hs1, hs2⟩
    · exact Or.inl rfl
    · exact Or.inr ⟨l, tl, rfl, hs1, by omega⟩

/-- One loop step over a collection-valued list item (bare dash line). -/
theorem blockLoop_list_nested_step {f i : Nat} {L2 rest2 : Lines} {w : Value}
    {coll : Coll} {acc : List Value}
    (hc : coll ≠ .cdict)
    (hpb : parseBlockF f (i + 2) L2 = .ok (w, rest2)) :
    blockLoopF (f + 2) i (lineOf (spaces i ++ "-") :: L2) coll acc [] =
      blockLoopF (f + 1) i rest2 .clist (acc ++ [w]) [] := by
  obtain ⟨g1, g2, g3, _, d5⟩ := listDashLine i
  rw [g1]
  have hdw : List.dropWhile skippable
      ((⟨spaces i ++ "-", i⟩ : Line) :: L2) =
      (⟨spaces i ++ "-", i⟩ : Line) :: L2 := by
    simp [List.dropWhile_cons, g2]
  simp only [blockLoopF, hdw]
  rw [if_neg (Nat.lt_irrefl i)]
  rw [if_neg (by omega : ¬ i > i)]
  dsimp only
  rw [g3]
  rw [if_pos (by simp)]
  rw [if_neg hc]
  rw [d5]
  have hpli : parseListItemF (f + 1) "" i L2 = parseBlockF f (i + 2) L2 := by
    rw [parseListItemF, if_pos rfl]
  rw [hpli, hpb]

/-! ## The block-parse round trip -/

theorem keyFresh_step {mp : List (String × Value)} {k : String} {v : Value}
    {rest2 : List (String × Value)}
    (hfresh : ∀ q ∈ (k, v) :: rest2, keyMem mp q.1 = false)
    (hne : ∀ q ∈ rest2, q.1 ≠ k) :
    ∀ q ∈ rest2, keyMem (mp ++ [(k, v)]) q.1 = false := by
  intro q hq
  rw [keyMem_append_one]
  rw [hfresh q (List.mem_cons_of_mem _ hq)]
  have hb : (k == q.1) = false := by
    cases he : k == q.1
    · rfl
    · exact absurd (beq_iff_eq.mp he).symm (hne q hq)
  rw [hb]
  rfl

/-- The `collectF` peek over a pending emitted list block never sees a deeper
indent. -/
theorem peekOK_of_listLines {xs : List Value} {i : Nat} {rest : Lines}
    (hs : safeList xs = true) (hrest : restOK i rest) :
    (dumpListItems xs i).map lineOf ++ rest = [] ∨
    ∃ l tl, (dumpListItems xs i).map lineOf ++ rest = l :: tl ∧
      skippable l = false ∧ l.indent ≤ i := by
  rcases hxs : xs with _ | ⟨v, rest2⟩
  · rw [show dumpListItems [] i = [] from rfl, List.map_nil, List.nil_append]
    rcases hrest with rfl | ⟨l, tl, rfl, h1, h2⟩
    · exact Or.inl rfl
    · exact Or.inr ⟨l, tl, rfl, h1, by omega⟩
  · obtain ⟨r, tl, he, h1, h2⟩ := listLines_head i (hxs ▸ hs) (by simp)
    rw [← hxs] at *
    rw [he]
    exact Or.inr ⟨r, tl ++ rest, rfl, h1, by omega⟩

/-- The loop invariant for an emitted mapping block. -/
def StmtMap (fuel : Nat) : Prop :=
  ∀ (kvs : List (String × Value)) (i : Nat) (rest : Lines) (coll : Coll)
    (mp : List (String × Value)),
    safeKvs kvs = true →
    (∀ q ∈ kvs, keyMem mp q.1 = false) →
    (coll = .cdict ∨ (coll = .cnone ∧ mp = [])) →
    restOK i rest →
    4 * (dumpMapItems kvs i).length + 2 ≤ fuel →
    blockLoopF fuel i ((dumpMapItems kvs i).map lineOf ++ rest) coll [] mp =
      .ok (.map (mp ++ kvs), rest)

/-- The loop invariant for an emitted list block. -/
def StmtList (fuel : Nat) : Prop :=
  ∀ (xs : List Value) (i : Nat) (rest : Lines) (coll : Coll) (acc : List Value),
    safeList xs = true →
    (coll = .clist ∨ (coll = .cnone ∧ acc = [] ∧ xs ≠ [])) →
    restOK i rest →
    4 * (dumpListItems xs i).length + 2 ≤ fuel →
    blockLoopF fuel i ((dumpListItems xs i).map lineOf ++ rest) coll acc [] =
      .ok (.list (acc ++ xs), rest)

/-- The block-parse invariant for an emitted collection value. -/
def StmtVal (fuel : Nat) : Prop :=
  ∀ (v : Value) (i : Nat) (rest : Lines),
    safeVal v = true → isColl v = true → restOK i rest →
    4 * (dumpValue v i).length + 3 ≤ fuel →
    parseBlockF fuel i ((dumpValue v i).map lineOf ++ rest) = .ok (v, rest)

/-- The three mutual invariants hold at every fuel. -/
theorem dumpRoundAux : ∀ fuel : Nat, StmtMap fuel ∧ StmtList fuel ∧ StmtVal fuel := by
  intro fuel
  induction fuel using Nat.strong_induction_on with
  | _ fuel ih =>
  refine ⟨?_, ?_, ?_⟩
  · -- StmtMap
    intro kvs i rest coll mp hs hfresh hcoll hrest hfuel
    have hcne : coll ≠ .clist := by
      rcases hcoll with h | ⟨h, _⟩ <;> (rw [h]; intro e; cases e)
    rcases kvs with _ | ⟨⟨k, v⟩, rest2⟩
    · rw [show dumpMapItems [] i = [] from rfl, List.map_nil, List.nil_append]
      obtain ⟨f, rfl⟩ : ∃ f, fuel = f + 1 := ⟨fuel - 1, by omega⟩
      rw [blockLoop_end hrest]
      rcases hcoll with h | ⟨h, hmp⟩
      · rw [h]
        rw [show finishColl .cdict [] mp = .map mp from rfl]
        rw [List.append_nil]
      · rw [h, hmp]
        rfl
    · obtain ⟨hk, hv, hnek, hrest2⟩ := safeKvs_cons hs
      match v with
    | Value.list xs =>
      have hlines : (dumpMapItems ((k, Value.list xs) :: rest2) i).map lineOf ++ rest =
          lineOf (spaces i ++ k ++ ":") ::
            ((dumpValue (Value.list xs) (i + 2)).map lineOf ++
              ((dumpMapItems rest2 i).map lineOf ++ rest)) := by
        rw [show dumpMapItems ((k, Value.list xs) :: rest2) i =
          ((spaces i ++ k ++ ":") :: dumpValue (Value.list xs) (i + 2)) ++ dumpMapItems rest2 i
          from rfl]
        simp
      have hlen : (dumpMapItems ((k, Value.list xs) :: rest2) i).length =
          1 + (dumpValue (Value.list xs) (i + 2)).length + (dumpMapItems rest2 i).length := by
        rw [show dumpMapItems ((k, Value.list xs) :: rest2) i =
          ((spaces i ++ k ++ ":") :: dumpValue (Value.list xs) (i + 2)) ++ dumpMapItems rest2 i
          from rfl]
        simp
        try omega
      rw [hlen] at hfuel
      obtain ⟨f, rfl⟩ : ∃ f, fuel = f + 1 := ⟨fuel - 1, by omega⟩
      have hpb := (ih f (by omega)).2.2 (Value.list xs) (i + 2)
        ((dumpMapItems rest2 i).map lineOf ++ rest) hv rfl
        (restOK_of_mapLines hrest2 (by omega) hrest) (by omega)
      rw [hlines]
      rw [blockLoop_map_nested_step hk hcne hpb]
      rw [odSet_append _ (hfresh (k, Value.list xs) (List.mem_cons_self _ _))]
      rw [(ih f (by omega)).1 rest2 i rest .cdict (mp ++ [(k, Value.list xs)]) hrest2
        (keyFresh_step hfresh hnek) (Or.inl rfl) hrest (by omega)]
      simp
    | Value.map kvs2 =>
      have hlines : (dumpMapItems ((k, Value.map kvs2) :: rest2) i).map lineOf ++ rest =
          lineOf (spaces i ++ k ++ ":") ::
            ((dumpValue (Value.map kvs2) (i + 2)).map lineOf ++
              ((dumpMapItems rest2 i).map lineOf ++ rest)) := by
        rw [show dumpMapItems ((k, Value.map kvs2) :: rest2) i =
          ((spaces i ++ k ++ ":") :: dumpValue (Value.map kvs2) (i + 2)) ++ dumpMapItems rest2 i
          from rfl]
        simp
      have hlen : (dumpMapItems ((k, Value.map kvs2) :: rest2) i).length =
          1 + (dumpValue (Value.map kvs2) (i + 2)).length + (dumpMapItems rest2 i).length := by
        rw [show dumpMapItems ((k, Value.map kvs2) :: rest2) i =
          ((spaces i ++ k ++ ":") :: dumpValue (Value.map kvs2) (i + 2)) ++ dumpMapItems rest2 i
          from rfl]
        simp
        try omega
      rw [hlen] at hfuel
      obtain ⟨f, rfl⟩ : ∃ f, fuel = f + 1 := ⟨fuel - 1, by omega⟩
      have hpb := (ih f (by omega)).2.2 (Value.map kvs2) (i + 2)
        ((dumpMapItems rest2 i).map lineOf ++ rest) hv rfl
        (restOK_of_mapLines hrest2 (by omega) hrest) (by omega)
      rw [hlines]
      rw [blockLoop_map_nested_step hk hcne hpb]
      rw [odSet_append _ (hfresh (k, Value.map kvs2) (List.mem_cons_self _ _))]
      rw [(ih f (by omega)).1 rest2 i rest .cdict (mp ++ [(k, Value.map kvs2)]) hrest2
        (keyFresh_step hfresh hnek) (Or.inl rfl) hrest (by omega)]
      simp
    | Value.null =>
      have hlines : (dumpMapItems ((k, Value.null) :: rest2) i).map lineOf ++ rest =
          lineOf (spaces i ++ k ++ ": " ++ formatScalar (Value.null)) ::
            ((dumpMapItems rest2 i).map lineOf ++ rest) := by
        rw [show dumpMapItems ((k, Value.null) :: rest2) i =
          [spaces i ++ k ++ ": " ++ formatScalar (Value.null)] ++ dumpMapItems rest2 i
          from rfl]
        simp
      have hlen : (dumpMapItems ((k, Value.null) :: rest2) i).length =
          1 + (dumpMapItems rest2 i).length := by
        rw [show dumpMapItems ((k, Value.null) :: rest2) i =
          [spaces i ++ k ++ ": " ++ formatScalar (Value.null)] ++ dumpMapItems rest2 i
          from rfl]
        simp
        try omega
      rw [hlen] at hfuel
      obtain ⟨f, rfl⟩ : ∃ f, fuel = f + 1 := ⟨fuel - 1, by omega⟩
      rw [hlines]
      rw [blockLoop_map_scalar_step hk hv rfl hcne]
      rw [odSet_append _ (hfresh (k, Value.null) (List.mem_cons_self _ _))]
      rw [(ih f (by omega)).1 rest2 i rest .cdict (mp ++ [(k, Value.null)]) hrest2
        (keyFresh_step hfresh hnek) (Or.inl rfl) hrest (by omega)]
      simp
    | Value.bool b =>
      have hlines : (dumpMapItems ((k, Value.bool b) :: rest2) i).map lineOf ++ rest =
          lineOf (spaces i ++ k ++ ": " ++ formatScalar (Value.bool b)) ::
            ((dumpMapItems rest2 i).map lineOf ++ rest) := by
        rw [show dumpMapItems ((k, Value.bool b) :: rest2) i =
          [spaces i ++ k ++ ": " ++ formatScalar (Value.bool b)] ++ dumpMapItems rest2 i
          from rfl]
        simp
      have hlen : (dumpMapItems ((k, Value.bool b) :: rest2) i).length =
          1 + (dumpMapItems rest2 i).length := by
        rw [show dumpMapItems ((k, Value.bool b) :: rest2) i =
          [spaces i ++ k ++ ": " ++ formatScalar (Value.bool b)] ++ dumpMapItems rest2 i
          from rfl]
        simp
        try omega
      rw [hlen] at hfuel
      obtain ⟨f, rfl⟩ : ∃ f, fuel = f + 1 := ⟨fuel - 1, by omega⟩
      rw [hlines]
      rw [blockLoop_map_scalar_step hk hv rfl hcne]
      rw [odSet_append _ (hfresh (k, Value.bool b) (List.mem_cons_self _ _))]
      rw [(ih f (by omega)).1 rest2 i rest .cdict (mp ++ [(k, Value.bool b)]) hrest2
        (keyFresh_step hfresh hnek) (Or.inl rfl) hrest (by omega)]
      simp
    | Value.int n =>
      have hlines : (dumpMapItems ((k, Value.int n) :: rest2) i).map lineOf ++ rest =
          lineOf (spaces i ++ k ++ ": " ++ formatScalar (Value.int n)) ::
            ((dumpMapItems rest2 i).map lineOf ++ rest) := by
        rw [show dumpMapItems ((k, Value.int n) :: rest2) i =
          [spaces i ++ k ++ ": " ++ formatScalar (Value.int n)] ++ dumpMapItems rest2 i
          from rfl]
        simp
      have hlen : (dumpMapItems ((k, Value.int n) :: rest2) i).length =
          1 + (dumpMapItems rest2 i).length := by
        rw [show dumpMapItems ((k, Value.int n) :: rest2) i =
          [spaces i ++ k ++ ": " ++ formatScalar (Value.int n)] ++ dumpMapItems rest2 i
          from rfl]
        simp
        try omega
      rw [hlen] at hfuel
      obtain ⟨f, rfl⟩ : ∃ f, fuel = f + 1 := ⟨fuel - 1, by omega⟩
      rw [hlines]
      rw [blockLoop_map_scalar_step hk hv rfl hcne]
      rw [odSet_append _ (hfresh (k, Value.int n) (List.mem_cons_self _ _))]
      rw [(ih f (by omega)).1 rest2 i rest .cdict (mp ++ [(k, Value.int n)]) hrest2
        (keyFresh_step hfresh hnek) (Or.inl rfl) hrest (by omega)]
      simp
    | Value.str s =>
      have hlines : (dumpMapItems ((k, Value.str s) :: rest2) i).map lineOf ++ rest =
          lineOf (spaces i ++ k ++ ": " ++ formatScalar (Value.str s)) ::
            ((dumpMapItems rest2 i).map lineOf ++ rest) := by
        rw [show dumpMapItems ((k, Value.str s) :: rest2) i =
          [spaces i ++ k ++ ": " ++ formatScalar (Value.str s)] ++ dumpMapItems rest2 i
          from rfl]
        simp
      have hlen : (dumpMapItems ((k, Value.str s) :: rest2) i).length =
          1 + (dumpMapItems rest2 i).length := by
        rw [show dumpMapItems ((k, Value.str s) :: rest2) i =
          [spaces i ++ k ++ ": " ++ formatScalar (Value.str s)] ++ dumpMapItems rest2 i
          from rfl]
        simp
        try omega
      rw [hlen] at hfuel
      obtain ⟨f, rfl⟩ : ∃ f, fuel = f + 1 := ⟨fuel - 1, by omega⟩
      rw [hlines]
      rw [blockLoop_map_scalar_step hk hv rfl hcne]
      rw [odSet_append _ (hfresh (k, Value.str s) (List.mem_cons_self _ _))]
      rw [(ih f (by omega)).1 rest2 i rest .cdict (mp ++ [(k, Value.str s)]) hrest2
        (keyFresh_step hfresh hnek) (Or.inl rfl) hrest (by omega)]
      simp
    | Value.pyFloat lit =>
      rw [safeVal] at hv
      cases hv
  · -- StmtList
    intro xs i rest coll acc hs hcoll hrest hfuel
    have hcnd : coll ≠ .cdict := by
      rcases hcoll with h | ⟨h, _⟩ <;> (rw [h]; intro e; cases e)
    rcases xs with _ | ⟨v, rest2⟩
    · rcases hcoll with h | ⟨_, _, hne⟩
      · rw [show dumpListItems [] i = [] from rfl, List.map_nil, List.nil_append]
        obtain ⟨f, rfl⟩ : ∃ f, fuel = f + 1 := ⟨fuel - 1, by omega⟩
        rw [blockLoop_end hrest, h]
        rw [show finishColl .clist acc [] = .list acc from rfl]
        rw [List.append_nil]
      · exact absurd rfl hne
    · obtain ⟨hv, hrest2⟩ := safeList_cons hs
      match v with
    | Value.list xs =>
      have hlines : (dumpListItems (Value.list xs :: rest2) i).map lineOf ++ rest =
          lineOf (spaces i ++ "-") ::
            ((dumpValue (Value.list xs) (i + 2)).map lineOf ++
              ((dumpListItems rest2 i).map lineOf ++ rest)) := by
        rw [show dumpListItems (Value.list xs :: rest2) i =
          ((spaces i ++ "-") :: dumpValue (Value.list xs) (i + 2)) ++ dumpListItems rest2 i
          from rfl]
        simp
      have hlen : (dumpListItems (Value.list xs :: rest2) i).length =
          1 + (dumpValue (Value.list xs) (i + 2)).length + (dumpListItems rest2 i).length := by
        rw [show dumpListItems (Value.list xs :: rest2) i =
          ((spaces i ++ "-") :: dumpValue (Value.list xs) (i + 2)) ++ dumpListItems rest2 i
          from rfl]
        simp
        try omega
      rw [hlen] at hfuel
      obtain ⟨f, rfl⟩ : ∃ f, fuel = f + 2 := ⟨fuel - 2, by omega⟩
      have hpb := (ih f (by omega)).2.2 (Value.list xs) (i + 2)
        ((dumpListItems rest2 i).map lineOf ++ rest) hv rfl
        (restOK_of_listLines hrest2 (by omega) hrest) (by omega)
      rw [hlines]
      rw [blockLoop_list_nested_step hcnd hpb]
      rw [(ih (f + 1) (by omega)).2.1 rest2 i rest .clist (acc ++ [Value.list xs]) hrest2
        (Or.inl rfl) hrest (by omega)]
      simp
    | Value.map kvs2 =>
      have hlines : (dumpListItems (Value.map kvs2 :: rest2) i).map lineOf ++ rest =
          lineOf (spaces i ++ "-") ::
            ((dumpValue (Value.map kvs2) (i + 2)).map lineOf ++
              ((dumpListItems rest2 i).map lineOf ++ rest)) := by
        rw [show dumpListItems (Value.map kvs2 :: rest2) i =
          ((spaces i ++ "-") :: dumpValue (Value.map kvs2) (i + 2)) ++ dumpListItems rest2 i
          from rfl]
        simp
      have hlen : (dumpListItems (Value.map kvs2 :: rest2) i).length =
          1 + (dumpValue (Value.map kvs2) (i + 2)).length + (dumpListItems rest2 i).length := by
        rw [show dumpListItems (Value.map kvs2 :: rest2) i =
          ((spaces i ++ "-") :: dumpValue (Value.map kvs2) (i + 2)) ++ dumpListItems rest2 i
          from rfl]
        simp
        try omega
      rw [hlen] at hfuel
      obtain ⟨f, rfl⟩ : ∃ f, fuel = f + 2 := ⟨fuel - 2, by omega⟩
      have hpb := (ih f (by omega)).2.2 (Value.map kvs2) (i + 2)
        ((dumpListItems rest2 i).map lineOf ++ rest) hv rfl
        (restOK_of_listLines hrest2 (by omega) hrest) (by omega)
      rw [hlines]
      rw [blockLoop_list_nested_step hcnd hpb]
      rw [(ih (f + 1) (by omega)).2.1 rest2 i rest .clist (acc ++ [Value.map kvs2]) hrest2
        (Or.inl rfl) hrest (by omega)]
      simp
    | Value.null =>
      have hlines : (dumpListItems (Value.null :: rest2) i).map lineOf ++ rest =
          lineOf (spaces i ++ "- " ++ formatScalar (Value.null)) ::
            ((dumpListItems rest2 i).map lineOf ++ rest) := by
        rw [show dumpListItems (Value.null :: rest2) i =
          [spaces i ++ "- " ++ formatScalar (Value.null)] ++ dumpListItems rest2 i
          from rfl]
        simp
      have hlen : (dumpListItems (Value.null :: rest2) i).length =
          1 + (dumpListItems rest2 i).length := by
        rw [show dumpListItems (Value.null :: rest2) i =
          [spaces i ++ "- " ++ formatScalar (Value.null)] ++ dumpListItems rest2 i
          from rfl]
        simp
        try omega
      rw [hlen] at hfuel
      obtain ⟨f, rfl⟩ : ∃ f, fuel = f + 3 := ⟨fuel - 3, by omega⟩
      rw [hlines]
      rw [blockLoop_list_scalar_step hv rfl hcnd (peekOK_of_listLines hrest2 hrest)]
      rw [(ih (f + 2) (by omega)).2.1 rest2 i rest .clist (acc ++ [Value.null]) hrest2
        (Or.inl rfl) hrest (by omega)]
      simp
    | Value.bool b =>
      have hlines : (dumpListItems (Value.bool b :: rest2) i).map lineOf ++ rest =
          lineOf (spaces i ++ "- " ++ formatScalar (Value.bool b)) ::
            ((dumpListItems rest2 i).map lineOf ++ rest) := by
        rw [show dumpListItems (Value.bool b :: rest2) i =
          [spaces i ++ "- " ++ formatScalar (Value.bool b)] ++ dumpListItems rest2 i
          from rfl]
        simp
      have hlen : (dumpListItems (Value.bool b :: rest2) i).length =
          1 + (dumpListItems rest2 i).length := by
        rw [show dumpListItems (Value.bool b :: rest2) i =
          [spaces i ++ "- " ++ formatScalar (Value.bool b)] ++ dumpListItems rest2 i
          from rfl]
        simp
        try omega
      rw [hlen] at hfuel
      obtain ⟨f, rfl⟩ : ∃ f, fuel = f + 3 := ⟨fuel - 3, by omega⟩
      rw [hlines]
      rw [blockLoop_list_scalar_step hv rfl hcnd (peekOK_of_listLines hrest2 hrest)]
      rw [(ih (f + 2) (by omega)).2.1 rest2 i rest .clist (acc ++ [Value.bool b]) hrest2
        (Or.inl rfl) hrest (by omega)]
      simp
    | Value.int n =>
      have hlines : (dumpListItems (Value.int n :: rest2) i).map lineOf ++ rest =
          lineOf (spaces i ++ "- " ++ formatScalar (Value.int n)) ::
            ((dumpListItems rest2 i).map lineOf ++ rest) := by
        rw [show dumpListItems (Value.int n :: rest2) i =
          [spaces i ++ "- " ++ formatScalar (Value.int n)] ++ dumpListItems rest2 i
          from rfl]
        simp
      have hlen : (dumpListItems (Value.int n :: rest2) i).length =
          1 + (dumpListItems rest2 i).length := by
        rw [show dumpListItems (Value.int n :: rest2) i =
          [spaces i ++ "- " ++ formatScalar (Value.int n)] ++ dumpListItems rest2 i
          from rfl]
        simp
        try omega
      rw [hlen] at hfuel
      obtain ⟨f, rfl⟩ : ∃ f, fuel = f + 3 := ⟨fuel - 3, by omega⟩
      rw [hlines]
      rw [blockLoop_list_scalar_step hv rfl hcnd (peekOK_of_listLines hrest2 hrest)]
      rw [(ih (f + 2) (by omega)).2.1 rest2 i rest .clist (acc ++ [Value.int n]) hrest2
        (Or.inl rfl) hrest (by omega)]
      simp
    | Value.str s =>
      have hlines : (dumpListItems (Value.str s :: rest2) i).map lineOf ++ rest =
          lineOf (spaces i ++ "- " ++ formatScalar (Value.str s)) ::
            ((dumpListItems rest2 i).map lineOf ++ rest) := by
        rw [show dumpListItems (Value.str s :: rest2) i =
          [spaces i ++ "- " ++ formatScalar (Value.str s)] ++ dumpListItems rest2 i
          from rfl]
        simp
      have hlen : (dumpListItems (Value.str s :: rest2) i).length =
          1 + (dumpListItems rest2 i).length := by
        rw [show dumpListItems (Value.str s :: rest2) i =
          [spaces i ++ "- " ++ formatScalar (Value.str s)] ++ dumpListItems rest2 i
          from rfl]
        simp
        try omega
      rw [hlen] at hfuel
      obtain ⟨f, rfl⟩ : ∃ f, fuel = f + 3 := ⟨fuel - 3, by omega⟩
      rw [hlines]
      rw [blockLoop_list_scalar_step hv rfl hcnd (peekOK_of_listLines hrest2 hrest)]
      rw [(ih (f + 2) (by omega)).2.1 rest2 i rest .clist (acc ++ [Value.str s]) hrest2
        (Or.inl rfl) hrest (by omega)]
      simp
    | Value.pyFloat lit =>
      rw [safeVal] at hv
      cases hv
  · -- StmtVal
    intro v i rest hsafe hcoll hrest hfuel
    obtain ⟨f, rfl⟩ : ∃ f, fuel = f + 1 := ⟨fuel - 1, by omega⟩
    rw [parseBlockF_succ]
    match v, hcoll with
    | .list xs, _ =>
      have hlenv : (dumpValue (Value.list xs) i).length = (dumpListItems xs i).length := rfl
      rw [hlenv] at hfuel
      rw [show dumpValue (Value.list xs) i = dumpListItems xs i from rfl]
      obtain ⟨hne, hxs⟩ := safeVal_list hsafe
      rw [(ih f (by omega)).2.1 xs i rest .cnone [] hxs (Or.inr ⟨rfl, rfl, hne⟩)
        hrest (by omega)]
      rw [List.nil_append]
    | .map kvs, _ =>
      have hlenv : (dumpValue (Value.map kvs) i).length = (dumpMapItems kvs i).length := rfl
      rw [hlenv] at hfuel
      rw [show dumpValue (Value.map kvs) i = dumpMapItems kvs i from rfl]
      rw [(ih f (by omega)).1 kvs i rest .cnone [] (safeVal_map hsafe)
        (fun q hq => keyMem_nil q.1) (Or.inr ⟨rfl, rfl⟩) hrest (by omega)]
      rw [List.nil_append]


/-! ## Joining and re-splitting the emitted lines -/

theorem joinNL_cons_ne {l : String} {rest : List String} (h : rest ≠ []) :
    joinNL (l :: rest) = l ++ "\n" ++ joinNL rest := by
  rcases rest with _ | ⟨l2, r2⟩
  · exact absurd rfl h
  · rfl

theorem joinNL_flat : ∀ (L : List String), L ≠ [] →
    (joinNL L).data ++ ['\n'] =
      (L.map String.data).flatMap (fun d => d ++ ['\n']) := by
  intro L
  induction L with
  | nil => intro h; exact absurd rfl h
  | cons l rest ihl =>
    intro _
    rcases hr : rest with _ | ⟨l2, rest2⟩
    · rw [show joinNL [l] = l from rfl]
      simp
    · rw [← hr, joinNL_cons_ne (by rw [hr]; simp)]
      rw [List.map_cons, List.flatMap_cons]
      rw [← ihl (by rw [hr]; simp)]
      rw [data_append, data_append]
      have hnl : ("\n" : String).data = ['\n'] := rfl
      rw [hnl]
      simp

theorem joinNL_concat_data : ∀ (L : List String) (z : String),
    ∃ p, (joinNL (L ++ [z])).data = p ++ z.data := by
  intro L
  induction L with
  | nil => exact fun z => ⟨[], rfl⟩
  | cons l rest ihl =>
    intro z
    obtain ⟨p, hp⟩ := ihl z
    rw [List.cons_append, joinNL_cons_ne (by simp)]
    refine ⟨(l ++ "\n").data ++ p, ?_⟩
    rw [data_append, hp, List.append_assoc]

/-- Right-stripping the joined emitted lines is a no-op. -/
theorem pyRstrip_joinNL {L : List String} (hne : L ≠ []) (hgood : ∀ l ∈ L, goodLine l) :
    pyRstrip (joinNL L) = joinNL L := by
  obtain ⟨L2, z, rfl⟩ := exists_concat hne
  obtain ⟨p, hp⟩ := joinNL_concat_data L2 z
  obtain ⟨_, m2, c2, hz, hc2⟩ := hgood z (by simp)
  apply pyRstrip_id
  intro m c e
  rw [hp, hz] at e
  have := (append_singleton_inj (e.symm.trans (by rw [List.append_assoc]))).2
  rw [this]
  exact hc2

theorem pySplitlinesGo_line : ∀ (d : List Char) (cur rest : List Char),
    (∀ c ∈ d, pyIsLineBreak c = false) →
    pySplitlinesGo cur (d ++ '\n' :: rest) = (cur ++ d) :: pySplitlinesGo [] rest := by
  intro d
  induction d with
  | nil =>
    intro cur rest _
    rw [List.nil_append, pySplitlinesGo]
    rw [if_neg (by decide), if_pos (by decide), List.append_nil]
  | cons c d2 ihd =>
    intro cur rest hbr
    have hc := hbr c (List.mem_cons_self c d2)
    have hcr : ¬(c = '\x0d') := by
      intro e
      rw [e] at hc
      exact absurd hc (by decide)
    rw [List.cons_append, pySplitlinesGo, if_neg hcr, if_neg (by rw [hc]; simp)]
    rw [ihd (cur ++ [c]) rest (fun x hx => hbr x (List.mem_cons_of_mem c hx))]
    rw [List.append_assoc]
    rfl

theorem pySplitlinesGo_flat : ∀ (L : List String),
    (∀ l ∈ L, goodLine l) →
    pySplitlinesGo [] ((L.map String.data).flatMap (fun d => d ++ ['\n'])) =
      L.map String.data ++ [[]] := by
  intro L
  induction L with
  | nil => intro _; rfl
  | cons l rest ihl =>
    intro hgood
    rw [List.map_cons, List.flatMap_cons]
    have hbr := (hgood l (List.mem_cons_self l rest)).1
    rw [show l.data ++ ['\n'] ++ (rest.map String.data).flatMap (fun d => d ++ ['\n']) =
      l.data ++ '\n' :: (rest.map String.data).flatMap (fun d => d ++ ['\n']) by simp]
    rw [pySplitlinesGo_line l.data [] _ hbr]
    rw [ihl (fun x hx => hgood x (List.mem_cons_of_mem l hx))]
    simp

theorem flat_ends_newline : ∀ (L : List String), L ≠ [] →
    ∃ p, (L.map String.data).flatMap (fun d => d ++ ['\n']) = p ++ ['\n'] := by
  intro L
  induction L with
  | nil => intro h; exact absurd rfl h
  | cons l rest ihl =>
    intro _
    rcases hr : rest with _ | ⟨l2, rest2⟩
    · refine ⟨l.data, ?_⟩
      simp
    · obtain ⟨p, hp⟩ := ihl (by rw [hr]; simp)
      rw [hr] at hp
      refine ⟨l.data ++ '\n' :: p, ?_⟩
      rw [List.map_cons, List.flatMap_cons, hp]
      simp

theorem getLast_concat_bang {p : List Char} {c : Char} :
    (p ++ [c]).getLast! = c := by
  induction p with
  | nil => rfl
  | cons a p2 ihp =>
    rcases he : p2 ++ [c] with _ | ⟨b, t⟩
    · simp at he
    · have h1 : (a :: (p2 ++ [c])).getLast! = (p2 ++ [c]).getLast! := by
        rw [he]
        rfl
      rw [List.cons_append, h1]
      exact ihp

theorem map_mk_data : ∀ L : List String, (L.map String.data).map String.mk = L := by
  intro L
  induction L with
  | nil => rfl
  | cons l rest ihl =>
    rw [List.map_cons, List.map_cons, ihl, strEta]

/-- Splitting the serialized emitted lines recovers them exactly. -/
theorem pySplitlines_flat {L : List String} (hne : L ≠ [])
    (hgood : ∀ l ∈ L, goodLine l) :
    pySplitlines (joinNL L ++ "\n") = L := by
  have hdata : (joinNL L ++ "\n").data =
      (L.map String.data).flatMap (fun d => d ++ ['\n']) := by
    rw [data_append]
    have hnl : ("\n" : String).data = ['\n'] := rfl
    rw [hnl]
    exact joinNL_flat L hne
  obtain ⟨p, hp⟩ := flat_ends_newline L hne
  obtain ⟨c0, cs0, hcs⟩ : ∃ c0 cs0,
      (L.map String.data).flatMap (fun d => d ++ ['\n']) = c0 :: cs0 := by
    rcases he : (L.map String.data).flatMap (fun d => d ++ ['\n']) with _ | ⟨c0, cs0⟩
    · rw [he] at hp
      rcases p with _ | _
      · cases hp
      · simp at hp
    · exact ⟨c0, cs0, rfl⟩
  rw [pySplitlines, hdata, hcs]
  dsimp only
  rw [← hcs]
  have hlast : ((L.map String.data).flatMap (fun d => d ++ ['\n'])).getLast! = '\n' := by
    rw [hp]
    exact getLast_concat_bang
  rw [hlast]
  rw [if_pos (by decide)]
  rw [pySplitlinesGo_flat L hgood]
  rw [List.dropLast_concat]
  exact map_mk_data L

/-! ## The round-trip claim -/

theorem dumpListItems_ne_nil : ∀ {xs : List Value} (i : Nat), xs ≠ [] →
    dumpListItems xs i ≠ []
  | [], _, hne => absurd rfl hne
  | v :: rest, i, _ => by
    match v with
    | Value.list xs2 =>
      rw [show dumpListItems (Value.list xs2 :: rest) i = ((spaces i ++ "-") :: dumpValue (Value.list xs2) (i + 2)) ++ dumpListItems rest i from rfl]
      simp
    | Value.map kvs2 =>
      rw [show dumpListItems (Value.map kvs2 :: rest) i = ((spaces i ++ "-") :: dumpValue (Value.map kvs2) (i + 2)) ++ dumpListItems rest i from rfl]
      simp
    | Value.null =>
      rw [show dumpListItems (Value.null :: rest) i = [spaces i ++ "- " ++ formatScalar (Value.null)] ++ dumpListItems rest i from rfl]
      simp
    | Value.bool b =>
      rw [show dumpListItems (Value.bool b :: rest) i = [spaces i ++ "- " ++ formatScalar (Value.bool b)] ++ dumpListItems rest i from rfl]
      simp
    | Value.int n =>
      rw [show dumpListItems (Value.int n :: rest) i = [spaces i ++ "- " ++ formatScalar (Value.int n)] ++ dumpListItems rest i from rfl]
      simp
    | Value.str s =>
      rw [show dumpListItems (Value.str s :: rest) i = [spaces i ++ "- " ++ formatScalar (Value.str s)] ++ dumpListItems rest i from rfl]
      simp
    | Value.pyFloat lit =>
      rw [show dumpListItems (Value.pyFloat lit :: rest) i = [spaces i ++ "- " ++ formatScalar (Value.pyFloat lit)] ++ dumpListItems rest i from rfl]
      simp

theorem dumpMapItems_ne_nil : ∀ {kvs : List (String × Value)} (i : Nat), kvs ≠ [] →
    dumpMapItems kvs i ≠ []
  | [], _, hne => absurd rfl hne
  | (k, v) :: rest, i, _ => by
    match v with
    | Value.list xs2 =>
      rw [show dumpMapItems ((k, Value.list xs2) :: rest) i = ((spaces i ++ k ++ ":") :: dumpValue (Value.list xs2) (i + 2)) ++ dumpMapItems rest i from rfl]
      simp
    | Value.map kvs2 =>
      rw [show dumpMapItems ((k, Value.map kvs2) :: rest) i = ((spaces i ++ k ++ ":") :: dumpValue (Value.map kvs2) (i + 2)) ++ dumpMapItems rest i from rfl]
      simp
    | Value.null =>
      rw [show dumpMapItems ((k, Value.null) :: rest) i = [spaces i ++ k ++ ": " ++ formatScalar (Value.null)] ++ dumpMapItems rest i from rfl]
      simp
    | Value.bool b =>
      rw [show dumpMapItems ((k, Value.bool b) :: rest) i = [spaces i ++ k ++ ": " ++ formatScalar (Value.bool b)] ++ dumpMapItems rest i from rfl]
      simp
    | Value.int n =>
      rw [show dumpMapItems ((k, Value.int n) :: rest) i = [spaces i ++ k ++ ": " ++ formatScalar (Value.int n)] ++ dumpMapItems rest i from rfl]
      simp
    | Value.str s =>
      rw [show dumpMapItems ((k, Value.str s) :: rest) i = [spaces i ++ k ++ ": " ++ formatScalar (Value.str s)] ++ dumpMapItems rest i from rfl]
      simp
    | Value.pyFloat lit =>
      rw [show dumpMapItems ((k, Value.pyFloat lit) :: rest) i = [spaces i ++ k ++ ": " ++ formatScalar (Value.pyFloat lit)] ++ dumpMapItems rest i from rfl]
      simp

/-- The amended round trip, line-level core: loading the serialized form of a
safe nonempty collection recovers it. -/
theorem load_dump_safe {v : Value} (hsafe : safeVal v = true) (hcoll : isColl v = true)
    (hne : dumpValue v 0 ≠ []) : load (dump v) = .ok v := by
  have hgood : ∀ l ∈ dumpValue v 0, goodLine l := dumpValue_good v 0 hsafe
  have hdump : dump v = joinNL (dumpValue v 0) ++ "\n" := by
    rw [dump, pyRstrip_joinNL hne hgood]
  have hsplit : pySplitlines (dump v) = dumpValue v 0 := by
    rw [hdump]
    exact pySplitlines_flat hne hgood
  rw [load, hsplit]
  have hpb := (dumpRoundAux (parseFuel (dumpValue v 0).length)).2.2 v 0 []
    hsafe hcoll (Or.inl rfl) (by rw [parseFuel]; omega)
  rw [List.append_nil] at hpb
  rw [parseLinesF, hpb]
  rfl

/-- **C1 (amended).**  Round trip on the safe class: for every safe root
value (a collection whose lists are nonempty, whose keys are trimmed,
colon-free, break-free, comment-free and duplicate-free, and whose strings
are unambiguous — in particular every plain-emitted string is ASCII, so the
`int()` / `float()` / `lower()` readers of `_parse_scalar` agree with their
ASCII-level models here), parsing the serialized form yields the value
back. -/
theorem claim_C1 (v : Value) (h : safeRoot v = true) : load (dump v) = .ok v := by
  rw [safeRoot, Bool.and_eq_true] at h
  obtain ⟨hcoll, hsafe⟩ := h
  by_cases hmt : v = .map []
  · subst hmt
    decide
  · apply load_dump_safe hsafe hcoll
    match v, hcoll, hsafe with
    | .list xs, _, hsafe =>
      exact dumpListItems_ne_nil 0 (safeVal_list hsafe).1
    | .map kvs, _, _ =>
      have hkne : kvs ≠ [] := by
        intro e
        rw [e] at hmt
        exact hmt rfl
      exact dumpMapItems_ne_nil 0 hkne

/-- **C1 — counterexample.**  The unrestricted claim is false: the list
containing the single string "null" serializes to a form that parses back as
the list containing `None`. -/
theorem claim_C1_counterexample :
    load (dump (Value.list [Value.str "null"])) = .ok (Value.list [Value.null]) ∧
    Value.list [Value.null] ≠ Value.list [Value.str "null"] := by
  constructor
  · decide
  · decide

/-- Witness for `claim_C1` at a concrete safe document. -/
theorem claim_C1_witness :
    safeRoot (Value.map [("title", .str "Guide"),
      ("items", .list [.int 3, .str "a b", .null]),
      ("meta", .map [("draft", .bool true), ("note", .str " quoted ")])]) = true ∧
    load (dump (Value.map [("title", .str "Guide"),
      ("items", .list [.int 3, .str "a b", .null]),
      ("meta", .map [("draft", .bool true), ("note", .str " quoted ")])])) =
      .ok (Value.map [("title", .str "Guide"),
        ("items", .list [.int 3, .str "a b", .null]),
        ("meta", .map [("draft", .bool true), ("note", .str " quoted ")])]) :=
  ⟨by decide, claim_C1 _ (by decide)⟩

end StoplightVerify
